import Mathlib

/-!
# Dorixona: the spreadsheet ingestion pipeline of `internal/excel/excel.go`

A shallow embedding of `parseNumber`, `detectCategory`, `detectDescription`,
`parseRowData`, the row loop of `UploadExcel` and `batchInsertMedicines`, and of
`translitToRussian`, the text search and the command loop of `cmd/main.go`,
followed by theorems about them.

Conventions.
* A Go `string` is a `List Char` (its sequence of code points); every string the
  pipeline handles comes out of the sheet reader as valid UTF-8.
* Go `int` is 64 bits wide; values are `Int`, and the two places where the width
  shows (`strconv.Atoi`, `int(f)`) clamp or wrap explicitly.
* Library calls (`strings`, `strconv`, `regexp`, `database/sql`) are modelled by
  their documented behaviour on the values that reach them.
-/

namespace Excel

/-- A Go string, as its list of code points. -/
abbrev Str := List Char

/-! ## `strings` -/

/-- Go `unicode.IsSpace`: the Latin-1 spaces and the `White_Space` code points. -/
def isSpace (c : Char) : Bool :=
  let n := c.toNat
  (9 ≤ n && n ≤ 13) || n = 0x20 || n = 0x85 || n = 0xA0 || n = 0x1680 ||
    (0x2000 ≤ n && n ≤ 0x200A) || n = 0x2028 || n = 0x2029 || n = 0x202F ||
    n = 0x205F || n = 0x3000

/-- Go `strings.TrimSpace`: drop leading and trailing `unicode.IsSpace` runes. -/
def trimSpace (s : Str) : Str :=
  ((s.dropWhile isSpace).reverse.dropWhile isSpace).reverse

/-- Go `strings.ReplaceAll(s, " ", "")`. -/
def removeSpaces (s : Str) : Str := s.filter (fun c => c != ' ')

/-- Go `strings.ReplaceAll(s, ",", ".")`. -/
def commaToPoint (s : Str) : Str := s.map (fun c => if c = ',' then '.' else c)

/-- Go `strings.Contains(s, sub)`. -/
def contains (s sub : Str) : Bool := s.tails.any (fun t => sub.isPrefixOf t)

/-- Go `unicode.ToLower` on the Basic Latin, Latin-1 and Cyrillic (U+0400..U+042F)
capitals; the other code points are left as they are.  Every keyword of the
category table is written in lower-case Cyrillic letters and `-`, and no code
point outside these ranges lower-cases to one of those. -/
def toLowerRune (c : Char) : Char :=
  let n := c.toNat
  if 0x41 ≤ n ∧ n ≤ 0x5A then Char.ofNat (n + 0x20)
  else if 0xC0 ≤ n ∧ n ≤ 0xDE ∧ n ≠ 0xD7 then Char.ofNat (n + 0x20)
  else if 0x400 ≤ n ∧ n ≤ 0x40F then Char.ofNat (n + 0x50)
  else if 0x410 ≤ n ∧ n ≤ 0x42F then Char.ofNat (n + 0x20)
  else c

/-- Go `strings.ToLower`. -/
def toLower (s : Str) : Str := s.map toLowerRune

/-! ## `strconv` -/

/-- An ASCII decimal digit. -/
def isDigit (c : Char) : Bool := 48 ≤ c.toNat && c.toNat ≤ 57

/-- Value of a decimal digit. -/
def digitVal (c : Char) : Nat := c.toNat - 48

/-- Value of a string of decimal digits, most significant first. -/
def decimalValue (s : Str) : Nat := s.foldl (fun acc c => acc * 10 + digitVal c) 0

/-- Largest Go `int`. -/
def maxInt : Int := 2 ^ 63 - 1

/-- Smallest Go `int`. -/
def minInt : Int := -(2 ^ 63)

/-- Unsigned part of `strconv.Atoi`: a non-empty digit string, clamped at `bound`
(a range error returns the nearest representable value); anything else is a
syntax error and returns 0. -/
def atoiDigits (s : Str) (bound : Nat) : Nat :=
  if s ≠ [] ∧ s.all isDigit then min (decimalValue s) bound else 0

/-- Go `strconv.Atoi` with the error dropped, as in `num, _ = strconv.Atoi(...)`. -/
def atoi (s : Str) : Int :=
  match s with
  | '-' :: r => -((atoiDigits r (2 ^ 63) : Nat) : Int)
  | '+' :: r => ((atoiDigits r (2 ^ 63 - 1) : Nat) : Int)
  | _ => ((atoiDigits s (2 ^ 63 - 1) : Nat) : Int)

/-- A `float64` value: not-a-number, an infinity, or `(-1)^neg * m * 2^e`. -/
inductive F64 where
  | nan : F64
  | inf (neg : Bool) : F64
  | fin (neg : Bool) (m : Nat) (e : Int) : F64
  deriving DecidableEq, Repr

/-- Number of binary digits of `n`, by structural recursion on the fuel. -/
def bitLenAux : Nat → Nat → Nat
  | 0, _ => 0
  | fuel + 1, n => if n = 0 then 0 else 1 + bitLenAux fuel (n / 2)

/-- Number of binary digits of `n`. -/
def bitLen (n : Nat) : Nat := bitLenAux n n

/-- `n / d` rounded to the nearest integer, ties to even. -/
def roundHalfEven (n d : Nat) : Nat :=
  let q := n / d
  let r := n % d
  if 2 * r < d then q else if d < 2 * r then q + 1 else if q % 2 = 0 then q else q + 1

/-- The integer `k` with `2^k ≤ n/d < 2^(k+1)`, for `0 < n` and `0 < d`. -/
def floorLog2 (n d : Nat) : Int :=
  let k0 : Int := (bitLen n : Int) - (bitLen d : Int)
  if k0 ≥ 0 then (if d * 2 ^ k0.toNat ≤ n then k0 else k0 - 1)
  else (if d ≤ n * 2 ^ (-k0).toNat then k0 else k0 - 1)

/-- The `float64` nearest to `(-1)^neg * n / d` (IEEE 754 round to nearest, ties to
even, 53-bit significand, least exponent `-1074`); `none` when the rounded value
exceeds the largest finite `float64`, where `ParseFloat` reports a range error. -/
def roundF64 (neg : Bool) (n d : Nat) : Option F64 :=
  if n = 0 then some (F64.fin neg 0 0)
  else
    let e : Int := max (-1074) (floorLog2 n d - 52)
    let q := if e ≥ 0 then roundHalfEven n (d * 2 ^ e.toNat)
             else roundHalfEven (n * 2 ^ (-e).toNat) d
    if e ≥ 0 ∧ q * 2 ^ e.toNat ≥ 2 ^ 1024 then none else some (F64.fin neg q e)

/-- Go `int(f)` on a 64-bit platform: truncation toward zero; for NaN, the
infinities and values outside the `int` range the language leaves the result to
the implementation, and this is the amd64 one (`minInt`). -/
def F64.toInt : F64 → Int
  | F64.nan => minInt
  | F64.inf _ => minInt
  | F64.fin neg m e =>
    let a : Nat := if e ≥ 0 then m * 2 ^ e.toNat else m / 2 ^ (-e).toNat
    let v : Int := if neg then -(a : Int) else (a : Int)
    if minInt ≤ v ∧ v ≤ maxInt then v else minInt

/-- ASCII lower-casing of `A`..`Z`, as in `commonPrefixLenIgnoreCase`. -/
def asciiLower (c : Char) : Char :=
  if 65 ≤ c.toNat ∧ c.toNat ≤ 90 then Char.ofNat (c.toNat + 32) else c

/-- The `special` case of `ParseFloat`: `inf`, `infinity` (optionally signed) and
`nan`, in any letter case, taken as the whole string. -/
def parseSpecial (s : Str) : Option F64 :=
  let l := s.map asciiLower
  if l = "inf".toList ∨ l = "infinity".toList ∨ l = "+inf".toList ∨ l = "+infinity".toList then
    some (F64.inf false)
  else if l = "-inf".toList ∨ l = "-infinity".toList then some (F64.inf true)
  else if l = "nan".toList then some F64.nan
  else none

/-- A hexadecimal digit (`0`-`9`, `a`-`f`, `A`-`F`). -/
def isHexDigit (c : Char) : Bool :=
  isDigit c || (97 ≤ c.toNat && c.toNat ≤ 102) || (65 ≤ c.toNat && c.toNat ≤ 70)

/-- Value of a hexadecimal digit. -/
def hexVal (c : Char) : Nat :=
  if isDigit c then c.toNat - 48
  else if 97 ≤ c.toNat then c.toNat - 87 else c.toNat - 55

/-- Scan state of the mantissa loop of `readFloat`. -/
structure MantScan where
  mant : Nat
  frac : Nat
  sawdot : Bool
  sawdigits : Bool
  underscores : Bool
  rest : Str
  deriving DecidableEq, Repr

/-- The mantissa loop of `readFloat`: digits, underscores and at most one point;
`mant` is the digit string read as an integer and `frac` the number of digits
after the point. -/
def scanMant (hex : Bool) : Str → Nat → Nat → Bool → Bool → Bool → MantScan
  | [], m, f, dot, dig, us => ⟨m, f, dot, dig, us, []⟩
  | c :: r, m, f, dot, dig, us =>
    if c = '_' then scanMant hex r m f dot dig true
    else if c = '.' then
      if dot then ⟨m, f, dot, dig, us, c :: r⟩ else scanMant hex r m f true dig us
    else if isDigit c then
      scanMant hex r (m * (if hex then 16 else 10) + digitVal c) (if dot then f + 1 else f)
        dot true us
    else if hex && isHexDigit c then
      scanMant hex r (m * 16 + hexVal c) (if dot then f + 1 else f) dot true us
    else ⟨m, f, dot, dig, us, c :: r⟩

/-- The exponent digit loop of `readFloat`: digits and underscores, the value no
longer accumulated once it has reached 10000. -/
def scanExp : Str → Nat → Bool → Nat × Bool × Str
  | [], e, us => (e, us, [])
  | c :: r, e, us =>
    if c = '_' then scanExp r e true
    else if isDigit c then scanExp r (if e < 10000 then e * 10 + digitVal c else e) us
    else (e, us, c :: r)

/-- State of `underscoreOK`: start, after a digit, after an underscore, other. -/
inductive UState where
  | start | digit | under | other
  deriving DecidableEq, Repr

/-- The scan of `underscoreOK` over the number proper. -/
def underscoreScan (hex : Bool) : Str → UState → Bool
  | [], i => i != UState.under
  | c :: r, i =>
    if isDigit c || (hex && isHexDigit c) then underscoreScan hex r UState.digit
    else if c = '_' then
      if i != UState.digit then false else underscoreScan hex r UState.under
    else if i == UState.under then false
    else underscoreScan hex r UState.other

/-- Go `underscoreOK`: underscores only between digits or after a base prefix. -/
def underscoreOK (s : Str) : Bool :=
  let s := match s with
    | '-' :: r => r
    | '+' :: r => r
    | _ => s
  match s with
  | '0' :: c :: r =>
    if c = 'b' ∨ c = 'B' ∨ c = 'o' ∨ c = 'O' ∨ c = 'x' ∨ c = 'X' then
      underscoreScan (c = 'x' ∨ c = 'X') r UState.digit
    else underscoreScan false s UState.start
  | _ => underscoreScan false s UState.start

/-- The optional sign `readFloat` reads first: whether it is `-`, and the rest. -/
def splitSign : Str → Bool × Str
  | [] => (false, [])
  | c :: r => if c = '+' then (false, r) else if c = '-' then (true, r) else (false, c :: r)

/-- The base prefix `readFloat` looks for: `0x` or `0X` with something after it;
whether it is there, and the digits that follow. -/
def splitHex : Str → Bool × Str
  | c0 :: x :: c :: r =>
    if c0 = '0' ∧ (x = 'x' ∨ x = 'X') then (true, c :: r) else (false, c0 :: x :: c :: r)
  | s => (false, s)

/-- Match of `lower(c) == t` for a lower-case letter `t`. -/
def asciiLowerEq (c t : Char) : Bool := c = t || c.toNat + 32 = t.toNat

/-- The exponent part of `readFloat` and the end of `ParseFloat`, entered at the
exponent letter: a sign, at least one digit, then digits and underscores up to
the end of the string.  The result is the value rounded, or `none` for an error. -/
def parseExponent (s : Str) (neg hex : Bool) (sc : MantScan) (r : Str) : Option F64 :=
  let (eneg, er) := splitSign r
  match er with
  | [] => none
  | d :: _ =>
    if !isDigit d then none
    else
      let (e, us, tail) := scanExp er 0 sc.underscores
      if tail ≠ [] then none
      else if us && !underscoreOK s then none
      else
        let scale : Int :=
          (if eneg then -(e : Int) else (e : Int)) -
            (if hex then 4 * (sc.frac : Int) else (sc.frac : Int))
        let b : Nat := if hex then 2 else 10
        if scale ≥ 0 then roundF64 neg (sc.mant * b ^ scale.toNat) 1
        else roundF64 neg sc.mant (b ^ (-scale).toNat)

/-- Result of `strconv.ParseFloat(s, 64)`: the value, or `none` for an error
(syntax or range).  A decimal mantissa `mant` with `frac` digits after the point
denotes `mant / 10^frac`; a hexadecimal mantissa needs a `p` exponent. -/
def parseFloat (s : Str) : Option F64 :=
  match parseSpecial s with
  | some f => some f
  | none =>
    let (neg, body) := splitSign s
    let (hex, digits) := splitHex body
    let sc := scanMant hex digits 0 0 false false false
    if !sc.sawdigits then none
    else
      match sc.rest with
      | [] =>
        if hex then none
        else if sc.underscores && !underscoreOK s then none
        else roundF64 neg sc.mant (10 ^ sc.frac)
      | c :: r =>
        if asciiLowerEq c (if hex then 'p' else 'e') then parseExponent s neg hex sc r
        else none

/-- Go `parseNumber` (excel.go:18). -/
def parseNumber (s : Str) : Int :=
  let s := trimSpace s
  let s := removeSpaces s
  let s := commaToPoint s
  match parseFloat s with
  | none => 0
  | some f => f.toInt

/-! ## `regexp`

Both patterns of `parseRowData` are a `^`, a sequence of repeated character
classes and a `$`.  `FindStringSubmatch` returns the leftmost-first match: the one
a backtracking search finds first, trying a greedy repetition from its longest
candidate down and a lazy one from its shortest up. -/

/-- The class `\d`: ASCII digits. -/
def reDigit (c : Char) : Bool := isDigit c

/-- The class `\s`, which in Go is `[\t\n\f\r ]`. -/
def reSpace (c : Char) : Bool :=
  c.toNat = 9 || c.toNat = 10 || c.toNat = 12 || c.toNat = 13 || c.toNat = 32

/-- The class `[\d,]`. -/
def reDigitComma (c : Char) : Bool := reDigit c || c = ','

/-- The class `[\d\s,]`. -/
def reDigitSpaceComma (c : Char) : Bool := reDigit c || reSpace c || c = ','

/-- The class `.` (no `s` flag): any code point but the line feed. -/
def reAny (c : Char) : Bool := c != '\n'

/-- One repeated character class of a pattern: `cls` repeated at least `min`
times, greedy or lazy, capturing or not. -/
structure Piece where
  cls : Char → Bool
  min : Nat
  greedy : Bool
  cap : Bool

/-- The repetition counts a piece tries on `s`, in the order of the search. -/
def Piece.candidates (p : Piece) (s : Str) : List Nat :=
  let m := (s.takeWhile p.cls).length
  let l := List.range' p.min (m + 1 - p.min)
  if p.greedy then l.reverse else l

/-- Anchored backtracking match of a sequence of pieces followed by `$`; the
result is the list of captured substrings of the first match found. -/
def matchPieces : List Piece → Str → Option (List Str)
  | [], s => if s = [] then some [] else none
  | p :: ps, s =>
    (p.candidates s).findSome? (fun n =>
      (matchPieces ps (s.drop n)).map (fun caps => if p.cap then s.take n :: caps else caps))

/-- `^(\d+)\s+(.+?)\s+\d+\s+[\d,]+\s+([\d,]+)\s+([\d\s,]+)\s+[\d\s,]+\s*(.*)$` -/
def pattern1 : List Piece :=
  [⟨reDigit, 1, true, true⟩, ⟨reSpace, 1, true, false⟩, ⟨reAny, 1, false, true⟩,
   ⟨reSpace, 1, true, false⟩, ⟨reDigit, 1, true, false⟩, ⟨reSpace, 1, true, false⟩,
   ⟨reDigitComma, 1, true, false⟩, ⟨reSpace, 1, true, false⟩,
   ⟨reDigitComma, 1, true, true⟩, ⟨reSpace, 1, true, false⟩,
   ⟨reDigitSpaceComma, 1, true, true⟩, ⟨reSpace, 1, true, false⟩,
   ⟨reDigitSpaceComma, 1, true, false⟩, ⟨reSpace, 0, true, false⟩, ⟨reAny, 0, true, true⟩]

/-- `^(\d+)\s+(.+?)\s+([\d,]+)\s+([\d\s,]+)\s+[\d\s,]+\s*(.*)$` -/
def pattern2 : List Piece :=
  [⟨reDigit, 1, true, true⟩, ⟨reSpace, 1, true, false⟩, ⟨reAny, 1, false, true⟩,
   ⟨reSpace, 1, true, false⟩, ⟨reDigitComma, 1, true, true⟩, ⟨reSpace, 1, true, false⟩,
   ⟨reDigitSpaceComma, 1, true, true⟩, ⟨reSpace, 1, true, false⟩,
   ⟨reDigitSpaceComma, 1, true, false⟩, ⟨reSpace, 0, true, false⟩, ⟨reAny, 0, true, true⟩]

/-- The named results of `parseRowData`. -/
structure Parsed where
  num : Int
  name : Str
  count : Int
  price : Int
  manufacturer : Str
  ok : Bool
  deriving DecidableEq, Repr

/-- The zero values a bare `return` leaves in the named results. -/
def Parsed.zero : Parsed := ⟨0, [], 0, 0, [], false⟩

/-- The assignments made from a successful match (excel.go:94-99, 107-112). -/
def Parsed.ofMatch : List Str → Parsed
  | [m1, m2, m3, m4, m5] =>
    ⟨atoi m1, trimSpace m2, parseNumber m3, parseNumber m4, trimSpace m5, true⟩
  | _ => Parsed.zero

/-- Go `parseRowData` (excel.go:84). -/
def parseRowData (rowStr : Str) : Parsed :=
  let rowStr := trimSpace rowStr
  if rowStr = [] then Parsed.zero
  else
    match matchPieces pattern1 rowStr with
    | some submatches => Parsed.ofMatch submatches
    | none =>
      match matchPieces pattern2 rowStr with
      | some submatches => Parsed.ofMatch submatches
      | none => Parsed.zero

/-! ## Classification -/

/-- The literal `categories` of `detectCategory` (excel.go:34-48), in the order
the source lists its entries. -/
def categories : List (Str × List Str) :=
  [("Antibiotik".toList, ["азитромицин".toList, "амоксициллин".toList, "цефтриаксон".toList,
      "ципрофлоксацин".toList, "левофлоксацин".toList, "доксициклин".toList,
      "эритромицин".toList]),
   ("Og'riq qoldiruvchi".toList, ["анальгин".toList, "парацетамол".toList, "ибупрофен".toList,
      "кетопрофен".toList, "диклофенак".toList, "нимесулид".toList, "кеторол".toList]),
   ("Kardio".toList, ["амлодипин".toList, "эналаприл".toList, "лозартан".toList,
      "валсартан".toList, "бисопролол".toList, "метопролол".toList, "амлесса".toList,
      "аторвастатин".toList]),
   ("Diabet".toList, ["метформин".toList, "глибенкламид".toList, "гликлазид".toList,
      "инсулин".toList, "глимепирид".toList]),
   ("Shamolash".toList, ["аскорил".toList, "амброксол".toList, "бромгексин".toList,
      "мукалтин".toList, "гербион".toList, "синекод".toList, "лазолван".toList]),
   ("Qorin".toList, ["омепразол".toList, "ранитидин".toList, "мезим".toList,
      "панкреатин".toList, "эспумизан".toList, "смекта".toList, "линекс".toList,
      "фестал".toList]),
   ("Allergiya".toList, ["супрастин".toList, "лоратадин".toList, "цетиризин".toList,
      "тавегил".toList, "зодак".toList, "кларитин".toList]),
   ("Vitamin".toList, ["аевит".toList, "компливит".toList, "мультитабс".toList,
      "витрум".toList, "центрум".toList, "кальций".toList, "магний".toList]),
   ("Nerv tizimi".toList, ["фенозепам".toList, "адаптол".toList, "глицин".toList,
      "афобазол".toList, "ново-пассит".toList, "персен".toList]),
   ("Antivirus".toList, ["арбидол".toList, "кагоцел".toList, "циклоферон".toList,
      "ингавирин".toList, "анаферон".toList]),
   ("Dermatalogiya".toList, ["акридерм".toList, "тридерм".toList, "клотримазол".toList,
      "синтомицин".toList, "левомеколь".toList]),
   ("Oftalmologiya".toList, ["альбуцид".toList, "тобрекс".toList, "визин".toList,
      "систейн".toList, "тауфон".toList]),
   ("Ginekologiya".toList, ["утрожестан".toList, "дюфастон".toList, "тержинан".toList,
      "клотримазол".toList, "пимафуцин".toList])]

/-- An order in which `range categories` may visit the entries of the map: Go
leaves the iteration order of a map unspecified, so any arrangement of the
entries can occur, and it can differ from one call to the next. -/
def IsCategoryOrder (order : List (Str × List Str)) : Prop := order.Perm categories

instance (order : List (Str × List Str)) : Decidable (IsCategoryOrder order) := by
  unfold IsCategoryOrder; infer_instance

/-- The inner loop of `detectCategory`: some keyword of the entry is contained in
the lower-cased name. -/
def keywordHit (name : Str) (keywords : List Str) : Bool :=
  keywords.any (fun keyword => contains name keyword)

/-- Go `detectCategory` (excel.go:31), run with the map visited in `order`: the
first entry visited that has a keyword contained in the name decides. -/
def detectCategory (order : List (Str × List Str)) (medicineName : Str) : Str :=
  let name := toLower medicineName
  match order.find? (fun entry => keywordHit name entry.2) with
  | some entry => entry.1
  | none => "Boshqa".toList

/-- The literal `descriptions` of `detectDescription` (excel.go:62-76). -/
def descriptions : List (Str × Str) :=
  [("Antibiotik".toList, "Bakterial infeksiyalarni davolash uchun".toList),
   ("Og'riq qoldiruvchi".toList, "Og'riq va yallig'lanishni kamaytiradi".toList),
   ("Kardio".toList, "Yurak-qon tomir kasalliklarini davolash".toList),
   ("Diabet".toList, "Qandli diabet davolash uchun".toList),
   ("Shamolash".toList, "Yo'tal va bronxitni davolash".toList),
   ("Qorin".toList, "Oshqozon-ichak tizimi kasalliklari uchun".toList),
   ("Allergiya".toList, "Allergik reaktsiyalarni kamaytiradi".toList),
   ("Vitamin".toList, "Organizm uchun zarur vitaminlar".toList),
   ("Nerv tizimi".toList, "Asab tizimi va stressni davolash".toList),
   ("Antivirus".toList, "Virus infeksiyalarini davolash".toList),
   ("Dermatalogiya".toList, "Teri kasalliklarini davolash".toList),
   ("Oftalmologiya".toList, "Ko'z kasalliklarini davolash".toList),
   ("Ginekologiya".toList, "Ayollar salomatligi uchun".toList)]

/-- Go `detectDescription` (excel.go:61); the name argument is not used. -/
def detectDescription (_medicineName category : Str) : Str :=
  match descriptions.lookup category with
  | some desc => desc
  | none => "Shifo-dori vositasi".toList

/-! ## Records and the row loop of `UploadExcel` -/

/-- Go `Medicine` (excel.go:148). -/
structure Medicine where
  Name : Str
  Price : Int
  Count : Int
  Manufacturer : Str
  Phone : Str
  Address : Str
  Description : Str
  Category : Str
  PharmacyID : Int
  deriving DecidableEq, Repr

/-- Read of a Go `map[string]V` held as an association list with distinct keys. -/
def mapGet {V : Type} : List (Str × V) → Str → Option V
  | [], _ => none
  | (k1, v1) :: m, k => if k1 = k then some v1 else mapGet m k

/-- The keys of a Go map held as an association list. -/
def mapKeys {V : Type} : List (Str × V) → List Str
  | [] => []
  | (k1, _) :: m => k1 :: mapKeys m

/-- Assignment `m[k] = v` on a Go map: overwrite the entry of `k`, or add one. -/
def mapSet {V : Type} : List (Str × V) → Str → V → List (Str × V)
  | [], k, v => [(k, v)]
  | (k1, v1) :: m, k, v => if k1 = k then (k, v) :: m else (k1, v1) :: mapSet m k v

/-- Decimal text of a natural number, as `%d` prints it; the fuel bounds the
number of digits. -/
def fmtNatAux : Nat → Nat → Str → Str
  | 0, _, acc => acc
  | fuel + 1, n, acc =>
    let acc1 := Char.ofNat (48 + n % 10) :: acc
    if n / 10 = 0 then acc1 else fmtNatAux fuel (n / 10) acc1

/-- Decimal text of a natural number. -/
def fmtNat (n : Nat) : Str := fmtNatAux (n + 1) n []

/-- Decimal text of an integer, as `%d` prints it. -/
def fmtInt (z : Int) : Str :=
  if z < 0 then '-' :: fmtNat z.natAbs else fmtNat z.natAbs

/-- The variables of the row loop of `UploadExcel` (excel.go:207-211). -/
structure LoopState where
  medicinesMap : List (Str × Medicine)
  skipped : Nat
  duplicates : Nat
  failedRows : List Str
  categoryStats : List (Str × Nat)
  deriving DecidableEq, Repr

/-- The loop variables before the first row. -/
def LoopState.init : LoopState := ⟨[], 0, 0, [], []⟩

/-- One iteration of the row loop (excel.go:213-248) on the row of index `i`, with
`order` the order in which this iteration's `detectCategory` visits its map. -/
def uploadStep (order : List (Str × List Str)) (phone address : Str) (pharmacyID : Int)
    (st : LoopState) (i : Nat) (rowStr : Str) : LoopState :=
  let r := parseRowData rowStr
  if !r.ok || r.num == 0 then
    { st with
      skipped := st.skipped + 1
      failedRows :=
        if st.failedRows.length < 10 then
          st.failedRows ++ ["Qator ".toList ++ fmtNat (i + 1) ++ ": ".toList ++ rowStr]
        else st.failedRows }
  else
    let mfr := if r.manufacturer = [] then "Unknown".toList else r.manufacturer
    let category := detectCategory order r.name
    let description := detectDescription r.name category
    let categoryStats :=
      mapSet st.categoryStats category ((mapGet st.categoryStats category).getD 0 + 1)
    let duplicates :=
      if (mapGet st.medicinesMap r.name).isSome then st.duplicates + 1 else st.duplicates
    { st with
      medicinesMap := mapSet st.medicinesMap r.name
        ⟨r.name, r.price, r.count, mfr, phone, address, description, category, pharmacyID⟩
      duplicates := duplicates
      categoryStats := categoryStats }

/-- The row loop from the row of index `i` on; `orders j` is the map order of the
`detectCategory` call made for the row of index `j`. -/
def uploadLoop (orders : Nat → List (Str × List Str)) (phone address : Str) (pharmacyID : Int) :
    LoopState → Nat → List Str → LoopState
  | st, _, [] => st
  | st, i, rowStr :: rest =>
    uploadLoop orders phone address pharmacyID
      (uploadStep (orders i) phone address pharmacyID st i rowStr) (i + 1) rest

/-- Go `strings.Join(row, " ")`. -/
def joinSpace : List Str → Str
  | [] => []
  | [a] => a
  | a :: b :: r => a ++ ' ' :: joinSpace (b :: r)

/-- The flattening of the sheet rows into `rawRows` (excel.go:192-199). -/
def flattenRows (rows : List (List Str)) : List Str :=
  (rows.map (fun row => trimSpace (joinSpace row))).filter (fun fullRow => fullRow != [])

/-! ## The store and `batchInsertMedicines`

The table `medicines` lives in an external PostgreSQL database; it is modelled
by the columns the insert statement names and by the documented meaning of
`INSERT ... ON CONFLICT (name, pharmacy_id) DO UPDATE`. -/

/-- A row of the table `medicines`, with the columns of the insert statement
(excel.go:355). -/
structure StoredRow where
  name : Str
  pharmacy_id : Int
  price : Int
  count : Int
  manufacturer : Str
  phone : Str
  address : Str
  description : Str
  category : Str
  updated_at : Nat
  deriving DecidableEq, Repr

/-- Contents of the table `medicines`. -/
abbrev Store := List StoredRow

/-- The conflict key `(name, pharmacy_id)` of a stored row. -/
def StoredRow.key (r : StoredRow) : Str × Int := (r.name, r.pharmacy_id)

/-- The conflict key `(name, pharmacy_id)` of a record. -/
def Medicine.key (m : Medicine) : Str × Int := (m.Name, m.PharmacyID)

/-- The row the `VALUES` tuple of a record proposes for insertion at time `now`. -/
def Medicine.toRow (m : Medicine) (now : Nat) : StoredRow :=
  ⟨m.Name, m.PharmacyID, m.Price, m.Count, m.Manufacturer, m.Phone, m.Address,
    m.Description, m.Category, now⟩

/-- The row stored under a key, if any. -/
def Store.get (st : Store) (k : Str × Int) : Option StoredRow := st.find? (fun r => r.key = k)

/-- The `DO UPDATE SET` clause (excel.go:357-365) applied to an existing row: the
seven listed columns take the proposed values and `updated_at` is refreshed. -/
def StoredRow.overwrite (r : StoredRow) (m : Medicine) (now : Nat) : StoredRow :=
  { r with price := m.Price, count := m.Count, manufacturer := m.Manufacturer,
           phone := m.Phone, address := m.Address, description := m.Description,
           category := m.Category, updated_at := now }

/-- Effect of one `VALUES` tuple: on a conflict of `(name, pharmacy_id)` the
existing row is overwritten; otherwise the row is inserted. -/
def upsertRow (now : Nat) : Store → Medicine → Store
  | [], m => [m.toRow now]
  | r :: st, m => if r.key = m.key then r.overwrite m now :: st else r :: upsertRow now st m

/-- Effect of one multi-row insert statement (excel.go:354-366) that succeeds.
PostgreSQL accepts such a statement only when its tuples have distinct keys. -/
def execInsert (now : Nat) (st : Store) (batch : List Medicine) : Store :=
  batch.foldl (upsertRow now) st

/-- The database as `batchInsertMedicines` sees it: the committed table, the time
`NOW()` returns in the transaction, and the errors, if any, of `db.Begin()`, of
the `k`-th `tx.Exec` (counted from 0, given its rows) and of `tx.Commit()`. -/
structure DB where
  store : Store
  now : Nat
  beginErr : Option Str
  execErr : Nat → List Medicine → Option Str
  commitErr : Option Str

/-- What a call of `batchInsertMedicines` returns and leaves behind: the two
results, the committed table, whether a transaction was opened and committed, and
the rows of the statements issued, in order. -/
structure BatchOutcome where
  saved : Nat
  err : Option Str
  store : Store
  began : Bool
  committed : Bool
  issued : List (List Medicine)
  deriving DecidableEq, Repr

/-- The slice `medicines[i:end]`. -/
def slice (medicines : List Medicine) (i stop : Nat) : List Medicine :=
  (medicines.drop i).take (stop - i)

/-- The chunk loop of `batchInsertMedicines` (excel.go:328-375) from index `i`,
with `tx` the table as the open transaction sees it.  Every iteration advances
`i` by 100, so `fuel` iterations suffice once `fuel * 100 ≥ len(medicines) - i`.
A failing statement returns at once; the deferred `tx.Rollback()` then discards
`tx`, leaving `db.store`. -/
def insertLoop (db : DB) (medicines : List Medicine) :
    Nat → Nat → Nat → Store → List (List Medicine) → BatchOutcome
  | 0, _, saved, _, issued => ⟨saved, some "fuel".toList, db.store, true, false, issued⟩
  | fuel + 1, i, saved, tx, issued =>
    if i < medicines.length then
      let stop := if i + 100 > medicines.length then medicines.length else i + 100
      let batch := slice medicines i stop
      match db.execErr issued.length batch with
      | some e =>
        ⟨saved, some ("batch insert xato: ".toList ++ e), db.store, true, false,
          issued ++ [batch]⟩
      | none =>
        insertLoop db medicines fuel (i + 100) (saved + batch.length)
          (execInsert db.now tx batch) (issued ++ [batch])
    else
      match db.commitErr with
      | some e => ⟨saved, some ("commit xato: ".toList ++ e), db.store, true, false, issued⟩
      | none => ⟨saved, none, tx, true, true, issued⟩

/-- Go `batchInsertMedicines` (excel.go:310). -/
def batchInsertMedicines (db : DB) (medicines : List Medicine) : BatchOutcome :=
  if medicines.length = 0 then ⟨0, none, db.store, false, false, []⟩
  else
    match db.beginErr with
    | some e => ⟨0, some ("transaction boshlanmadi: ".toList ++ e), db.store, false, false, []⟩
    | none => insertLoop db medicines (medicines.length + 1) 0 0 db.store []

/-! ## `UploadExcel` -/

/-- What the file steps of `UploadExcel` (excel.go:161-188) yield: an error of
`os.Create` or `io.Copy`, of `excelize.OpenFile`, no first sheet, an error of
`GetRows`, or the rows of the first sheet as lists of cells. -/
inductive SheetRead where
  | fileErr (e : Str) : SheetRead
  | openErr (e : Str) : SheetRead
  | noSheet : SheetRead
  | rowsErr (e : Str) : SheetRead
  | rows (rs : List (List Str)) : SheetRead

/-- What a call of `UploadExcel` returns and leaves behind: the error returned,
the committed table, the loop variables after the last row, the slice handed to
`batchInsertMedicines` with that call's outcome (when it is made), and the text
handed to `sendTelegramMessage` (when it is). -/
structure UploadOutcome where
  err : Option Str
  store : Store
  loop : LoopState
  medicines : List Medicine
  batch : Option BatchOutcome
  notification : Option Str
  deriving DecidableEq, Repr

/-- Go `UploadExcel` (excel.go:160).  `orders j` is the map order of the
`detectCategory` call for the raw row of index `j`, and `sliceOrder` the order in
which `range medicinesMap` yields the records (excel.go:252). -/
def UploadExcel (db : DB) (fileName : Str) (fileData : SheetRead)
    (botToken chatID phone address : Str) (pharmacyID : Int)
    (orders : Nat → List (Str × List Str)) (sliceOrder : List Medicine → List Medicine) :
    UploadOutcome :=
  match fileData with
  | SheetRead.fileErr e => ⟨some e, db.store, LoopState.init, [], none, none⟩
  | SheetRead.openErr e =>
    ⟨some ("fayl ochilmadi: ".toList ++ e), db.store, LoopState.init, [], none, none⟩
  | SheetRead.noSheet =>
    ⟨some "sheet topilmadi".toList, db.store, LoopState.init, [], none, none⟩
  | SheetRead.rowsErr e =>
    ⟨some ("qatorlar o'qilmadi: ".toList ++ e), db.store, LoopState.init, [], none, none⟩
  | SheetRead.rows rows =>
    let rawRows := flattenRows rows
    let st := uploadLoop orders phone address pharmacyID LoopState.init 0 rawRows
    let medicines := sliceOrder (st.medicinesMap.map Prod.snd)
    if medicines.length > 0 then
      let out := batchInsertMedicines db medicines
      match out.err with
      | some e =>
        ⟨some ("batch insert xato: ".toList ++ e), out.store, st, medicines, some out, none⟩
      | none =>
        let notification :=
          if botToken ≠ [] ∧ chatID ≠ [] then
            let message :=
              "📊 <b>Excel fayl yuklandi</b>\n\n✅ Saqlandi: <b>".toList ++ fmtNat out.saved ++
                "</b> ta dori\n📁 Fayl: <code>".toList ++ fileName ++ "</code>".toList
            some (if st.duplicates > 0 then
              message ++ "\n🔄 Dublikatlar: <b>".toList ++ fmtNat st.duplicates ++
                "</b> ta (oxirgi qiymat saqlandi)".toList
            else message)
          else none
        ⟨none, out.store, st, medicines, some out, notification⟩
    else ⟨none, db.store, st, medicines, none, none⟩

/-- An order in which `range medicinesMap` may yield the records: any
arrangement of them. -/
def IsSliceOrder (sliceOrder : List Medicine → List Medicine) : Prop :=
  ∀ l, (sliceOrder l).Perm l

/-! ## Quantities the statements speak of -/

/-- The guard of the loop body of `UploadExcel` that lets a row through: parsed,
and with a row number other than 0 (excel.go:216). -/
def accepted (rowStr : Str) : Bool :=
  (parseRowData rowStr).ok && (parseRowData rowStr).num != 0

/-- The record the loop body builds from a row (excel.go:224-247). -/
def buildRecord (order : List (Str × List Str)) (phone address : Str) (pharmacyID : Int)
    (rowStr : Str) : Medicine :=
  let r := parseRowData rowStr
  let category := detectCategory order r.name
  ⟨r.name, r.price, r.count, if r.manufacturer = [] then "Unknown".toList else r.manufacturer,
    phone, address, detectDescription r.name category, category, pharmacyID⟩

/-- The records built from the accepted rows, in input order, the first row
having index `i`. -/
def acceptedRecords (orders : Nat → List (Str × List Str)) (phone address : Str)
    (pharmacyID : Int) : Nat → List Str → List Medicine
  | _, [] => []
  | i, rowStr :: rest =>
    if accepted rowStr then
      buildRecord (orders i) phone address pharmacyID rowStr ::
        acceptedRecords orders phone address pharmacyID (i + 1) rest
    else acceptedRecords orders phone address pharmacyID (i + 1) rest

/-- The last record of a list that carries the given name. -/
def lastNamed (name : Str) (l : List Medicine) : Option Medicine :=
  l.reverse.find? (fun m => m.Name = name)

/-- Number of chunks of 100 that `n` records make: `ceil(n / 100)`. -/
def numChunks (n : Nat) : Nat := (n + 99) / 100

/-- The `j`-th chunk (from 0): the records at positions `100*j` up to
`min(100*(j+1), n) - 1`, in input order. -/
def chunk (medicines : List Medicine) (j : Nat) : List Medicine :=
  (medicines.drop (100 * j)).take 100

/-- A list of `n` records with the distinct names `0`, `1`, ..., used as sample
input. -/
def sampleRecords (n : Nat) : List Medicine :=
  (List.range n).map (fun i => ⟨fmtNat i, 10, 1, "Unknown".toList, [], [], [], [], 1⟩)

/-- A small table used as sample input: one row of branch 1 and two of branch 2. -/
def sampleStore : Store :=
  [⟨"Аспирин".toList, 1, 900, 3, "Bayer".toList, "1".toList, "A".toList, [], "Boshqa".toList, 5⟩,
   ⟨"Аспирин".toList, 2, 950, 4, "Bayer".toList, "2".toList, "B".toList, [], "Boshqa".toList, 6⟩,
   ⟨"Цитрамон".toList, 2, 400, 9, "Unknown".toList, "2".toList, "B".toList, [], "Boshqa".toList, 6⟩]

/-- A database holding `sampleStore` in which no operation fails. -/
def sampleDB : DB := ⟨sampleStore, 7, none, fun _ _ => none, none⟩

/-- Two records of branch 1 used as sample input: one whose key is in
`sampleStore` and one whose key is not. -/
def sampleBatch : List Medicine :=
  [⟨"Аспирин".toList, 1500, 20, "Bayer".toList, "1".toList, "A".toList, [], "Boshqa".toList, 1⟩,
   ⟨"Нурофен".toList, 2500, 7, "Unknown".toList, "1".toList, "A".toList, [], "Boshqa".toList, 1⟩]

/-- A sheet of one row, whose name contains the keyword listed under two
categories. -/
def clotrimazoleSheet : SheetRead :=
  SheetRead.rows [["1".toList, "Клотримазол".toList, "5".toList, "10".toList, "20".toList,
    "1500".toList, "30000".toList, "Bayer".toList]]

/-- An empty table in which no operation fails. -/
def emptyDB : DB := ⟨[], 0, none, fun _ _ => none, none⟩

/-- The leading whitespace-delimited token of a row (the first element of
`strings.Fields(rowStr)`), or the empty string when the row is blank. -/
def leadingToken (rowStr : Str) : Str :=
  (rowStr.dropWhile isSpace).takeWhile (fun c => !isSpace c)

/-- The string begins with a code point of the class. -/
def beginsWith (q : Char → Bool) : Str → Bool
  | [] => false
  | c :: _ => q c

/-- Whether a string goes on with a further numeric column, as the pieces
`\s+\d+\s+[\d,]+` that follow the name group read it: from state 0 it must begin
with `\s`, then (state 1) more `\s` and a digit, then (state 2) more digits and a
`\s`, then (state 3) more `\s` and a digit or a comma. -/
def numberAhead : Nat → Str → Bool
  | _, [] => false
  | 0, c :: r => reSpace c && numberAhead 1 r
  | 1, c :: r => if reSpace c then numberAhead 1 r else isDigit c && numberAhead 2 r
  | 2, c :: r => if isDigit c then numberAhead 2 r else reSpace c && numberAhead 3 r
  | _ + 3, c :: r => if reSpace c then numberAhead 3 r else reDigitComma c

/-- The name cannot be cut short: no proper suffix of it, followed by the column
separator and the first digit of the next column, goes on like a numeric column.
So a digit-only token inside the name must be followed, in the name, by a token
that begins with neither a digit nor a comma. -/
def nameSplitSafe (name : Str) : Bool :=
  (List.range name.length).all
    (fun k => k == 0 || !numberAhead 0 (name.drop k ++ [' ', '0']))

/-- A stored row with its time stamp blanked, for comparing tables apart from
`updated_at`. -/
def StoredRow.untimed (r : StoredRow) : StoredRow := { r with updated_at := 0 }

/-- The records of the map after the row loop, as `range medicinesMap` finds
them before any reordering. -/
def loopRecords (orders : Nat → List (Str × List Str)) (phone address : Str) (pharmacyID : Int)
    (rows : List (List Str)) : List Medicine :=
  (uploadLoop orders phone address pharmacyID LoopState.init 0 (flattenRows rows)).medicinesMap.map
    Prod.snd

/-! ## `cmd/main.go`: transliteration and search -/

/-- The scan of `strings.Replace` for a non-empty `old`: `skip` code points of an
occurrence just replaced are still to be passed over; otherwise an occurrence
of `old` at the head is replaced by `new` and the scan goes on after it. -/
def replaceScan (old new : Str) : Nat → Str → Str
  | _, [] => []
  | skip + 1, _ :: r => replaceScan old new skip r
  | 0, c :: r =>
    if old.isPrefixOf (c :: r) then new ++ replaceScan old new (old.length - 1) r
    else c :: replaceScan old new 0 r

/-- Go `strings.ReplaceAll(s, old, new)`: the non-overlapping occurrences of
`old`, found from the left, are replaced by `new`; an empty `old` matches at the
start and after every code point. -/
def replaceAll (s old new : Str) : Str :=
  if old = new then s
  else if old = [] then new ++ s.flatMap (fun c => c :: new)
  else replaceScan old new 0 s

/-- Number of bytes of the UTF-8 encoding of a code point. -/
def runeLen (c : Char) : Nat :=
  if c.toNat < 0x80 then 1 else if c.toNat < 0x800 then 2 else if c.toNat < 0x10000 then 3 else 4

/-- Go `len(s)`: the number of bytes of the string. -/
def byteLen (s : Str) : Nat := (s.map runeLen).sum

/-- The literal `replacements` of `translitToRussian` (main.go:35-50), in the
order the source lists its entries. -/
def replacements : List (Str × Str) :=
  [("a".toList, "а".toList), ("b".toList, "б".toList), ("v".toList, "в".toList),
   ("g".toList, "г".toList), ("d".toList, "д".toList), ("e".toList, "е".toList),
   ("yo".toList, "ё".toList), ("zh".toList, "ж".toList), ("z".toList, "з".toList),
   ("i".toList, "и".toList), ("y".toList, "й".toList), ("k".toList, "к".toList),
   ("l".toList, "л".toList), ("m".toList, "м".toList), ("n".toList, "н".toList),
   ("o".toList, "о".toList), ("p".toList, "п".toList), ("r".toList, "р".toList),
   ("s".toList, "с".toList), ("t".toList, "т".toList), ("u".toList, "у".toList),
   ("f".toList, "ф".toList), ("h".toList, "х".toList), ("ts".toList, "ц".toList),
   ("ch".toList, "ч".toList), ("sh".toList, "ш".toList), ("shch".toList, "щ".toList),
   ("yu".toList, "ю".toList), ("ya".toList, "я".toList),
   ("A".toList, "А".toList), ("B".toList, "Б".toList), ("V".toList, "В".toList),
   ("G".toList, "Г".toList), ("D".toList, "Д".toList), ("E".toList, "Е".toList),
   ("Yo".toList, "Ё".toList), ("Zh".toList, "Ж".toList), ("Z".toList, "З".toList),
   ("I".toList, "И".toList), ("Y".toList, "Й".toList), ("K".toList, "К".toList),
   ("L".toList, "Л".toList), ("M".toList, "М".toList), ("N".toList, "Н".toList),
   ("O".toList, "О".toList), ("P".toList, "П".toList), ("R".toList, "Р".toList),
   ("S".toList, "С".toList), ("T".toList, "Т".toList), ("U".toList, "У".toList),
   ("F".toList, "Ф".toList), ("H".toList, "Х".toList), ("Ts".toList, "Ц".toList),
   ("Ch".toList, "Ч".toList), ("Sh".toList, "Ш".toList), ("Shch".toList, "Щ".toList),
   ("Yu".toList, "Ю".toList), ("Ya".toList, "Я".toList),
   ("x".toList, "кс".toList), ("w".toList, "в".toList), ("q".toList, "к".toList),
   ("c".toList, "к".toList),
   ("X".toList, "Кс".toList), ("W".toList, "В".toList), ("Q".toList, "К".toList),
   ("C".toList, "К".toList)]

/-- An order in which `range replacements` may visit the entries of the map: any
arrangement of them. -/
def IsReplacementOrder (order : List (Str × Str)) : Prop := order.Perm replacements

/-- The body of the first loop of `translitToRussian` (main.go:53-57). -/
def replaceLong (result : Str) (entry : Str × Str) : Str :=
  if byteLen entry.1 > 1 then replaceAll result entry.1 entry.2 else result

/-- The body of the second loop of `translitToRussian` (main.go:58-62). -/
def replaceShort (result : Str) (entry : Str × Str) : Str :=
  if byteLen entry.1 = 1 then replaceAll result entry.1 entry.2 else result

/-- Go `translitToRussian` (main.go:34), with the map visited in `order1` by the
first loop and in `order2` by the second. -/
def translitToRussian (order1 order2 : List (Str × Str)) (text : Str) : Str :=
  order2.foldl replaceShort (order1.foldl replaceLong text)

/-- An element of a PostgreSQL `LIKE` pattern: `%`, `_`, or a code point that
stands for itself (written plainly, or after the escape character). -/
inductive LikeItem where
  | anySeq : LikeItem
  | anyOne : LikeItem
  | lit (c : Char) : LikeItem
  deriving DecidableEq, Repr

/-- What a code point of a `LIKE` pattern stands for when it is not escaped. -/
def likeItem (c : Char) : LikeItem :=
  if c = '%' then LikeItem.anySeq else if c = '_' then LikeItem.anyOne else LikeItem.lit c

/-- Reading of a `LIKE` pattern with the default escape character, the
backslash: `%` stands for any sequence, `_` for any one code point, a backslash
makes the code point after it stand for itself, and a pattern that ends in a
lone backslash is an error (`none`). -/
def likeItems : Str → Option (List LikeItem)
  | [] => some []
  | [c] => if c = '\\' then none else some [likeItem c]
  | c :: d :: r =>
    if c = '\\' then (likeItems r).map (fun items => LikeItem.lit d :: items)
    else (likeItems (d :: r)).map (fun items => likeItem c :: items)

/-- Whether the whole text matches a sequence of pattern elements. -/
def likeMatch : List LikeItem → Str → Bool
  | [], t => t == []
  | LikeItem.anySeq :: items, t => t.tails.any (fun u => likeMatch items u)
  | LikeItem.anyOne :: _, [] => false
  | LikeItem.anyOne :: items, _ :: t => likeMatch items t
  | LikeItem.lit _ :: _, [] => false
  | LikeItem.lit c :: items, d :: t => c == d && likeMatch items t

/-- PostgreSQL `text ILIKE pattern`: `LIKE` after both sides are case-folded by
`fold`, the lower-casing of the locale of the database. -/
def ilike (fold : Char → Char) (text pattern : Str) : Option Bool :=
  (likeItems (pattern.map fold)).map (fun items => likeMatch items (text.map fold))

/-- The condition `m.name ILIKE $1 OR m.name ILIKE $2` of the search query
(main.go:864) with the arguments `"%"+search+"%"` and `"%"+searchRussian+"%"`
(main.go:867), on a stored name; `none` when the query fails. -/
def searchCondition (fold : Char → Char) (search searchRussian name : Str) : Option Bool :=
  match ilike fold name ('%' :: search ++ ['%']),
      ilike fold name ('%' :: searchRussian ++ ['%']) with
  | some a, some b => some (a || b)
  | _, _ => none

/-- The search of a text message (main.go:851-867) as it bears on one stored
name: nothing is searched when the trimmed text is empty (`none`); otherwise the
condition of the query on the trimmed text and its transliteration. -/
def searchMatches (fold : Char → Char) (order1 order2 : List (Str × Str)) (text name : Str) :
    Option (Option Bool) :=
  let search := trimSpace text
  if search = [] then none
  else
    let searchRussian := translitToRussian order1 order2 search
    some (searchCondition fold search searchRussian name)

/-- The text contains `sub` when letter case is ignored, as `fold` sees it. -/
def containsFold (fold : Char → Char) (s sub : Str) : Bool :=
  contains (s.map fold) (sub.map fold)

/-! ## Further quantities the statements speak of -/

/-- A sheet of one row with two empty cells after the row number. -/
def emptyCellsSheet : SheetRead :=
  SheetRead.rows [["1".toList, [], [], "3".toList, "4".toList, "5".toList]]

/-- The text `parseNumber` hands to `ParseFloat` (excel.go:19-21). -/
def normalizeNumber (s : Str) : Str := commaToPoint (removeSpaces (trimSpace s))

/-- A decimal numeral: digits with at most one point among them, and at least
one digit. -/
def isDecimalNumeral (t : Str) : Bool :=
  t.all (fun c => isDigit c || c == '.') && t.any isDigit && decide (t.count '.' ≤ 1)

/-- A code point of numeric text: a digit, a comma, a point or white space. -/
def isNumberChar (c : Char) : Bool := isDigit c || c == ',' || c == '.' || isSpace c

/-- The submatches `parseRowData` works from: those of the full pattern when it
matches the trimmed row, else those of the fallback pattern, if it matches. -/
def rowMatch (rowStr : Str) : Option (List Str) :=
  match matchPieces pattern1 (trimSpace rowStr) with
  | some submatches => some submatches
  | none => matchPieces pattern2 (trimSpace rowStr)

/-- The lines the row loop files for the rejected rows (excel.go:219), in input
order, the first row having index `i`. -/
def rejectedLines : Nat → List Str → List Str
  | _, [] => []
  | i, rowStr :: rest =>
    if accepted rowStr then rejectedLines (i + 1) rest
    else ("Qator ".toList ++ fmtNat (i + 1) ++ ": ".toList ++ rowStr) :: rejectedLines (i + 1) rest

/-- Sum of the counts of the histogram `categoryStats`. -/
def statsTotal (m : List (Str × Nat)) : Nat := (m.map Prod.snd).sum

/-- A database whose every insert statement fails. -/
def failingDB : DB := ⟨[], 0, none, fun _ _ => some "connection reset".toList, none⟩

/-! ## `cmd/main.go`: the command loop

The loop `for update := range updates` of `main` (main.go:219-920), as a step
function on what the handlers read and write: the map `uploadSession`, the
table `settings` and the table `medicines`.  What the handlers take from the
outside while one update is handled (errors of statements, the downloaded file)
is given with the update.  The texts of the replies are not modelled. -/

/-- Go `strings.HasPrefix`. -/
def hasPrefix (s pre : Str) : Bool := pre.isPrefixOf s

/-- Go `strings.TrimPrefix`. -/
def trimPrefix (s pre : Str) : Str := if hasPrefix s pre then s.drop pre.length else s

/-- Go `strings.Split(s, " ")`: the pieces between the spaces, one more than
there are spaces. -/
def splitSpaces : Str → List Str
  | [] => [[]]
  | c :: r =>
    if c = ' ' then [] :: splitSpaces r
    else
      match splitSpaces r with
      | piece :: pieces => (c :: piece) :: pieces
      | [] => [[c]]

/-- Go `strings.SplitN(s, " ", 2)`: the text before the first space and the text
after it, or the text alone when it has no space. -/
def splitFirstSpace (s : Str) : List Str :=
  if s.contains ' ' then [s.takeWhile (fun c => c != ' '), (s.dropWhile (fun c => c != ' ')).drop 1]
  else [s]

/-- Go `strconv.Atoi` with its error: `none` when `err != nil`, which is a syntax
error (anything but an optional sign and at least one digit) or a value outside
the range of `int`. -/
def atoiChecked (s : Str) : Option Int :=
  let neg := s.head? = some '-'
  let body := match s with
    | '-' :: r => r
    | '+' :: r => r
    | _ => s
  if body ≠ [] ∧ body.all isDigit then
    if neg then
      if decimalValue body ≤ 2 ^ 63 then some (-(decimalValue body : Int)) else none
    else
      if decimalValue body ≤ 2 ^ 63 - 1 then some (decimalValue body : Int) else none
  else none

/-- Read `m[k]` of a Go map held as an association list. -/
def lookupKey {K V : Type} [DecidableEq K] : List (K × V) → K → Option V
  | [], _ => none
  | (k1, v1) :: m, k => if k1 = k then some v1 else lookupKey m k

/-- Assignment `m[k] = v` on a Go map held as an association list. -/
def assignKey {K V : Type} [DecidableEq K] : List (K × V) → K → V → List (K × V)
  | [], k, v => [(k, v)]
  | (k1, v1) :: m, k, v => if k1 = k then (k, v) :: m else (k1, v1) :: assignKey m k v

/-- Go `delete(m, k)`. -/
def deleteKey {K V : Type} [DecidableEq K] (m : List (K × V)) (k : K) : List (K × V) :=
  m.filter (fun e => e.1 ≠ k)

/-- What `main` reads from the environment before the loop (main.go:148-161). -/
structure Config where
  botToken : Str
  superAdminID : Int
  admin2 : Int
  admin3 : Int
  admin4 : Int

/-- The slice `adminIDs` (main.go:156). -/
def Config.adminIDs (cfg : Config) : List Int := [cfg.admin2, cfg.admin3, cfg.admin4]

/-- The map `adminPharmacy` after the three assignments of main.go:159-161. -/
def Config.adminPharmacy (cfg : Config) : List (Int × Int) :=
  assignKey (assignKey (assignKey [] cfg.admin2 1) cfg.admin3 2) cfg.admin4 3

/-- Go `isSuperAdmin` (main.go:68). -/
def isSuperAdmin (cfg : Config) (userID : Int) : Bool := userID = cfg.superAdminID

/-- Go `isAdmin` (main.go:73). -/
def isAdmin (cfg : Config) (userID : Int) : Bool :=
  if isSuperAdmin cfg userID then true else cfg.adminIDs.any (fun adminID => adminID = userID)

/-- Go `getPharmacyID` (main.go:86). -/
def getPharmacyID (cfg : Config) (userID : Int) : Int :=
  if isSuperAdmin cfg userID then 0
  else
    match lookupKey cfg.adminPharmacy userID with
    | some pid => pid
    | none => 0

/-- The document of a message: its file name. -/
structure Document where
  fileName : Str
  deriving DecidableEq, Repr

/-- A message of a user: sender, chat, text and document, if any. -/
structure Message where
  fromID : Int
  chatID : Int
  text : Str
  document : Option Document
  deriving DecidableEq, Repr

/-- What the handlers read and write: the map `uploadSession` (main.go:31), the
table `settings` keyed by `(key, pharmacy_id)`, and the table `medicines`. -/
structure BotState where
  uploadSession : List (Int × Int)
  settings : List ((Str × Int) × Str)
  medicines : Store
  deriving DecidableEq, Repr

/-- What the outside contributes while one update is handled: whether the query
of `getSetting` for a key fails, the error of the statement the handler executes
on `settings` or of its `DELETE` or `TRUNCATE`, whether its `UPDATE medicines`
fails, whether `http.Get` fails, and, for a call of `excel.UploadExcel`, what the
file steps yield, the clock and errors of the database, and the orders of the
map iterations. -/
structure Env where
  selectFails : Str → Int → Bool
  execErr : Option Str
  updateFails : Bool
  httpFails : Bool
  file : SheetRead
  now : Nat
  beginErr : Option Str
  batchErr : Nat → List Medicine → Option Str
  commitErr : Option Str
  orders : Nat → List (Str × List Str)
  sliceOrder : List Medicine → List Medicine

/-- What a handler does that is visible outside the state: a reply sent with
`bot.Send`, a call of `excel.UploadExcel` (with its arguments `fileName`,
`chatID`, `phone`, `address`, `pharmacyID`), a `DELETE FROM medicines WHERE
pharmacy_id = $1`, or a `TRUNCATE TABLE medicines`. -/
inductive Effect where
  | reply : Effect
  | uploadExcel (fileName chatID phone address : Str) (pharmacyID : Int) : Effect
  | deleteBranch (pharmacyID : Int) : Effect
  | truncateAll : Effect
  deriving DecidableEq, Repr

/-- Go `getSetting` (main.go:97): the stored value, or the empty string when the
query fails or finds no row. -/
def getSetting (env : Env) (st : BotState) (key : Str) (pharmacyID : Int) : Str :=
  if env.selectFails key pharmacyID then []
  else
    match lookupKey st.settings (key, pharmacyID) with
    | some value => value
    | none => []

/-- The handler of `/ahad 1`, `/ahad 2`, `/ahad 3`, `/ahad all` (main.go:330-392). -/
def handleAhadSelect (cfg : Config) (st : BotState) (msg : Message) : BotState × List Effect :=
  if !isSuperAdmin cfg msg.fromID then (st, [Effect.reply])
  else
    match splitSpaces (trimSpace msg.text) with
    | [_, target] =>
      if target = "all".toList then
        ({ st with uploadSession := assignKey st.uploadSession msg.fromID (-1) }, [Effect.reply])
      else
        match atoiChecked target with
        | none => (st, [Effect.reply])
        | some pharmacyID =>
          if pharmacyID < 1 ∨ pharmacyID > 3 then (st, [Effect.reply])
          else
            ({ st with uploadSession := assignKey st.uploadSession msg.fromID pharmacyID },
              [Effect.reply])
    | _ => (st, [Effect.reply])

/-- The deletion at the end of the handler of `/ahad_confirm` (main.go:423-468),
with the session already updated. -/
def deleteMedicines (env : Env) (st : BotState) (deleteAll : Bool) (pharmacyID : Int) :
    BotState × List Effect :=
  if deleteAll then
    match env.execErr with
    | some _ => (st, [Effect.truncateAll, Effect.reply])
    | none => ({ st with medicines := [] }, [Effect.truncateAll, Effect.reply])
  else
    match env.execErr with
    | some _ => (st, [Effect.deleteBranch pharmacyID, Effect.reply])
    | none =>
      ({ st with medicines := st.medicines.filter (fun r => r.pharmacy_id ≠ pharmacyID) },
        [Effect.deleteBranch pharmacyID, Effect.reply])

/-- The handler of `/ahad_confirm` (main.go:395-469). -/
def handleAhadConfirm (cfg : Config) (env : Env) (st : BotState) (msg : Message) :
    BotState × List Effect :=
  if !isAdmin cfg msg.fromID then (st, [Effect.reply])
  else if isSuperAdmin cfg msg.fromID then
    match lookupKey st.uploadSession msg.fromID with
    | some pid =>
      deleteMedicines env { st with uploadSession := deleteKey st.uploadSession msg.fromID }
        (pid = -1) (if pid = -1 then 0 else pid)
    | none => (st, [Effect.reply])
  else deleteMedicines env st false (getPharmacyID cfg msg.fromID)

/-- The handler of `/cancel` (main.go:472-477). -/
def handleCancel (st : BotState) (msg : Message) : BotState × List Effect :=
  ({ st with uploadSession := deleteKey st.uploadSession msg.fromID }, [Effect.reply])

/-- The three settings a command can change, with the key of the table
`settings` and the text of the command. -/
inductive Field where
  | name | phone | address
  deriving DecidableEq, Repr

/-- The key of a setting in the table `settings`. -/
def Field.key : Field → Str
  | Field.name => "name".toList
  | Field.phone => "phone".toList
  | Field.address => "address".toList

/-- The command that changes a setting, with the space after it. -/
def Field.command : Field → Str
  | Field.name => "/setname ".toList
  | Field.phone => "/setphone ".toList
  | Field.address => "/setaddress ".toList

/-- The `UPDATE medicines SET phone = $1 WHERE pharmacy_id = $2` of `/setphone`
and its like of `/setaddress` (main.go:654, 720); `/setname` has none. -/
def updateMedicines (field : Field) (value : Str) (pharmacyID : Int) (medicines : Store) : Store :=
  match field with
  | Field.name => medicines
  | Field.phone =>
    medicines.map (fun r => if r.pharmacy_id = pharmacyID then { r with phone := value } else r)
  | Field.address =>
    medicines.map (fun r => if r.pharmacy_id = pharmacyID then { r with address := value } else r)

/-- The end of the handlers of `/setname`, `/setphone`, `/setaddress`, once the
branch and the new value are known (main.go:589-599, 647-663, 713-729). -/
def storeSetting (env : Env) (st : BotState) (field : Field) (pharmacyID : Int) (value : Str) :
    BotState × List Effect :=
  match env.execErr with
  | some _ => (st, [Effect.reply])
  | none =>
    let st1 := { st with settings := assignKey st.settings (field.key, pharmacyID) value }
    match field with
    | Field.name => (st1, [Effect.reply])
    | _ =>
      if env.updateFails then (st1, [Effect.reply, Effect.reply])
      else
        ({ st1 with medicines := updateMedicines field value pharmacyID st1.medicines },
          [Effect.reply])

/-- The handlers of `/setname`, `/setphone`, `/setaddress` (main.go:544-730). -/
def handleSet (cfg : Config) (env : Env) (st : BotState) (msg : Message) (field : Field) :
    BotState × List Effect :=
  if !isAdmin cfg msg.fromID then (st, [Effect.reply])
  else
    let input := trimSpace (trimPrefix msg.text field.command)
    if isSuperAdmin cfg msg.fromID then
      match splitFirstSpace input with
      | [first, second] =>
        match atoiChecked first with
        | none => (st, [Effect.reply])
        | some pharmacyID =>
          if pharmacyID < 1 ∨ pharmacyID > 3 then (st, [Effect.reply])
          else storeSetting env st field pharmacyID (trimSpace second)
      | _ => (st, [Effect.reply])
    else
      if input = [] then (st, [Effect.reply])
      else storeSetting env st field (getPharmacyID cfg msg.fromID) input

/-- The handler of `/upload 1`, `/upload 2`, `/upload 3` (main.go:733-771). -/
def handleUploadSelect (cfg : Config) (st : BotState) (msg : Message) : BotState × List Effect :=
  if !isSuperAdmin cfg msg.fromID then (st, [Effect.reply])
  else
    match splitSpaces (trimSpace msg.text) with
    | [_, target] =>
      match atoiChecked target with
      | none => (st, [Effect.reply])
      | some pharmacyID =>
        if pharmacyID < 1 ∨ pharmacyID > 3 then (st, [Effect.reply])
        else
          ({ st with uploadSession := assignKey st.uploadSession msg.fromID pharmacyID },
            [Effect.reply])
    | _ => (st, [Effect.reply])

/-- The end of the handler of a document, once the branch is known
(main.go:802-847), with the session already updated. -/
def uploadDocument (cfg : Config) (env : Env) (st : BotState) (msg : Message) (doc : Document)
    (pharmacyID : Int) : BotState × List Effect :=
  let phone := getSetting env st "phone".toList pharmacyID
  let address := getSetting env st "address".toList pharmacyID
  if phone = [] ∨ address = [] then (st, [Effect.reply])
  else if env.httpFails then (st, [Effect.reply])
  else
    let out := UploadExcel ⟨st.medicines, env.now, env.beginErr, env.batchErr, env.commitErr⟩
      doc.fileName env.file cfg.botToken (fmtInt msg.chatID) phone address pharmacyID env.orders
      env.sliceOrder
    let call := Effect.uploadExcel doc.fileName (fmtInt msg.chatID) phone address pharmacyID
    match out.err with
    | some _ => ({ st with medicines := out.store }, [call, Effect.reply])
    | none => ({ st with medicines := out.store }, [call])

/-- The handler of a message with a document (main.go:774-848). -/
def handleDocument (cfg : Config) (env : Env) (st : BotState) (msg : Message) (doc : Document) :
    BotState × List Effect :=
  if !isAdmin cfg msg.fromID then (st, [Effect.reply])
  else if isSuperAdmin cfg msg.fromID then
    match lookupKey st.uploadSession msg.fromID with
    | some pid =>
      uploadDocument cfg env { st with uploadSession := deleteKey st.uploadSession msg.fromID }
        msg doc pid
    | none => (st, [Effect.reply])
  else uploadDocument cfg env st msg doc (getPharmacyID cfg msg.fromID)

/-- The body of the loop of `main` for a message (main.go:224-919): the handlers
are tried in the order of the source, and the first whose condition holds handles
the message.  `/start`, `/help`, `/ahad`, `/admin` and the text search only read
the tables and reply. -/
def handleMessage (cfg : Config) (env : Env) (st : BotState) (msg : Message) :
    BotState × List Effect :=
  if msg.text = "/start".toList then (st, [Effect.reply])
  else if msg.text = "/help".toList then (st, [Effect.reply])
  else if msg.text = "/ahad".toList then (st, [Effect.reply])
  else if hasPrefix msg.text "/ahad ".toList then handleAhadSelect cfg st msg
  else if msg.text = "/ahad_confirm".toList then handleAhadConfirm cfg env st msg
  else if msg.text = "/cancel".toList then handleCancel st msg
  else if msg.text = "/admin".toList then (st, [Effect.reply])
  else if hasPrefix msg.text "/setname ".toList then handleSet cfg env st msg Field.name
  else if hasPrefix msg.text "/setphone ".toList then handleSet cfg env st msg Field.phone
  else if hasPrefix msg.text "/setaddress ".toList then handleSet cfg env st msg Field.address
  else if hasPrefix msg.text "/upload ".toList then handleUploadSelect cfg st msg
  else
    match msg.document with
    | some doc => handleDocument cfg env st msg doc
    | none =>
      if msg.text ≠ [] then
        if trimSpace msg.text = [] then (st, []) else (st, [Effect.reply])
      else (st, [])

/-- One iteration of the loop of `main` (main.go:219-920): an update without a
message is passed over. -/
def handleUpdate (cfg : Config) (env : Env) (st : BotState) (update : Option Message) :
    BotState × List Effect :=
  match update with
  | none => (st, [])
  | some msg => handleMessage cfg env st msg

/-- The loop of `main` over a sequence of updates, each with what the outside
contributes while it is handled: the state after the last update and the
effects of all, in order. -/
def runUpdates (cfg : Config) : BotState → List (Env × Option Message) → BotState × List Effect
  | st, [] => (st, [])
  | st, (env, update) :: rest =>
    ((runUpdates cfg (handleUpdate cfg env st update).1 rest).1,
      (handleUpdate cfg env st update).2 ++
        (runUpdates cfg (handleUpdate cfg env st update).1 rest).2)

/-- A configuration used as sample input: super admin 100 and the admins 200,
300, 400 of the branches 1, 2, 3. -/
def sampleConfig : Config := ⟨"token".toList, 100, 200, 300, 400⟩

/-- An environment in which nothing fails; the file sent is `clotrimazoleSheet`. -/
def calmEnv : Env :=
  ⟨fun _ _ => false, none, false, false, clotrimazoleSheet, 7, none, fun _ _ => none, none,
    fun _ => categories, id⟩

/-- A state used as sample input: no pending selection, phone and address set for
branch 2, and the table `sampleStore`. -/
def sampleState : BotState :=
  ⟨[], [(("phone".toList, 2), "+998901234567".toList), (("address".toList, 2), "Toshkent".toList)],
    sampleStore⟩

/-- A text message of the super admin of `sampleConfig`. -/
def superText (text : Str) : Env × Option Message := (calmEnv, some ⟨100, 100, text, none⟩)

/-- A message of the super admin of `sampleConfig` with the document
`stock.xlsx` and no text. -/
def superDocument : Env × Option Message :=
  (calmEnv, some ⟨100, 100, [], some ⟨"stock.xlsx".toList⟩⟩)

/-- The branches `excel.UploadExcel` is called with, among the effects. -/
def uploadTargets (effects : List Effect) : List Int :=
  effects.filterMap (fun effect =>
    match effect with
    | Effect.uploadExcel _ _ _ _ pharmacyID => some pharmacyID
    | _ => none)

/-- Every pending selection is -1 or a branch 1, 2, 3, and every row of
`settings` belongs to a branch 1, 2, 3. -/
def SessionOK (st : BotState) : Prop :=
  (∀ e, e ∈ st.uploadSession → e.2 = -1 ∨ (1 ≤ e.2 ∧ e.2 ≤ 3)) ∧
    (∀ e, e ∈ st.settings → 1 ≤ e.1.2 ∧ e.1.2 ≤ 3)

/-- What every iteration of the loop keeps, when it starts from a state that is
`SessionOK`: the state it leaves is `SessionOK`, and every call of
`excel.UploadExcel` it makes is for a branch 1, 2, 3. -/
def StepOK (r : BotState × List Effect) : Prop :=
  SessionOK r.1 ∧ ∀ pharmacyID, pharmacyID ∈ uploadTargets r.2 → 1 ≤ pharmacyID ∧ pharmacyID ≤ 3

/-! ## A sample sheet, and the rows of the fallback shape -/

/-- A sheet of two rows of the full shape: the manufacturer cell of the first
is `Bayer` after a no-break space and before a space, and the second has none. -/
def twoMakersSheet : List (List Str) :=
  [["1".toList, "Аспирин".toList, "5".toList, "10".toList, "20".toList, "1500".toList,
    "30000".toList, "\u00a0Bayer ".toList],
   ["2".toList, "Цитрамон".toList, "5".toList, "10".toList, "20".toList, "400".toList,
    "8000".toList]]

/-- Whether a string goes on with a count and a price column, as the pieces
`\s+[\d,]+\s+[\d\s,]+` that follow the name group of the fallback pattern read
it: from state 0 it must begin with `\s`, then (state 1) more `\s` and a digit or
comma, then (state 2) more digits and commas and a `\s`, then (state 3) a digit,
a comma or a `\s`. -/
def fieldAhead : Nat → Str → Bool
  | _, [] => false
  | 0, c :: r => reSpace c && fieldAhead 1 r
  | 1, c :: r => if reSpace c then fieldAhead 1 r else reDigitComma c && fieldAhead 2 r
  | 2, c :: r => if reDigitComma c then fieldAhead 2 r else reSpace c && fieldAhead 3 r
  | _ + 3, c :: _ => reDigitSpaceComma c

/-- The name cannot be cut short by either pattern: no proper suffix of it,
followed by the column separator and the first digit of the next column, goes on
like a count and a price column.  So a token of digits and commas inside the
name must be followed, in the name, by one space and a token that begins with
neither a digit nor a comma. -/
def nameFieldSafe (name : Str) : Bool :=
  (List.range name.length).all
    (fun k => k == 0 || !fieldAhead 0 (name.drop k ++ [' ', '0']))

/-- The manufacturer holds no numeric columns: nowhere in it does a digit-only
token stand before a token that begins with a digit or a comma. -/
def tailSafe (mfr : Str) : Bool :=
  (List.range mfr.length).all (fun i => !numberAhead 0 (mfr.drop i))

/-- The pieces of the full pattern after its name group:
`\s+\d+\s+[\d,]+\s+([\d,]+)\s+([\d\s,]+)\s+[\d\s,]+\s*(.*)$`. -/
def fullTail : List Piece :=
  [⟨reSpace, 1, true, false⟩, ⟨reDigit, 1, true, false⟩, ⟨reSpace, 1, true, false⟩,
   ⟨reDigitComma, 1, true, false⟩, ⟨reSpace, 1, true, false⟩,
   ⟨reDigitComma, 1, true, true⟩, ⟨reSpace, 1, true, false⟩,
   ⟨reDigitSpaceComma, 1, true, true⟩, ⟨reSpace, 1, true, false⟩,
   ⟨reDigitSpaceComma, 1, true, false⟩, ⟨reSpace, 0, true, false⟩, ⟨reAny, 0, true, true⟩]

/-! # Theorems -/

section GoMap

variable {V : Type}

theorem mapGet_mapSet (m : List (Str × V)) (k k1 : Str) (v : V) :
    mapGet (mapSet m k v) k1 = if k = k1 then some v else mapGet m k1 := by
  induction m with
  | nil => simp only [mapSet, mapGet]
  | cons e m ih =>
    obtain ⟨k2, v2⟩ := e
    by_cases h2 : k2 = k
    · subst h2
      by_cases h : k2 = k1
      · simp only [mapSet, mapGet, if_true, h]
      · simp only [mapSet, mapGet, if_true, h, if_false]
    · simp only [mapSet, h2, if_false, mapGet, ih]
      by_cases h : k2 = k1
      · subst h
        have : ¬ k = k2 := fun hh => h2 hh.symm
        simp only [if_true, this, if_false]
      · simp only [h, if_false]

theorem mapGet_isSome_iff (m : List (Str × V)) (k : Str) :
    (mapGet m k).isSome = true ↔ k ∈ mapKeys m := by
  induction m with
  | nil => simp only [mapGet, mapKeys, Option.isSome_none, List.not_mem_nil]; decide
  | cons e m ih =>
    obtain ⟨k2, v2⟩ := e
    by_cases h : k2 = k
    · subst h
      simp only [mapGet, mapKeys, if_true, Option.isSome_some, List.mem_cons, true_or]
    · have h3 : ¬ k = k2 := fun hh => h hh.symm
      simp only [mapGet, mapKeys, h, if_false, ih, List.mem_cons, h3, false_or]

theorem mapKeys_mapSet (m : List (Str × V)) (k : Str) (v : V) :
    mapKeys (mapSet m k v) = if k ∈ mapKeys m then mapKeys m else mapKeys m ++ [k] := by
  induction m with
  | nil => simp only [mapSet, mapKeys, List.not_mem_nil, if_false, List.nil_append]
  | cons e m ih =>
    obtain ⟨k2, v2⟩ := e
    by_cases h2 : k2 = k
    · subst h2
      simp only [mapSet, mapKeys, if_true, List.mem_cons, true_or]
    · have h3 : ¬ k = k2 := fun h => h2 h.symm
      simp only [mapSet, h2, if_false, mapKeys, ih, List.mem_cons, h3, false_or]
      by_cases hk : k ∈ mapKeys m
      · simp only [hk, if_true]
      · simp only [hk, if_false, List.cons_append]

theorem length_mapKeys (m : List (Str × V)) : (mapKeys m).length = m.length := by
  induction m with
  | nil => rfl
  | cons e m ih =>
    obtain ⟨k2, v2⟩ := e
    simp only [mapKeys, List.length_cons, ih]

theorem length_mapSet (m : List (Str × V)) (k : Str) (v : V) :
    (mapSet m k v).length = if k ∈ mapKeys m then m.length else m.length + 1 := by
  rw [← length_mapKeys, mapKeys_mapSet]
  by_cases hk : k ∈ mapKeys m
  · simp only [hk, if_true, length_mapKeys]
  · simp only [hk, if_false, List.length_append, length_mapKeys, List.length_singleton]

theorem nodup_mapKeys_mapSet (m : List (Str × V)) (k : Str) (v : V)
    (h : (mapKeys m).Nodup) : (mapKeys (mapSet m k v)).Nodup := by
  rw [mapKeys_mapSet]
  by_cases hk : k ∈ mapKeys m
  · simp only [hk, if_true]; exact h
  · simp only [hk, if_false]
    refine List.Nodup.append h (List.nodup_singleton k) ?_
    intro a ha hb
    rw [List.mem_singleton] at hb
    exact hk (hb ▸ ha)

end GoMap

theorem uploadStep_accepted (order : List (Str × List Str)) (phone address : Str)
    (pharmacyID : Int) (st : LoopState) (i : Nat) (rowStr : Str) (h : accepted rowStr = true) :
    (uploadStep order phone address pharmacyID st i rowStr).medicinesMap =
        mapSet st.medicinesMap (buildRecord order phone address pharmacyID rowStr).Name
          (buildRecord order phone address pharmacyID rowStr) ∧
      (uploadStep order phone address pharmacyID st i rowStr).duplicates =
        (if (mapGet st.medicinesMap
            (buildRecord order phone address pharmacyID rowStr).Name).isSome
          then st.duplicates + 1 else st.duplicates) ∧
      (uploadStep order phone address pharmacyID st i rowStr).skipped = st.skipped ∧
      (uploadStep order phone address pharmacyID st i rowStr).failedRows = st.failedRows := by
  have hg : (!(parseRowData rowStr).ok || (parseRowData rowStr).num == 0) = false := by
    simp only [accepted, Bool.and_eq_true, bne_iff_ne, ne_eq] at h
    simp [h.1, h.2]
  simp only [uploadStep, hg, buildRecord]
  simp

theorem uploadStep_rejected (order : List (Str × List Str)) (phone address : Str)
    (pharmacyID : Int) (st : LoopState) (i : Nat) (rowStr : Str) (h : accepted rowStr = false) :
    uploadStep order phone address pharmacyID st i rowStr =
      { st with
        skipped := st.skipped + 1
        failedRows :=
          if st.failedRows.length < 10 then
            st.failedRows ++ ["Qator ".toList ++ fmtNat (i + 1) ++ ": ".toList ++ rowStr]
          else st.failedRows } := by
  have hg : (!(parseRowData rowStr).ok || (parseRowData rowStr).num == 0) = true := by
    simp only [accepted, Bool.and_eq_false_iff] at h
    rcases h with h | h
    · simp [h]
    · have : (parseRowData rowStr).num = 0 := by simpa using h
      simp [this]
  simp only [uploadStep, hg]
  simp

theorem lastNamed_cons (name : Str) (m : Medicine) (l : List Medicine) :
    lastNamed name (m :: l) =
      match lastNamed name l with
      | some x => some x
      | none => if m.Name = name then some m else none := by
  unfold lastNamed
  rw [List.reverse_cons, List.find?_append]
  cases h : List.find? (fun m => decide (m.Name = name)) l.reverse with
  | some x => rfl
  | none =>
    by_cases hm : m.Name = name
    · simp only [Option.or, List.find?, hm, decide_True, if_true]
    · simp only [Option.or, List.find?, hm, decide_False, if_false]

theorem buildRecord_name (order : List (Str × List Str)) (phone address : Str)
    (pharmacyID : Int) (rowStr : Str) :
    (buildRecord order phone address pharmacyID rowStr).Name = (parseRowData rowStr).name := rfl

/-- The loop variables after the rows, from any start: what the map holds, that its
keys stay distinct, which keys it has, and the balance of its size against the
duplicate counter. -/
theorem uploadLoop_spec (orders : Nat → List (Str × List Str)) (phone address : Str)
    (pharmacyID : Int) (rows : List Str) :
    ∀ (st : LoopState) (i : Nat),
      (∀ name, mapGet (uploadLoop orders phone address pharmacyID st i rows).medicinesMap name =
        match lastNamed name (acceptedRecords orders phone address pharmacyID i rows) with
        | some m => some m
        | none => mapGet st.medicinesMap name) ∧
      ((mapKeys st.medicinesMap).Nodup →
        (mapKeys (uploadLoop orders phone address pharmacyID st i rows).medicinesMap).Nodup) ∧
      (∀ k, k ∈ mapKeys (uploadLoop orders phone address pharmacyID st i rows).medicinesMap ↔
        k ∈ mapKeys st.medicinesMap ∨
          k ∈ (acceptedRecords orders phone address pharmacyID i rows).map (fun m => m.Name)) ∧
      (uploadLoop orders phone address pharmacyID st i rows).duplicates +
          (uploadLoop orders phone address pharmacyID st i rows).medicinesMap.length =
        st.duplicates + st.medicinesMap.length +
          (acceptedRecords orders phone address pharmacyID i rows).length := by
  induction rows with
  | nil =>
    intro st i
    refine ⟨fun name => ?_, fun h => h, fun k => ?_, ?_⟩
    · simp only [uploadLoop, acceptedRecords, lastNamed, List.reverse_nil, List.find?]
    · simp only [uploadLoop, acceptedRecords, List.map_nil, List.not_mem_nil, or_false]
    · simp only [uploadLoop, acceptedRecords, List.length_nil, Nat.add_zero]
  | cons rowStr rest ih =>
    intro st i
    obtain ⟨ih1, ih2, ih3, ih4⟩ :=
      ih (uploadStep (orders i) phone address pharmacyID st i rowStr) (i + 1)
    cases hacc : accepted rowStr with
    | false =>
      have hst := uploadStep_rejected (orders i) phone address pharmacyID st i rowStr hacc
      have hmap : (uploadStep (orders i) phone address pharmacyID st i rowStr).medicinesMap =
          st.medicinesMap := by rw [hst]
      have hdup : (uploadStep (orders i) phone address pharmacyID st i rowStr).duplicates =
          st.duplicates := by rw [hst]
      simp only [uploadLoop, acceptedRecords, hacc, Bool.false_eq_true, if_false]
      rw [hmap] at ih1 ih2 ih3 ih4
      rw [hdup] at ih4
      exact ⟨ih1, ih2, ih3, ih4⟩
    | true =>
      obtain ⟨hmap, hdup, -, -⟩ :=
        uploadStep_accepted (orders i) phone address pharmacyID st i rowStr hacc
      simp only [uploadLoop, acceptedRecords, hacc, if_true]
      rw [hmap] at ih1 ih2 ih3 ih4
      rw [hdup] at ih4
      generalize buildRecord (orders i) phone address pharmacyID rowStr = b at *
      refine ⟨fun name => ?_, fun h => ih2 (nodup_mapKeys_mapSet _ _ _ h), fun k => ?_, ?_⟩
      · rw [ih1 name, lastNamed_cons, mapGet_mapSet]
        cases lastNamed name (acceptedRecords orders phone address pharmacyID (i + 1) rest) with
        | some x => rfl
        | none =>
          by_cases hb : b.Name = name
          · simp only [hb, if_true]
          · simp only [hb, if_false]
      · rw [ih3 k, mapKeys_mapSet, List.map_cons, List.mem_cons]
        by_cases hk : b.Name ∈ mapKeys st.medicinesMap
        · simp only [hk, if_true]
          constructor
          · rintro (h | h)
            · exact Or.inl h
            · exact Or.inr (Or.inr h)
          · rintro (h | h | h)
            · exact Or.inl h
            · exact Or.inl (h ▸ hk)
            · exact Or.inr h
        · simp only [hk, if_false, List.mem_append, List.mem_singleton]
          constructor
          · rintro ((h | h) | h)
            · exact Or.inl h
            · exact Or.inr (Or.inl h)
            · exact Or.inr (Or.inr h)
          · rintro (h | h | h)
            · exact Or.inl (Or.inl h)
            · exact Or.inl (Or.inr h)
            · exact Or.inr h
      · rw [length_mapSet] at ih4
        rw [List.length_cons]
        by_cases hk : b.Name ∈ mapKeys st.medicinesMap
        · have hs : (mapGet st.medicinesMap b.Name).isSome = true :=
            (mapGet_isSome_iff _ _).2 hk
          rw [if_pos hs, if_pos hk] at ih4
          omega
        · have hs : ¬ (mapGet st.medicinesMap b.Name).isSome = true :=
            fun h => hk ((mapGet_isSome_iff _ _).1 h)
          rw [if_neg hs, if_neg hk] at ih4
          omega

/-- C1. Deduplication in `UploadExcel` is last-value-wins: after the row loop the
map holds, under every name, the record built from the last accepted row carrying
that name (and nothing under a name no accepted row carries); the duplicate
counter is the number of overwrites, that is the number of accepted rows minus
the number of distinct accepted names; and three accepted rows with one name
leave the third row's record, with its price, and count 2 duplicates. -/
theorem C1_dedup_last_value_wins (orders : Nat → List (Str × List Str)) (phone address : Str)
    (pharmacyID : Int) (rows : List Str) :
    (∀ name, mapGet (uploadLoop orders phone address pharmacyID LoopState.init 0 rows).medicinesMap
        name = lastNamed name (acceptedRecords orders phone address pharmacyID 0 rows)) ∧
    (uploadLoop orders phone address pharmacyID LoopState.init 0 rows).duplicates =
      (acceptedRecords orders phone address pharmacyID 0 rows).length -
        ((acceptedRecords orders phone address pharmacyID 0 rows).map
          (fun m => m.Name)).dedup.length ∧
    ((acceptedRecords orders phone address pharmacyID 0 rows).map (fun m => m.Name)).dedup.length ≤
      (acceptedRecords orders phone address pharmacyID 0 rows).length ∧
    (∀ r1 r2 r3 : Str, accepted r1 = true → accepted r2 = true → accepted r3 = true →
      (parseRowData r1).name = (parseRowData r3).name →
      (parseRowData r2).name = (parseRowData r3).name →
      mapGet (uploadLoop orders phone address pharmacyID LoopState.init 0 [r1, r2, r3]).medicinesMap
          (parseRowData r3).name = some (buildRecord (orders 2) phone address pharmacyID r3) ∧
        (buildRecord (orders 2) phone address pharmacyID r3).Price = (parseRowData r3).price ∧
        (uploadLoop orders phone address pharmacyID LoopState.init 0 [r1, r2, r3]).duplicates = 2) := by
  obtain ⟨h1, h2, h3, h4⟩ :=
    uploadLoop_spec orders phone address pharmacyID rows LoopState.init 0
  have hnd := h2 (by simp only [LoopState.init, mapKeys]; exact List.nodup_nil)
  have hperm :
      (mapKeys (uploadLoop orders phone address pharmacyID LoopState.init 0 rows).medicinesMap).Perm
        ((acceptedRecords orders phone address pharmacyID 0 rows).map (fun m => m.Name)).dedup := by
    refine (List.perm_ext_iff_of_nodup hnd (List.nodup_dedup _)).2 (fun k => ?_)
    rw [h3 k, List.mem_dedup]
    simp only [LoopState.init, mapKeys, List.not_mem_nil, false_or]
  have hlen := hperm.length_eq
  rw [length_mapKeys] at hlen
  have h4 : (uploadLoop orders phone address pharmacyID LoopState.init 0 rows).duplicates +
      (uploadLoop orders phone address pharmacyID LoopState.init 0 rows).medicinesMap.length =
      0 + 0 + (acceptedRecords orders phone address pharmacyID 0 rows).length := h4
  refine ⟨fun name => ?_, by omega, by omega, ?_⟩
  · rw [h1 name]
    cases lastNamed name (acceptedRecords orders phone address pharmacyID 0 rows) with
    | some x => rfl
    | none => simp only [LoopState.init, mapGet]
  · intro r1 r2 r3 a1 a2 a3 e1 e2
    obtain ⟨m1, d1, -, -⟩ :=
      uploadStep_accepted (orders 0) phone address pharmacyID LoopState.init 0 r1 a1
    obtain ⟨m2, d2, -, -⟩ :=
      uploadStep_accepted (orders 1) phone address pharmacyID
        (uploadStep (orders 0) phone address pharmacyID LoopState.init 0 r1) 1 r2 a2
    obtain ⟨m3, d3, -, -⟩ :=
      uploadStep_accepted (orders 2) phone address pharmacyID
        (uploadStep (orders 1) phone address pharmacyID
          (uploadStep (orders 0) phone address pharmacyID LoopState.init 0 r1) 1 r2) 2 r3 a3
    simp only [uploadLoop]
    refine ⟨?_, rfl, ?_⟩
    · rw [m3, mapGet_mapSet, buildRecord_name, if_pos rfl]
    · rw [d3, m2, mapGet_mapSet, d2, m1, mapGet_mapSet, d1]
      simp only [buildRecord_name, e1, e2, if_true, Option.isSome_some, LoopState.init, mapGet,
        Option.isSome_none, Bool.false_eq_true, if_false]

/-- Witness for C1: three accepted rows with one name and prices 1500, 1700, 1900. -/
theorem C1_dedup_last_value_wins_witness :
    mapGet (uploadLoop (fun _ => categories) [] [] 1 LoopState.init 0
        ["1 Аспирин 5 10 20 1500 30000 Bayer".toList, "2 Аспирин 5 10 20 1700 30000 Bayer".toList,
          "3 Аспирин 5 10 20 1900 30000 Bayer".toList]).medicinesMap
      (parseRowData "3 Аспирин 5 10 20 1900 30000 Bayer".toList).name =
        some (buildRecord categories [] [] 1 "3 Аспирин 5 10 20 1900 30000 Bayer".toList) ∧
      (buildRecord categories [] [] 1 "3 Аспирин 5 10 20 1900 30000 Bayer".toList).Price =
        (parseRowData "3 Аспирин 5 10 20 1900 30000 Bayer".toList).price ∧
      (uploadLoop (fun _ => categories) [] [] 1 LoopState.init 0
        ["1 Аспирин 5 10 20 1500 30000 Bayer".toList, "2 Аспирин 5 10 20 1700 30000 Bayer".toList,
          "3 Аспирин 5 10 20 1900 30000 Bayer".toList]).duplicates = 2 :=
  (C1_dedup_last_value_wins (fun _ => categories) [] [] 1 []).2.2.2
    "1 Аспирин 5 10 20 1500 30000 Bayer".toList "2 Аспирин 5 10 20 1700 30000 Bayer".toList
    "3 Аспирин 5 10 20 1900 30000 Bayer".toList (by decide) (by decide) (by decide)
    (by decide) (by decide)

theorem slice_eq_chunk (medicines : List Medicine) (j : Nat) :
    slice medicines (100 * j)
        (if 100 * j + 100 > medicines.length then medicines.length else 100 * j + 100) =
      chunk medicines j := by
  unfold slice chunk
  by_cases h : 100 * j + 100 > medicines.length
  · rw [if_pos h]
    rw [List.take_of_length_le (by rw [List.length_drop]),
      List.take_of_length_le (by rw [List.length_drop]; omega)]
  · rw [if_neg h]
    congr 1
    omega

theorem length_chunk (medicines : List Medicine) (j : Nat) :
    (chunk medicines j).length = min 100 (medicines.length - 100 * j) := by
  unfold chunk
  rw [List.length_take, List.length_drop]

theorem flatten_chunks (medicines : List Medicine) (c : Nat) :
    ((List.range' 0 c).map (chunk medicines)).flatten = medicines.take (100 * c) := by
  induction c with
  | zero => rfl
  | succ c ih =>
    rw [List.range'_1_concat, List.map_append, List.flatten_append, ih]
    have h : 100 * (c + 1) = 100 * c + 100 := by omega
    rw [h, List.take_add]
    simp only [List.map_cons, List.map_nil, List.flatten_cons, List.flatten_nil, List.append_nil,
      Nat.zero_add, chunk]

theorem insertLoop_step (db : DB) (medicines : List Medicine) (fuel j saved : Nat) (tx : Store)
    (issued : List (List Medicine)) (hj : 100 * j < medicines.length)
    (hlen : issued.length = j) (hok : db.execErr j (chunk medicines j) = none) :
    insertLoop db medicines (fuel + 1) (100 * j) saved tx issued =
      insertLoop db medicines fuel (100 * j + 100) (saved + (chunk medicines j).length)
        (execInsert db.now tx (chunk medicines j)) (issued ++ [chunk medicines j]) := by
  rw [insertLoop, if_pos hj]
  simp only [slice_eq_chunk, hlen, hok]

theorem insertLoop_fail (db : DB) (medicines : List Medicine) (fuel j saved : Nat) (tx : Store)
    (issued : List (List Medicine)) (e : Str) (hj : 100 * j < medicines.length)
    (hlen : issued.length = j) (hfail : db.execErr j (chunk medicines j) = some e) :
    insertLoop db medicines (fuel + 1) (100 * j) saved tx issued =
      ⟨saved, some ("batch insert xato: ".toList ++ e), db.store, true, false,
        issued ++ [chunk medicines j]⟩ := by
  rw [insertLoop, if_pos hj]
  simp only [slice_eq_chunk, hlen, hfail]

/-- The first `c` iterations of the chunk loop when none of their statements
fails. -/
theorem insertLoop_first (db : DB) (medicines : List Medicine) (c : Nat) :
    ∀ fuel : Nat,
      (∀ t, t < c → 100 * t < medicines.length ∧ db.execErr t (chunk medicines t) = none) →
      insertLoop db medicines (fuel + c) 0 0 db.store [] =
        insertLoop db medicines fuel (100 * c) (medicines.take (100 * c)).length
          (((List.range' 0 c).map (chunk medicines)).foldl (execInsert db.now) db.store)
          ((List.range' 0 c).map (chunk medicines)) := by
  induction c with
  | zero => intro fuel _; rfl
  | succ c ih =>
    intro fuel h
    have h1 := ih (fuel + 1) (fun t ht => h t (by omega))
    have e1 : fuel + (c + 1) = fuel + 1 + c := by omega
    rw [e1, h1]
    obtain ⟨hc, hok⟩ := h c (by omega)
    rw [insertLoop_step db medicines fuel c _ _ _ hc
      (by rw [List.length_map, List.length_range']) hok]
    have e2 : 100 * (c + 1) = 100 * c + 100 := by omega
    rw [List.range'_1_concat, List.map_append, List.foldl_append, e2, List.take_add,
      List.length_append]
    simp only [List.map_cons, List.map_nil, List.foldl_cons, List.foldl_nil, Nat.zero_add, chunk]

theorem numChunks_spec (n t : Nat) : t < numChunks n ↔ 100 * t < n := by
  unfold numChunks
  omega

theorem foldl_execInsert_flatten (now : Nat) (chunks : List (List Medicine)) :
    ∀ st : Store, chunks.foldl (execInsert now) st = execInsert now st chunks.flatten := by
  induction chunks with
  | nil => intro st; rfl
  | cons b chunks ih =>
    intro st
    rw [List.foldl_cons, ih, List.flatten_cons]
    simp only [execInsert, List.foldl_append]

/-- What `batchInsertMedicines` returns when no operation fails. -/
theorem batchInsert_success (db : DB) (medicines : List Medicine) (hn : 1 ≤ medicines.length)
    (hb : db.beginErr = none)
    (he : ∀ j, j < numChunks medicines.length → db.execErr j (chunk medicines j) = none)
    (hc : db.commitErr = none) :
    batchInsertMedicines db medicines =
      ⟨medicines.length, none, execInsert db.now db.store medicines, true, true,
        (List.range' 0 (numChunks medicines.length)).map (chunk medicines)⟩ := by
  have hK : numChunks medicines.length ≤ medicines.length := by
    unfold numChunks; omega
  have hpre := insertLoop_first db medicines (numChunks medicines.length)
    (medicines.length - numChunks medicines.length + 1)
    (fun t ht => ⟨(numChunks_spec _ _).1 ht, he t ht⟩)
  have e1 : medicines.length - numChunks medicines.length + 1 + numChunks medicines.length =
      medicines.length + 1 := by omega
  rw [e1] at hpre
  have hdone : ¬ 100 * numChunks medicines.length < medicines.length := by
    intro h
    exact Nat.lt_irrefl _ ((numChunks_spec _ _).2 h)
  have htake : medicines.take (100 * numChunks medicines.length) = medicines :=
    List.take_of_length_le (by omega)
  unfold batchInsertMedicines
  rw [if_neg (by omega), hb]
  simp only []
  rw [hpre, insertLoop, if_neg hdone, hc, foldl_execInsert_flatten, flatten_chunks, htake]

/-- What `batchInsertMedicines` returns when the statement of index `j` (from 0)
is the first to fail. -/
theorem batchInsert_failure (db : DB) (medicines : List Medicine) (j : Nat) (e : Str)
    (hb : db.beginErr = none) (hj : j < numChunks medicines.length)
    (hok : ∀ t, t < j → db.execErr t (chunk medicines t) = none)
    (hfail : db.execErr j (chunk medicines j) = some e) :
    batchInsertMedicines db medicines =
      ⟨100 * j, some ("batch insert xato: ".toList ++ e), db.store, true, false,
        (List.range' 0 (j + 1)).map (chunk medicines)⟩ := by
  have hjn : 100 * j < medicines.length := (numChunks_spec _ _).1 hj
  have hpre := insertLoop_first db medicines j (medicines.length - j)
    (fun t ht => ⟨by omega, hok t ht⟩)
  have e1 : medicines.length - j + j = medicines.length + 1 - 1 := by omega
  have e2 : medicines.length + 1 = (medicines.length - j) + j + 1 := by omega
  have hpre2 := insertLoop_first db medicines j (medicines.length - j + 1)
    (fun t ht => ⟨by omega, hok t ht⟩)
  have e3 : medicines.length - j + 1 + j = medicines.length + 1 := by omega
  rw [e3] at hpre2
  unfold batchInsertMedicines
  rw [if_neg (by omega), hb]
  simp only []
  rw [hpre2, insertLoop_fail db medicines _ j _ _ _ e hjn
    (by rw [List.length_map, List.length_range']) hfail]
  rw [List.range'_1_concat, List.map_append, List.length_take]
  simp only [List.map_cons, List.map_nil, Nat.zero_add]
  congr 1
  omega

theorem length_sampleRecords (n : Nat) : (sampleRecords n).length = n := by
  unfold sampleRecords
  rw [List.length_map, List.length_range]

/-- What `batchInsertMedicines` returns when no statement fails and the commit
fails. -/
theorem batchInsert_commit_failure (db : DB) (medicines : List Medicine)
    (hn : 1 ≤ medicines.length) (hb : db.beginErr = none)
    (he : ∀ j, j < numChunks medicines.length → db.execErr j (chunk medicines j) = none)
    (e : Str) (hc : db.commitErr = some e) :
    batchInsertMedicines db medicines =
      ⟨medicines.length, some ("commit xato: ".toList ++ e), db.store, true, false,
        (List.range' 0 (numChunks medicines.length)).map (chunk medicines)⟩ := by
  have hK : numChunks medicines.length ≤ medicines.length := by
    unfold numChunks; omega
  have hpre := insertLoop_first db medicines (numChunks medicines.length)
    (medicines.length - numChunks medicines.length + 1)
    (fun t ht => ⟨(numChunks_spec _ _).1 ht, he t ht⟩)
  have e1 : medicines.length - numChunks medicines.length + 1 + numChunks medicines.length =
      medicines.length + 1 := by omega
  rw [e1] at hpre
  have hdone : ¬ 100 * numChunks medicines.length < medicines.length := by
    intro h
    exact Nat.lt_irrefl _ ((numChunks_spec _ _).2 h)
  have htake : medicines.take (100 * numChunks medicines.length) = medicines :=
    List.take_of_length_le (by omega)
  unfold batchInsertMedicines
  rw [if_neg (by omega), hb]
  simp only []
  rw [hpre, insertLoop, if_neg hdone, hc, htake]

/-- A call of `batchInsertMedicines` that returns no error leaves the table as the
statements of all its records make it. -/
theorem batchInsert_store_of_ok (db : DB) (medicines : List Medicine)
    (h : (batchInsertMedicines db medicines).err = none) :
    (batchInsertMedicines db medicines).store = execInsert db.now db.store medicines := by
  by_cases hn : medicines.length = 0
  · have : medicines = [] := List.length_eq_zero.1 hn
    subst this
    rfl
  · have hn1 : 1 ≤ medicines.length := by omega
    cases hb : db.beginErr with
    | some e =>
      unfold batchInsertMedicines at h
      rw [if_neg hn, hb] at h
      exact absurd h (by simp)
    | none =>
      by_cases hall : ∀ j, j < numChunks medicines.length →
          db.execErr j (chunk medicines j) = none
      · cases hc : db.commitErr with
        | none => rw [batchInsert_success db medicines hn1 hb hall hc]
        | some e =>
          rw [batchInsert_commit_failure db medicines hn1 hb hall e hc] at h
          exact absurd h (by simp)
      · have hex : ∃ j, j < numChunks medicines.length ∧
            db.execErr j (chunk medicines j) ≠ none := by
          by_contra hne
          apply hall
          intro j hj
          by_contra hj2
          exact hne ⟨j, hj, hj2⟩
        classical
        have hmin : ∀ {m : Nat}, m < Nat.find hex →
            ¬ (m < numChunks medicines.length ∧ db.execErr m (chunk medicines m) ≠ none) :=
          fun {m} hm => Nat.find_min hex hm
        obtain ⟨hj, hje⟩ := Nat.find_spec hex
        obtain ⟨e, he⟩ := Option.ne_none_iff_exists'.1 hje
        have hok : ∀ t, t < Nat.find hex → db.execErr t (chunk medicines t) = none := by
          intro t ht
          by_contra hc
          exact hmin ht ⟨by omega, hc⟩
        rw [batchInsert_failure db medicines (Nat.find hex) e hb hj hok he] at h
        exact absurd h (by simp)

/-- C6. In `batchInsertMedicines`, when the `k`-th chunk statement (counted from
1, `k ≤ ceil(n/100)`) is the first to fail, exactly `k` statements have been
issued, the transaction is not committed and the table is as it was before the
call, and the results are `100*(k-1)` and a non-nil error. -/
theorem C6_first_failure_rolls_back (db : DB) (medicines : List Medicine) (k : Nat) (e : Str)
    (hn : 1 ≤ medicines.length) (hb : db.beginErr = none)
    (hk1 : 1 ≤ k) (hk : k ≤ numChunks medicines.length)
    (hok : ∀ j, 1 ≤ j → j < k → db.execErr (j - 1) (chunk medicines (j - 1)) = none)
    (hfail : db.execErr (k - 1) (chunk medicines (k - 1)) = some e) :
    (batchInsertMedicines db medicines).issued.length = k ∧
      (batchInsertMedicines db medicines).began = true ∧
      (batchInsertMedicines db medicines).committed = false ∧
      (batchInsertMedicines db medicines).store = db.store ∧
      (batchInsertMedicines db medicines).saved = 100 * (k - 1) ∧
      (batchInsertMedicines db medicines).err = some ("batch insert xato: ".toList ++ e) := by
  have hn' := hn
  have h := batchInsert_failure db medicines (k - 1) e hb (by omega)
    (fun t ht => by
      have := hok (t + 1) (by omega) (by omega)
      simpa using this) hfail
  rw [h]
  refine ⟨?_, rfl, rfl, rfl, rfl, rfl⟩
  simp only [List.length_map, List.length_range']
  omega

/-- Witness for C6: 250 records and a failure of the second statement; the count
returned is 100. -/
theorem C6_first_failure_rolls_back_witness :
    (batchInsertMedicines
        ⟨[], 0, none, fun j _ => if j = 1 then some "boom".toList else none, none⟩
        (sampleRecords 250)).issued.length = 2 ∧
      (batchInsertMedicines
        ⟨[], 0, none, fun j _ => if j = 1 then some "boom".toList else none, none⟩
        (sampleRecords 250)).began = true ∧
      (batchInsertMedicines
        ⟨[], 0, none, fun j _ => if j = 1 then some "boom".toList else none, none⟩
        (sampleRecords 250)).committed = false ∧
      (batchInsertMedicines
        ⟨[], 0, none, fun j _ => if j = 1 then some "boom".toList else none, none⟩
        (sampleRecords 250)).store = [] ∧
      (batchInsertMedicines
        ⟨[], 0, none, fun j _ => if j = 1 then some "boom".toList else none, none⟩
        (sampleRecords 250)).saved = 100 * (2 - 1) ∧
      (batchInsertMedicines
        ⟨[], 0, none, fun j _ => if j = 1 then some "boom".toList else none, none⟩
        (sampleRecords 250)).err = some ("batch insert xato: ".toList ++ "boom".toList) :=
  C6_first_failure_rolls_back
    ⟨[], 0, none, fun j _ => if j = 1 then some "boom".toList else none, none⟩
    (sampleRecords 250) 2 "boom".toList
    (by rw [length_sampleRecords]; decide) rfl (by decide)
    (by rw [length_sampleRecords]; decide)
    (fun j h1 h2 => by
      have : j = 1 := by omega
      subst this
      rfl)
    rfl

/-- C7. In `batchInsertMedicines`, for `n ≥ 1` records and no failing operation,
exactly `ceil(n/100)` statements are issued; statement `j` (from 0) holds the
records at positions `100*j` up to `min(100*(j+1), n) - 1` in input order, so
each has between 1 and 100 records and the statements concatenated are the input;
the call commits and returns `(n, nil)`.  For the empty list it returns `(0, nil)`
without opening a transaction. -/
theorem C7_chunks_cover_input :
    (∀ db : DB, batchInsertMedicines db [] = ⟨0, none, db.store, false, false, []⟩) ∧
    (∀ (db : DB) (medicines : List Medicine), 1 ≤ medicines.length → db.beginErr = none →
      (∀ j, j < numChunks medicines.length → db.execErr j (chunk medicines j) = none) →
      db.commitErr = none →
      (batchInsertMedicines db medicines).issued =
          (List.range ((medicines.length + 99) / 100)).map
            (fun j => (medicines.drop (100 * j)).take 100) ∧
        (batchInsertMedicines db medicines).issued.length = (medicines.length + 99) / 100 ∧
        (∀ j, j < (medicines.length + 99) / 100 →
          ((medicines.drop (100 * j)).take 100).length =
            min (100 * (j + 1)) medicines.length - 100 * j) ∧
        (∀ b, b ∈ (batchInsertMedicines db medicines).issued → 1 ≤ b.length ∧ b.length ≤ 100) ∧
        (batchInsertMedicines db medicines).issued.flatten = medicines ∧
        (batchInsertMedicines db medicines).began = true ∧
        (batchInsertMedicines db medicines).committed = true ∧
        (batchInsertMedicines db medicines).saved = medicines.length ∧
        (batchInsertMedicines db medicines).err = none) := by
  refine ⟨fun db => rfl, ?_⟩
  intro db medicines hn hb he hc
  rw [batchInsert_success db medicines hn hb he hc]
  have hK : 100 * numChunks medicines.length ≥ medicines.length := by
    unfold numChunks; omega
  refine ⟨?_, ?_, ?_, ?_, ?_, rfl, rfl, rfl, rfl⟩
  · rw [List.range_eq_range']; rfl
  · simp only [List.length_map, List.length_range']; rfl
  · intro j hj
    rw [List.length_take, List.length_drop]
    omega
  · intro b hb'
    simp only [List.mem_map, List.mem_range'_1] at hb'
    obtain ⟨j, ⟨-, hj⟩, rfl⟩ := hb'
    rw [length_chunk]
    have := (numChunks_spec _ _).1 (by omega : j < numChunks medicines.length)
    omega
  · show ((List.range' 0 (numChunks medicines.length)).map (chunk medicines)).flatten = medicines
    rw [flatten_chunks]
    exact List.take_of_length_le (by omega)

/-- Witness for C7: 250 records, no failure: three statements, 250 saved. -/
theorem C7_chunks_cover_input_witness :
    (batchInsertMedicines ⟨[], 0, none, fun _ _ => none, none⟩ (sampleRecords 250)).issued.length =
        ((sampleRecords 250).length + 99) / 100 ∧
      (batchInsertMedicines ⟨[], 0, none, fun _ _ => none, none⟩ (sampleRecords 250)).issued.flatten =
        sampleRecords 250 ∧
      (batchInsertMedicines ⟨[], 0, none, fun _ _ => none, none⟩ (sampleRecords 250)).saved =
        (sampleRecords 250).length :=
  have h := C7_chunks_cover_input.2 ⟨[], 0, none, fun _ _ => none, none⟩ (sampleRecords 250)
    (by rw [length_sampleRecords]; decide) rfl (fun _ _ => rfl) rfl
  ⟨h.2.1, h.2.2.2.2.1, h.2.2.2.2.2.2.2.1⟩

theorem get_upsertRow_self (now : Nat) (st : Store) (m : Medicine) :
    (upsertRow now st m).get m.key = some (m.toRow now) := by
  induction st with
  | nil =>
    simp only [upsertRow, Store.get, List.find?]
    have : (m.toRow now).key = m.key := rfl
    simp only [this, decide_True]
  | cons r st ih =>
    by_cases h : r.key = m.key
    · simp only [upsertRow, h, if_true, Store.get, List.find?]
      have hk : (r.overwrite m now).key = m.key := h
      simp only [hk, decide_True]
      have h1 : r.name = m.Name := congrArg Prod.fst h
      have h2 : r.pharmacy_id = m.PharmacyID := congrArg Prod.snd h
      simp only [Medicine.toRow, StoredRow.overwrite, h1, h2]
    · simp only [upsertRow, h, if_false, Store.get, List.find?, decide_False]
      exact ih

theorem get_upsertRow_other (now : Nat) (st : Store) (m : Medicine) (k : Str × Int)
    (hk : k ≠ m.key) : (upsertRow now st m).get k = st.get k := by
  induction st with
  | nil =>
    simp only [upsertRow, Store.get, List.find?]
    have : ¬ (m.toRow now).key = k := fun h => hk h.symm
    simp only [this, decide_False]
  | cons r st ih =>
    by_cases h : r.key = m.key
    · have hr : ¬ r.key = k := fun h2 => hk (h2 ▸ h)
      have hk2 : ¬ (r.overwrite m now).key = k := hr
      rw [upsertRow, if_pos h]
      simp only [Store.get, List.find?, hk2, hr, decide_False]
    · simp only [upsertRow, h, if_false, Store.get, List.find?]
      by_cases hr : r.key = k
      · simp only [hr, decide_True]
      · simp only [hr, decide_False]
        exact ih

theorem filter_upsertRow (now : Nat) (st : Store) (m : Medicine) (p : Str × Int → Bool)
    (hp : p m.key = false) :
    (upsertRow now st m).filter (fun r => p r.key) = st.filter (fun r => p r.key) := by
  induction st with
  | nil =>
    have : (m.toRow now).key = m.key := rfl
    simp only [upsertRow, List.filter, this, hp]
  | cons r st ih =>
    by_cases h : r.key = m.key
    · have hk : (r.overwrite m now).key = m.key := h
      simp only [upsertRow, h, if_true, List.filter, hk, hp]
    · simp only [upsertRow, h, if_false, List.filter, ih]

theorem get_execInsert_other (now : Nat) (batch : List Medicine) (k : Str × Int)
    (hk : k ∉ batch.map Medicine.key) :
    ∀ st : Store, (execInsert now st batch).get k = st.get k := by
  induction batch with
  | nil => intro st; rfl
  | cons m batch ih =>
    intro st
    rw [List.map_cons, List.mem_cons, not_or] at hk
    have h1 : execInsert now st (m :: batch) = execInsert now (upsertRow now st m) batch := rfl
    rw [h1, ih hk.2, get_upsertRow_other now st m k hk.1]

theorem get_execInsert_self (now : Nat) (batch : List Medicine)
    (hnd : (batch.map Medicine.key).Nodup) :
    ∀ (st : Store) (m : Medicine), m ∈ batch →
      (execInsert now st batch).get m.key = some (m.toRow now) := by
  induction batch with
  | nil => intro st m hm; exact absurd hm (List.not_mem_nil m)
  | cons m0 batch ih =>
    intro st m hm
    rw [List.map_cons, List.nodup_cons] at hnd
    have h1 : execInsert now st (m0 :: batch) = execInsert now (upsertRow now st m0) batch := rfl
    rw [h1]
    rcases List.mem_cons.1 hm with h | h
    · subst h
      rw [get_execInsert_other now batch m.key hnd.1, get_upsertRow_self]
    · exact ih hnd.2 _ m h

theorem filter_execInsert (now : Nat) (batch : List Medicine) (p : Str × Int → Bool)
    (hp : ∀ m, m ∈ batch → p m.key = false) :
    ∀ st : Store,
      (execInsert now st batch).filter (fun r => p r.key) = st.filter (fun r => p r.key) := by
  induction batch with
  | nil => intro st; rfl
  | cons m batch ih =>
    intro st
    have h1 : execInsert now st (m :: batch) = execInsert now (upsertRow now st m) batch := rfl
    rw [h1, ih (fun x hx => hp x (List.mem_cons_of_mem _ hx)),
      filter_upsertRow now st m p (hp m (List.mem_cons_self _ _))]

/-- C8. With the table read as a map keyed by `(name, pharmacy_id)`: after a call
of `batchInsertMedicines` that returns no error, on records with pairwise
distinct keys, the key of every input record maps to a row with exactly that
record's price, count, manufacturer, phone, address, description and category
(whether the key was there before or not); the row of every key not in the input
is what it was; and the rows whose key is not in the input are the same rows, in
the same order, as before the call, so none of them is modified or deleted. -/
theorem C8_upsert_overwrites_and_frames (db : DB) (medicines : List Medicine)
    (hok : (batchInsertMedicines db medicines).err = none)
    (hnd : (medicines.map Medicine.key).Nodup) :
    (∀ m, m ∈ medicines → ∃ r, (batchInsertMedicines db medicines).store.get m.key = some r ∧
        r.name = m.Name ∧ r.pharmacy_id = m.PharmacyID ∧ r.price = m.Price ∧
        r.count = m.Count ∧ r.manufacturer = m.Manufacturer ∧ r.phone = m.Phone ∧
        r.address = m.Address ∧ r.description = m.Description ∧ r.category = m.Category) ∧
      (∀ k, k ∉ medicines.map Medicine.key →
        (batchInsertMedicines db medicines).store.get k = db.store.get k) ∧
      (batchInsertMedicines db medicines).store.filter
          (fun r => decide (r.key ∉ medicines.map Medicine.key)) =
        db.store.filter (fun r => decide (r.key ∉ medicines.map Medicine.key)) := by
  rw [batchInsert_store_of_ok db medicines hok]
  refine ⟨fun m hm => ⟨m.toRow db.now, get_execInsert_self db.now medicines hnd db.store m hm,
    rfl, rfl, rfl, rfl, rfl, rfl, rfl, rfl, rfl⟩,
    fun k hk => get_execInsert_other db.now medicines k hk db.store, ?_⟩
  refine filter_execInsert db.now medicines
    (fun k => decide (k ∉ medicines.map Medicine.key)) (fun m hm => ?_) db.store
  have : m.key ∈ medicines.map Medicine.key := List.mem_map_of_mem _ hm
  simp only [this, not_true_eq_false, decide_False]

/-- Witness for C8: `sampleBatch` written to `sampleStore`. -/
theorem C8_upsert_overwrites_and_frames_witness :
    (∀ m, m ∈ sampleBatch → ∃ r, (batchInsertMedicines sampleDB sampleBatch).store.get m.key = some r ∧
        r.name = m.Name ∧ r.pharmacy_id = m.PharmacyID ∧ r.price = m.Price ∧
        r.count = m.Count ∧ r.manufacturer = m.Manufacturer ∧ r.phone = m.Phone ∧
        r.address = m.Address ∧ r.description = m.Description ∧ r.category = m.Category) ∧
      (∀ k, k ∉ sampleBatch.map Medicine.key →
        (batchInsertMedicines sampleDB sampleBatch).store.get k = sampleDB.store.get k) ∧
      (batchInsertMedicines sampleDB sampleBatch).store.filter
          (fun r => decide (r.key ∉ sampleBatch.map Medicine.key)) =
        sampleDB.store.filter (fun r => decide (r.key ∉ sampleBatch.map Medicine.key)) :=
  C8_upsert_overwrites_and_frames sampleDB sampleBatch (by rfl) (by decide)

/-- C9, at a sheet with the one row `1 Клотримазол 5 10 20 1500 30000 Bayer`:
both runs succeed and the second creates no new key, but when the second run's
`detectCategory` visits its map in another order than the first run's, the row
stored after two runs differs from the row stored after one run in its category
and description, with equal time stamps. -/
theorem C9_second_run_changes_category :
    IsCategoryOrder categories ∧ IsCategoryOrder categories.reverse ∧
      (UploadExcel emptyDB [] clotrimazoleSheet [] [] "1".toList "A".toList 1
        (fun _ => categories) id).err = none ∧
      (UploadExcel emptyDB [] clotrimazoleSheet [] [] "1".toList "A".toList 1
        (fun _ => categories) id).store =
        [⟨"Клотримазол".toList, 1, 1500, 20, "Bayer".toList, "1".toList, "A".toList,
          "Teri kasalliklarini davolash".toList, "Dermatalogiya".toList, 0⟩] ∧
      (UploadExcel
        { emptyDB with store := (UploadExcel emptyDB [] clotrimazoleSheet [] [] "1".toList
            "A".toList 1 (fun _ => categories) id).store }
        [] clotrimazoleSheet [] [] "1".toList "A".toList 1
        (fun _ => categories.reverse) id).err = none ∧
      (UploadExcel
        { emptyDB with store := (UploadExcel emptyDB [] clotrimazoleSheet [] [] "1".toList
            "A".toList 1 (fun _ => categories) id).store }
        [] clotrimazoleSheet [] [] "1".toList "A".toList 1
        (fun _ => categories.reverse) id).store =
        [⟨"Клотримазол".toList, 1, 1500, 20, "Bayer".toList, "1".toList, "A".toList,
          "Ayollar salomatligi uchun".toList, "Ginekologiya".toList, 0⟩] := by
  refine ⟨by decide, by decide, by rfl, by rfl, by rfl, by rfl⟩

/-- C10, at the names `клотримазол` and `Аскорил + Парацетамол`: two orders of
visiting the map `categories` give two different categories. -/
theorem C10_category_depends_on_map_order :
    IsCategoryOrder categories ∧ IsCategoryOrder categories.reverse ∧
      detectCategory categories "клотримазол".toList = "Dermatalogiya".toList ∧
      detectCategory categories.reverse "клотримазол".toList = "Ginekologiya".toList ∧
      detectCategory categories "Аскорил + Парацетамол".toList = "Og'riq qoldiruvchi".toList ∧
      detectCategory categories.reverse "Аскорил + Парацетамол".toList = "Shamolash".toList := by
  refine ⟨by decide, by decide, by decide, by decide, by decide, by decide⟩

theorem mem_candidates (p : Piece) (s : Str) (n : Nat) :
    n ∈ p.candidates s ↔ p.min ≤ n ∧ n ≤ (s.takeWhile p.cls).length := by
  unfold Piece.candidates
  by_cases hg : p.greedy = true
  · rw [if_pos hg, List.mem_reverse, List.mem_range'_1]
    omega
  · rw [if_neg hg, List.mem_range'_1]
    omega

theorem matchPieces_cons_some (p : Piece) (ps : List Piece) (s : Str) (caps : List Str)
    (h : matchPieces (p :: ps) s = some caps) :
    ∃ n caps1, p.min ≤ n ∧ n ≤ (s.takeWhile p.cls).length ∧
      matchPieces ps (s.drop n) = some caps1 ∧
      caps = if p.cap then s.take n :: caps1 else caps1 := by
  rw [matchPieces] at h
  obtain ⟨n, hn, hv⟩ := List.exists_of_findSome?_eq_some h
  cases hm : matchPieces ps (s.drop n) with
  | none => rw [hm] at hv; exact absurd hv (by simp)
  | some caps1 =>
    rw [hm] at hv
    refine ⟨n, caps1, ((mem_candidates p s n).1 hn).1, ((mem_candidates p s n).1 hn).2, hm, ?_⟩
    simpa using hv.symm

theorem takeWhile_length_pos_iff (q : Char → Bool) (s : Str) :
    1 ≤ (s.takeWhile q).length ↔ ∃ c r, s = c :: r ∧ q c = true := by
  cases s with
  | nil => simp
  | cons c r =>
    by_cases hc : q c = true
    · simp [List.takeWhile, hc]
    · simp [List.takeWhile, hc]

theorem drop_takeWhile_head (q : Char → Bool) (s : Str) (n : Nat)
    (hn : n < (s.takeWhile q).length) : ∃ c r, s.drop n = c :: r ∧ q c = true := by
  induction s generalizing n with
  | nil => simp at hn
  | cons a s ih =>
    by_cases ha : q a = true
    · cases n with
      | zero => exact ⟨a, s, rfl, ha⟩
      | succ n =>
        simp only [List.takeWhile, ha, List.length_cons] at hn
        exact ih n (by omega)
    · simp [List.takeWhile, ha] at hn

theorem reSpace_isSpace (c : Char) (h : reSpace c = true) : isSpace c = true := by
  simp only [reSpace, Bool.or_eq_true, decide_eq_true_eq] at h
  simp only [isSpace, Bool.or_eq_true, Bool.and_eq_true, decide_eq_true_eq]
  omega

theorem isDigit_not_isSpace (c : Char) (h : isDigit c = true) : isSpace c = false := by
  simp only [isDigit, Bool.and_eq_true, decide_eq_true_eq] at h
  cases hs : isSpace c with
  | false => rfl
  | true =>
    simp only [isSpace, Bool.or_eq_true, Bool.and_eq_true, decide_eq_true_eq] at hs
    omega

theorem isDigit_not_reSpace (c : Char) (h : isDigit c = true) : reSpace c = false := by
  cases hs : reSpace c with
  | false => rfl
  | true =>
    have h1 := reSpace_isSpace c hs
    rw [isDigit_not_isSpace c h] at h1
    exact absurd h1 (by decide)

theorem takeWhile_append_of_all_not (q : Char → Bool) (x w : Str)
    (hw : ∀ c, c ∈ w → q c = false) : (x ++ w).takeWhile q = x.takeWhile q := by
  induction x with
  | nil =>
    cases w with
    | nil => rfl
    | cons a w =>
      rw [List.nil_append, List.takeWhile_cons, hw a (List.mem_cons_self _ _)]
      rfl
  | cons a x ih =>
    by_cases ha : q a = true
    · rw [List.cons_append, List.takeWhile_cons, List.takeWhile_cons, if_pos ha, if_pos ha, ih]
    · rw [List.cons_append, List.takeWhile_cons, List.takeWhile_cons, if_neg ha, if_neg ha]

theorem takeWhile_append_stop (q : Char → Bool) (x : Str) (c : Char) (r : Str)
    (hx : ∀ a, a ∈ x → q a = true) (hc : q c = false) : (x ++ c :: r).takeWhile q = x := by
  induction x with
  | nil => rw [List.nil_append, List.takeWhile_cons, hc]; rfl
  | cons a x ih =>
    rw [List.cons_append, List.takeWhile_cons, if_pos (hx a (List.mem_cons_self _ _)),
      ih (fun b hb => hx b (List.mem_cons_of_mem _ hb))]

theorem takeWhile_all (q : Char → Bool) (x : Str) (hx : ∀ a, a ∈ x → q a = true) :
    x.takeWhile q = x := by
  induction x with
  | nil => rfl
  | cons a x ih =>
    rw [List.takeWhile_cons, if_pos (hx a (List.mem_cons_self _ _)),
      ih (fun b hb => hx b (List.mem_cons_of_mem _ hb))]

/-- A string is its right-trimmed part followed by white space. -/
theorem trimRight_decomp (d : Str) :
    ∃ w, d = (d.reverse.dropWhile isSpace).reverse ++ w ∧ ∀ c, c ∈ w → isSpace c = true := by
  refine ⟨(d.reverse.takeWhile isSpace).reverse, ?_, ?_⟩
  · rw [← List.reverse_append, List.takeWhile_append_dropWhile, List.reverse_reverse]
  · intro c hc
    rw [List.mem_reverse] at hc
    exact (List.mem_takeWhile_imp hc)

theorem leadingToken_trimSpace (rowStr : Str) :
    (trimSpace rowStr).takeWhile (fun c => !isSpace c) = leadingToken rowStr := by
  unfold trimSpace leadingToken
  obtain ⟨w, hd, hw⟩ := trimRight_decomp (rowStr.dropWhile isSpace)
  conv_rhs => rw [hd]
  rw [takeWhile_append_of_all_not]
  intro c hc
  simp only [hw c hc, Bool.not_true]

/-- A match of a pattern that begins `^(\d+)\s+`: the first capture is the run of
digits the string starts with, which is also its leading token. -/
theorem match_leading_number (ps : List Piece) (s : Str) (caps : List Str)
    (h : matchPieces (⟨reDigit, 1, true, true⟩ :: ⟨reSpace, 1, true, false⟩ :: ps) s =
      some caps) :
    ∃ tl, caps = s.takeWhile isDigit :: tl ∧ s.takeWhile isDigit ≠ [] ∧
      s.takeWhile (fun c => !isSpace c) = s.takeWhile isDigit := by
  obtain ⟨n, caps1, hn1, hn2, h1, hc⟩ := matchPieces_cons_some _ _ _ _ h
  obtain ⟨n2, caps2, hm1, hm2, -, -⟩ := matchPieces_cons_some _ _ _ _ h1
  simp only at hn1 hn2 hm1 hm2 hc
  obtain ⟨c, r, hdrop, hsp⟩ :=
    (takeWhile_length_pos_iff reSpace (s.drop n)).1 (by omega)
  have hnm : n = (s.takeWhile reDigit).length := by
    by_contra hne
    obtain ⟨c1, r1, hd1, hdig⟩ := drop_takeWhile_head reDigit s n (by omega)
    rw [hd1] at hdrop
    injection hdrop with e1 e2
    subst e1
    rw [isDigit_not_reSpace c1 hdig] at hsp
    exact absurd hsp (by simp)
  have hdw : s.drop n = s.dropWhile reDigit := by
    conv_lhs => rw [← List.takeWhile_append_dropWhile reDigit s]
    exact List.drop_left' hnm.symm
  have htk : s.take n = s.takeWhile reDigit := by
    conv_lhs => rw [← List.takeWhile_append_dropWhile reDigit s]
    exact List.take_left' hnm.symm
  refine ⟨caps1, ?_, ?_, ?_⟩
  · rw [hc, if_pos trivial, htk]; rfl
  · intro he
    have : (s.takeWhile reDigit).length = 0 := by
      have he2 : s.takeWhile reDigit = [] := he
      rw [he2]; rfl
    omega
  · have hs : s = s.takeWhile reDigit ++ c :: r := by
      conv_lhs => rw [← List.takeWhile_append_dropWhile reDigit s, ← hdw, hdrop]
    show s.takeWhile (fun c => !isSpace c) = s.takeWhile reDigit
    have hx : ∀ a, a ∈ s.takeWhile reDigit → (fun c => !isSpace c) a = true := by
      intro a ha
      have hd : isDigit a = true := List.mem_takeWhile_imp ha
      simp only [isDigit_not_isSpace a hd, Bool.not_false]
    conv_lhs => rw [hs]
    exact takeWhile_append_stop _ _ c r hx (by simp only [reSpace_isSpace c hsp, Bool.not_true])

theorem atoi_zero : atoi ['0'] = 0 := by decide

theorem Parsed.ofMatch_ok (caps : List Str) (h : (Parsed.ofMatch caps).ok = true) :
    ∃ m1 m2 m3 m4 m5, caps = [m1, m2, m3, m4, m5] := by
  match caps, h with
  | [m1, m2, m3, m4, m5], _ => exact ⟨m1, m2, m3, m4, m5, rfl⟩
  | [], h => exact absurd h (by decide)
  | [_], h => exact absurd h (by simp [Parsed.ofMatch, Parsed.zero])
  | [_, _], h => exact absurd h (by simp [Parsed.ofMatch, Parsed.zero])
  | [_, _, _], h => exact absurd h (by simp [Parsed.ofMatch, Parsed.zero])
  | [_, _, _, _], h => exact absurd h (by simp [Parsed.ofMatch, Parsed.zero])
  | _ :: _ :: _ :: _ :: _ :: _ :: _, h => exact absurd h (by simp [Parsed.ofMatch, Parsed.zero])

/-- Whenever `parseRowData` reports a parsed row, its row number is the value of
the row's leading token, which is a non-empty string of digits. -/
theorem parseRowData_ok_num (rowStr : Str) (h : (parseRowData rowStr).ok = true) :
    (parseRowData rowStr).num = atoi (leadingToken rowStr) ∧ leadingToken rowStr ≠ [] ∧
      (leadingToken rowStr).all isDigit = true := by
  have key : ∀ (ps : List Piece) (caps : List Str),
      matchPieces (⟨reDigit, 1, true, true⟩ :: ⟨reSpace, 1, true, false⟩ :: ps)
        (trimSpace rowStr) = some caps → (Parsed.ofMatch caps).ok = true →
      (Parsed.ofMatch caps).num = atoi (leadingToken rowStr) ∧ leadingToken rowStr ≠ [] ∧
        (leadingToken rowStr).all isDigit = true := by
    intro ps caps hm hok
    obtain ⟨tl, hcaps, hne, htok⟩ := match_leading_number ps _ caps hm
    rw [leadingToken_trimSpace] at htok
    obtain ⟨m1, m2, m3, m4, m5, h5⟩ := Parsed.ofMatch_ok caps hok
    rw [h5] at hcaps
    injection hcaps with e1 e2
    rw [htok]
    refine ⟨?_, hne, ?_⟩
    · rw [h5, ← e1]; rfl
    · rw [List.all_eq_true]
      intro a ha
      exact List.mem_takeWhile_imp ha
  unfold parseRowData at h ⊢
  simp only at h ⊢
  by_cases he : trimSpace rowStr = []
  · rw [if_pos he] at h; exact absurd h (by decide)
  · rw [if_neg he] at h ⊢
    cases h1 : matchPieces pattern1 (trimSpace rowStr) with
    | some caps =>
      rw [h1] at h
      exact key _ caps h1 h
    | none =>
      rw [h1] at h
      cases h2 : matchPieces pattern2 (trimSpace rowStr) with
      | some caps =>
        rw [h2] at h
        exact key _ caps h2 h
      | none => rw [h2] at h; exact absurd h (by decide)

/-- C4. A row whose leading whitespace-delimited token is `0`, or is not a
non-empty string of digits, is rejected whatever else it contains:
`parseRowData` returns `ok = false` or `num = 0`, and the loop of `UploadExcel`
counts the row as skipped, keeps at most its text in the failure sample, and
leaves the map of records, the duplicate counter and the category counts as they
were. -/
theorem C4_leading_token_rejects (rowStr : Str)
    (h : leadingToken rowStr = ['0'] ∨
      ¬ (leadingToken rowStr ≠ [] ∧ (leadingToken rowStr).all isDigit = true)) :
    ((parseRowData rowStr).ok = false ∨ (parseRowData rowStr).num = 0) ∧
      accepted rowStr = false ∧
      ∀ (order : List (Str × List Str)) (phone address : Str) (pharmacyID : Int)
        (st : LoopState) (i : Nat),
        (uploadStep order phone address pharmacyID st i rowStr).skipped = st.skipped + 1 ∧
        (uploadStep order phone address pharmacyID st i rowStr).medicinesMap = st.medicinesMap ∧
        (uploadStep order phone address pharmacyID st i rowStr).duplicates = st.duplicates ∧
        (uploadStep order phone address pharmacyID st i rowStr).categoryStats =
          st.categoryStats ∧
        (uploadStep order phone address pharmacyID st i rowStr).failedRows =
          (if st.failedRows.length < 10 then
            st.failedRows ++ ["Qator ".toList ++ fmtNat (i + 1) ++ ": ".toList ++ rowStr]
          else st.failedRows) := by
  have h1 : (parseRowData rowStr).ok = false ∨ (parseRowData rowStr).num = 0 := by
    cases hok : (parseRowData rowStr).ok with
    | false => exact Or.inl rfl
    | true =>
      obtain ⟨hnum, hne, hall⟩ := parseRowData_ok_num rowStr hok
      rcases h with h | h
      · right; rw [hnum, h]; exact atoi_zero
      · exact absurd ⟨hne, hall⟩ h
  have h2 : accepted rowStr = false := by
    unfold accepted
    rcases h1 with h1 | h1
    · rw [h1]; rfl
    · rw [h1]; simp
  refine ⟨h1, h2, ?_⟩
  intro order phone address pharmacyID st i
  rw [uploadStep_rejected order phone address pharmacyID st i rowStr h2]
  exact ⟨rfl, rfl, rfl, rfl, rfl⟩

/-- Witness for C4: a row with leading token `0` and a well-formed rest, and a row
with a leading token that is no number. -/
theorem C4_leading_token_rejects_witness :
    (((parseRowData "0 Аспирин 5 10 20 1500 30000 Bayer".toList).ok = false ∨
        (parseRowData "0 Аспирин 5 10 20 1500 30000 Bayer".toList).num = 0) ∧
      accepted "0 Аспирин 5 10 20 1500 30000 Bayer".toList = false) ∧
    (((parseRowData "№1 Аспирин 5 10 20 1500 30000 Bayer".toList).ok = false ∨
        (parseRowData "№1 Аспирин 5 10 20 1500 30000 Bayer".toList).num = 0) ∧
      accepted "№1 Аспирин 5 10 20 1500 30000 Bayer".toList = false) :=
  ⟨⟨(C4_leading_token_rejects "0 Аспирин 5 10 20 1500 30000 Bayer".toList
      (Or.inl (by decide))).1,
    (C4_leading_token_rejects "0 Аспирин 5 10 20 1500 30000 Bayer".toList
      (Or.inl (by decide))).2.1⟩,
   ⟨(C4_leading_token_rejects "№1 Аспирин 5 10 20 1500 30000 Bayer".toList
      (Or.inr (by decide))).1,
    (C4_leading_token_rejects "№1 Аспирин 5 10 20 1500 30000 Bayer".toList
      (Or.inr (by decide))).2.1⟩⟩

/-- First hit of an ascending search: the candidates below `n` fail and `n`
succeeds. -/
theorem findSome_range_asc {β : Type} (f : Nat → Option β) (v : β) (n : Nat) :
    ∀ (len a : Nat), a ≤ n → n < a + len → f n = some v →
      (∀ k, a ≤ k → k < n → f k = none) →
      (List.range' a len).findSome? f = some v := by
  intro len
  induction len with
  | zero => intro a h1 h2; omega
  | succ len ih =>
    intro a h1 h2 hv hnone
    rw [List.range'_succ, List.findSome?_cons]
    by_cases ha : a = n
    · subst ha; rw [hv]
    · rw [hnone a (Nat.le_refl a) (by omega)]
      exact ih (a + 1) (by omega) (by omega) hv (fun k hk1 hk2 => hnone k (by omega) hk2)

/-- First hit of a descending search: the candidates above `n` fail and `n`
succeeds. -/
theorem findSome_range_desc {β : Type} (f : Nat → Option β) (v : β) (n a : Nat) :
    ∀ (len : Nat), a ≤ n → n < a + len → f n = some v →
      (∀ k, n < k → k < a + len → f k = none) →
      (List.range' a len).reverse.findSome? f = some v := by
  intro len
  induction len with
  | zero => intro h1 h2; omega
  | succ len ih =>
    intro h1 h2 hv hnone
    rw [List.range'_1_concat, List.reverse_append, List.reverse_singleton, List.singleton_append,
      List.findSome?_cons]
    by_cases ha : a + len = n
    · rw [ha, hv]
    · rw [hnone (a + len) (by omega) (by omega)]
      exact ih h1 (by omega) hv (fun k hk1 hk2 => hnone k hk1 (by omega))

theorem length_takeWhile_append_ge (q : Char → Bool) (x t : Str)
    (hx : ∀ c, c ∈ x → q c = true) : x.length ≤ ((x ++ t).takeWhile q).length := by
  induction x with
  | nil => exact Nat.zero_le _
  | cons a x ih =>
    rw [List.cons_append, List.takeWhile_cons, if_pos (hx a (List.mem_cons_self _ _))]
    simp only [List.length_cons]
    have := ih (fun b hb => hx b (List.mem_cons_of_mem _ hb))
    omega

theorem length_takeWhile_append_stop (q : Char → Bool) (x t : Str)
    (hx : ∀ c, c ∈ x → q c = true) (ht : ∀ c, c ∈ t.head? → q c = false) :
    ((x ++ t).takeWhile q).length = x.length := by
  cases t with
  | nil => rw [List.append_nil, takeWhile_all q x hx]
  | cons c r => rw [takeWhile_append_stop q x c r hx (ht c rfl)]

/-- A greedy piece that takes `x` and leaves `y ++ t`, although its class would
also take `y`: every longer candidate fails and the rest matches at `y ++ t`. -/
theorem match_greedy_backoff (p : Piece) (ps : List Piece) (x y t : Str) (caps : List Str)
    (hg : p.greedy = true) (hx : ∀ c, c ∈ x → p.cls c = true)
    (hy : ∀ c, c ∈ y → p.cls c = true) (ht : ∀ c, c ∈ t.head? → p.cls c = false)
    (hmin : p.min ≤ x.length) (hrest : matchPieces ps (y ++ t) = some caps)
    (hfail : ∀ k, 1 ≤ k → k ≤ y.length → matchPieces ps ((y ++ t).drop k) = none) :
    matchPieces (p :: ps) (x ++ (y ++ t)) = some (if p.cap then x :: caps else caps) := by
  have hm : ((x ++ (y ++ t)).takeWhile p.cls).length = x.length + y.length := by
    rw [← List.append_assoc, length_takeWhile_append_stop p.cls (x ++ y) t
      (fun c hc => (List.mem_append.1 hc).elim (hx c) (hy c)) ht, List.length_append]
  rw [matchPieces]
  unfold Piece.candidates
  simp only [hg, if_true, hm]
  refine findSome_range_desc _ _ x.length p.min _ hmin (by omega) ?_ ?_
  · simp only [List.drop_left, List.take_left, hrest, Option.map_some']
  · intro k hk1 hk2
    have hd : (x ++ (y ++ t)).drop k = (y ++ t).drop (k - x.length) := by
      rw [List.drop_append_eq_append_drop]
      rw [List.drop_eq_nil_of_le (by omega), List.nil_append]
    simp only [hd, hfail (k - x.length) (by omega) (by omega), Option.map_none']

/-- A greedy piece that takes the whole run `x` of its class. -/
theorem match_greedy_run (p : Piece) (ps : List Piece) (x t : Str) (caps : List Str)
    (hg : p.greedy = true) (hx : ∀ c, c ∈ x → p.cls c = true)
    (ht : ∀ c, c ∈ t.head? → p.cls c = false)
    (hmin : p.min ≤ x.length) (hrest : matchPieces ps t = some caps) :
    matchPieces (p :: ps) (x ++ t) = some (if p.cap then x :: caps else caps) := by
  have h := match_greedy_backoff p ps x [] t caps hg hx (fun c hc => absurd hc (List.not_mem_nil c))
    ht hmin hrest (fun k hk1 hk2 => by simp only [List.length_nil] at hk2; omega)
  exact h

/-- A lazy piece that takes `x`: every shorter candidate fails and the rest
matches after `x`. -/
theorem match_lazy (p : Piece) (ps : List Piece) (x t : Str) (caps : List Str)
    (hg : p.greedy = false) (hx : ∀ c, c ∈ x → p.cls c = true)
    (hmin : p.min ≤ x.length) (hrest : matchPieces ps t = some caps)
    (hfail : ∀ k, p.min ≤ k → k < x.length → matchPieces ps ((x ++ t).drop k) = none) :
    matchPieces (p :: ps) (x ++ t) = some (if p.cap then x :: caps else caps) := by
  have hm := length_takeWhile_append_ge p.cls x t hx
  rw [matchPieces]
  unfold Piece.candidates
  simp only [hg, Bool.false_eq_true, if_false]
  refine findSome_range_asc _ _ x.length _ p.min hmin (by omega) ?_ ?_
  · simp only [List.drop_left, List.take_left, hrest, Option.map_some']
  · intro k hk1 hk2
    simp only [hfail k hk1 hk2, Option.map_none']

/-- A piece fails when each of its candidates does. -/
theorem match_none_of_all (p : Piece) (ps : List Piece) (s : Str)
    (h : ∀ k, p.min ≤ k → k ≤ (s.takeWhile p.cls).length → matchPieces ps (s.drop k) = none) :
    matchPieces (p :: ps) s = none := by
  rw [matchPieces, List.findSome?_eq_none_iff]
  intro k hk
  obtain ⟨h1, h2⟩ := (mem_candidates p s k).1 hk
  rw [h k h1 h2]
  rfl

/-- A piece that needs a code point of its class fails where none stands. -/
theorem match_none_of_head (p : Piece) (ps : List Piece) (s : Str) (hmin : 1 ≤ p.min)
    (hs : ∀ c, c ∈ s.head? → p.cls c = false) : matchPieces (p :: ps) s = none := by
  apply match_none_of_all
  intro k hk1 hk2
  have : (s.takeWhile p.cls).length = 0 := by
    cases s with
    | nil => rfl
    | cons c r => rw [List.takeWhile_cons, hs c rfl]; rfl
  omega

theorem head_cons_not (q : Char → Bool) (c0 : Char) (t : Str) (h : q c0 = false) :
    ∀ c, c ∈ (c0 :: t).head? → q c = false := by
  intro c hc
  have : c0 = c := by simpa using hc
  rw [← this]; exact h

theorem head_append_not (q : Char → Bool) (x t : Str) (hx : x ≠ [])
    (h : ∀ c, c ∈ x.head? → q c = false) : ∀ c, c ∈ (x ++ t).head? → q c = false := by
  cases x with
  | nil => exact absurd rfl hx
  | cons a x => exact h

theorem head_nil_not (q : Char → Bool) : ∀ c, c ∈ ([] : Str).head? → q c = false := by
  intro c hc; simp at hc

theorem match_greedy_run_cap (p : Piece) (ps : List Piece) (x t : Str) (caps : List Str)
    (hg : p.greedy = true) (hc : p.cap = true) (hx : ∀ c, c ∈ x → p.cls c = true)
    (ht : ∀ c, c ∈ t.head? → p.cls c = false)
    (hmin : p.min ≤ x.length) (hrest : matchPieces ps t = some caps) :
    matchPieces (p :: ps) (x ++ t) = some (x :: caps) := by
  rw [match_greedy_run p ps x t caps hg hx ht hmin hrest, if_pos hc]

theorem match_greedy_run_nocap (p : Piece) (ps : List Piece) (x t : Str) (caps : List Str)
    (hg : p.greedy = true) (hc : p.cap = false) (hx : ∀ c, c ∈ x → p.cls c = true)
    (ht : ∀ c, c ∈ t.head? → p.cls c = false)
    (hmin : p.min ≤ x.length) (hrest : matchPieces ps t = some caps) :
    matchPieces (p :: ps) (x ++ t) = some caps := by
  rw [match_greedy_run p ps x t caps hg hx ht hmin hrest, hc]
  rfl

/-- The piece `\s+` before a field that does not begin with `\s`, after one space. -/
theorem match_one_space (ps : List Piece) (t : Str) (caps : List Str)
    (ht : ∀ c, c ∈ t.head? → reSpace c = false) (hrest : matchPieces ps t = some caps) :
    matchPieces (⟨reSpace, 1, true, false⟩ :: ps) (' ' :: t) = some caps :=
  match_greedy_run_nocap ⟨reSpace, 1, true, false⟩ ps [' '] t caps rfl rfl
    (fun c hc => by rw [List.mem_singleton.1 hc]; decide) ht (Nat.le_refl 1) hrest

theorem reDigitComma_not_reSpace (c : Char) (h : reDigitComma c = true) : reSpace c = false := by
  simp only [reDigitComma, reDigit, Bool.or_eq_true, decide_eq_true_eq] at h
  rcases h with h | h
  · exact isDigit_not_reSpace c h
  · rw [h]; decide

theorem reDigit_reDigitComma (c : Char) (h : isDigit c = true) : reDigitComma c = true := by
  simp only [reDigitComma, reDigit, h, Bool.true_or]

theorem reDigitComma_reDigitSpaceComma (c : Char) (h : reDigitComma c = true) :
    reDigitSpaceComma c = true := by
  simp only [reDigitComma, reDigit, Bool.or_eq_true, decide_eq_true_eq] at h
  simp only [reDigitSpaceComma, reDigit, Bool.or_eq_true, decide_eq_true_eq]
  rcases h with h | h
  · exact Or.inl (Or.inl h)
  · exact Or.inr h

theorem not_reDigitSpaceComma (c : Char) (h1 : isSpace c = false) (h2 : reDigitComma c = false) :
    reDigitSpaceComma c = false := by
  simp only [reDigitComma, reDigit, Bool.or_eq_false_iff, decide_eq_false_iff_not] at h2
  have h3 : reSpace c = false := by
    cases h : reSpace c with
    | false => rfl
    | true => rw [reSpace_isSpace c h] at h1; exact absurd h1 (by decide)
  simp only [reDigitSpaceComma, reDigit, h2.1, h3, Bool.or_false, Bool.false_or,
    decide_eq_false_iff_not]
  exact h2.2

theorem reSpace_not_reDigitComma (c : Char) (h : reSpace c = true) : reDigitComma c = false := by
  cases hd : reDigitComma c with
  | false => rfl
  | true => rw [reDigitComma_not_reSpace c hd] at h; exact absurd h (by decide)

theorem reSpace_not_isDigit (c : Char) (h : reSpace c = true) : isDigit c = false := by
  cases hd : isDigit c with
  | false => rfl
  | true => rw [isDigit_not_reSpace c hd] at h; exact absurd h (by decide)

theorem beginsWith_false_head (q : Char → Bool) (s : Str) (h : beginsWith q s = false) :
    ∀ c, c ∈ s.head? → q c = false := by
  intro c hc
  cases s with
  | nil => simp at hc
  | cons a r =>
    have : a = c := by simpa using hc
    subst this
    exact h

theorem beginsWith_of_takeWhile (q : Char → Bool) (s : Str)
    (h : 1 ≤ (s.takeWhile q).length) : beginsWith q s = true := by
  obtain ⟨c, r, hs, hc⟩ := (takeWhile_length_pos_iff q s).1 h
  rw [hs]; exact hc

theorem drop_length_takeWhile (q : Char → Bool) (s : Str) :
    s.drop (s.takeWhile q).length = s.dropWhile q := by
  conv_lhs => rw [← List.takeWhile_append_dropWhile q s]
  conv_lhs => arg 1; rw [List.takeWhile_append_dropWhile q s]
  exact List.drop_left _ _

/-- A piece that needs a run of its class fails when the next piece, which needs
a code point outside that class, fails after the whole run. -/
theorem match_none_after_run (p q : Piece) (ps : List Piece) (s : Str) (hp : 1 ≤ p.min)
    (hq : 1 ≤ q.min) (hpq : ∀ c, p.cls c = true → q.cls c = false)
    (h : beginsWith p.cls s = true → matchPieces (q :: ps) (s.dropWhile p.cls) = none) :
    matchPieces (p :: q :: ps) s = none := by
  apply match_none_of_all
  intro k hk1 hk2
  by_cases hk : k < (s.takeWhile p.cls).length
  · obtain ⟨e, r, hd, he⟩ := drop_takeWhile_head p.cls s k hk
    rw [hd]
    exact match_none_of_head q ps (e :: r) hq (head_cons_not _ e r (hpq e he))
  · have hke : k = (s.takeWhile p.cls).length := by omega
    rw [hke, drop_length_takeWhile]
    exact h (beginsWith_of_takeWhile p.cls s (by omega))

theorem numberAhead_0_cons (c : Char) (r : Str) :
    numberAhead 0 (c :: r) = (reSpace c && numberAhead 1 r) := rfl

theorem numberAhead_1_cons (c : Char) (r : Str) :
    numberAhead 1 (c :: r) =
      if reSpace c then numberAhead 1 r else isDigit c && numberAhead 2 r := rfl

theorem numberAhead_2_cons (c : Char) (r : Str) :
    numberAhead 2 (c :: r) =
      if isDigit c then numberAhead 2 r else reSpace c && numberAhead 3 r := rfl

theorem numberAhead_3_cons (n : Nat) (c : Char) (r : Str) :
    numberAhead (n + 3) (c :: r) = if reSpace c then numberAhead 3 r else reDigitComma c := rfl

theorem numberAhead_three (n : Nat) (s : Str) :
    numberAhead (n + 3) s = beginsWith reDigitComma (s.dropWhile reSpace) := by
  induction s with
  | nil => rfl
  | cons c r ih =>
    by_cases hc : reSpace c = true
    · rw [numberAhead_3_cons, if_pos hc, List.dropWhile_cons, if_pos hc, ← ih]
      cases r <;> rfl
    · rw [numberAhead_3_cons, if_neg hc, List.dropWhile_cons, if_neg hc]
      rfl

theorem numberAhead_two (s : Str) :
    numberAhead 2 s = (beginsWith reSpace (s.dropWhile isDigit) &&
      numberAhead 3 (s.dropWhile isDigit)) := by
  induction s with
  | nil => rfl
  | cons c r ih =>
    by_cases hc : isDigit c = true
    · rw [numberAhead_2_cons, if_pos hc, List.dropWhile_cons, if_pos hc, ih]
    · rw [numberAhead_2_cons, if_neg hc, List.dropWhile_cons, if_neg hc]
      by_cases hs : reSpace c = true
      · simp only [beginsWith, hs, Bool.true_and]
        rw [numberAhead_3_cons 0, if_pos hs]
      · simp only [beginsWith, hs, Bool.not_eq_true, Bool.false_and]

theorem numberAhead_one (s : Str) :
    numberAhead 1 s = (beginsWith isDigit (s.dropWhile reSpace) &&
      numberAhead 2 (s.dropWhile reSpace)) := by
  induction s with
  | nil => rfl
  | cons c r ih =>
    by_cases hc : reSpace c = true
    · rw [numberAhead_1_cons, if_pos hc, List.dropWhile_cons, if_pos hc, ih]
    · rw [numberAhead_1_cons, if_neg hc, List.dropWhile_cons, if_neg hc]
      by_cases hd : isDigit c = true
      · simp only [beginsWith, hd, Bool.true_and]
        rw [numberAhead_2_cons, if_pos hd]
      · simp only [beginsWith, hd, Bool.not_eq_true, Bool.false_and]

theorem numberAhead_zero (s : Str) :
    numberAhead 0 s = (beginsWith reSpace s && numberAhead 1 s) := by
  cases s with
  | nil => rfl
  | cons c r =>
    by_cases hc : reSpace c = true
    · rw [numberAhead_0_cons, numberAhead_1_cons, if_pos hc, hc]
      simp only [beginsWith, hc, Bool.true_and]
    · rw [numberAhead_0_cons]
      simp only [beginsWith, hc, Bool.not_eq_true, Bool.false_and]

/-- Where the string does not go on like a numeric column, the pieces
`\s+\d+\s+[\d,]+` that follow the name group fail. -/
theorem match_none_no_number (ps : List Piece) (s : Str) (h : numberAhead 0 s = false) :
    matchPieces (⟨reSpace, 1, true, false⟩ :: ⟨reDigit, 1, true, false⟩ ::
      ⟨reSpace, 1, true, false⟩ :: ⟨reDigitComma, 1, true, false⟩ :: ps) s = none := by
  refine match_none_after_run _ _ _ s (Nat.le_refl 1) (Nat.le_refl 1)
    (fun c hc => reSpace_not_isDigit c hc) (fun h0 => ?_)
  rw [numberAhead_zero, h0, Bool.true_and, numberAhead_one] at h
  refine match_none_after_run _ _ _ _ (Nat.le_refl 1) (Nat.le_refl 1)
    (fun c hc => isDigit_not_reSpace c hc) (fun h1 => ?_)
  have h1' : beginsWith isDigit (s.dropWhile reSpace) = true := h1
  rw [h1', Bool.true_and, numberAhead_two] at h
  refine match_none_after_run _ _ _ _ (Nat.le_refl 1) (Nat.le_refl 1)
    (fun c hc => reSpace_not_reDigitComma c hc) (fun h2 => ?_)
  have h2' : beginsWith reSpace ((s.dropWhile reSpace).dropWhile isDigit) = true := h2
  rw [h2', Bool.true_and, numberAhead_three 0] at h
  exact match_none_of_head _ ps _ (Nat.le_refl 1) (beginsWith_false_head _ _ h)

theorem numberAhead_at_column (d : Char) (r : Str) (hd : isDigit d = true) :
    numberAhead 2 (' ' :: d :: r) = true := by
  have h1 : ¬ isDigit ' ' = true := by decide
  have h2 : reSpace ' ' = true := by decide
  have h3 : ¬ reSpace d = true := by rw [isDigit_not_reSpace d hd]; decide
  rw [numberAhead_2_cons, if_neg h1, h2, Bool.true_and, numberAhead_3_cons 0, if_neg h3]
  exact reDigit_reDigitComma d hd

/-- Inside the name the reading does not depend on the columns that follow,
beyond their beginning with a space and a digit. -/
theorem numberAhead_in_name (d : Char) (r : Str) (hd : isDigit d = true) (y : Str) :
    y ≠ [] → (∀ c, c ∈ y.getLast? → reSpace c = false) →
    numberAhead 0 (y ++ ' ' :: d :: r) = numberAhead 0 (y ++ [' ', '0']) ∧
      numberAhead 1 (y ++ ' ' :: d :: r) = numberAhead 1 (y ++ [' ', '0']) ∧
      numberAhead 2 (y ++ ' ' :: d :: r) = numberAhead 2 (y ++ [' ', '0']) ∧
      numberAhead 3 (y ++ ' ' :: d :: r) = numberAhead 3 (y ++ [' ', '0']) := by
  induction y with
  | nil => intro h; exact absurd rfl h
  | cons c y ih =>
    intro _ hlast
    have hE1 := numberAhead_at_column d r hd
    have hE2 : numberAhead 2 [' ', '0'] = true := by decide
    by_cases hy : y = []
    · subst hy
      have hc : reSpace c = false := hlast c rfl
      have hc' : ¬ reSpace c = true := by rw [hc]; decide
      simp only [List.cons_append, List.nil_append]
      refine ⟨?_, ?_, ?_, ?_⟩
      · rw [numberAhead_0_cons c (' ' :: d :: r), numberAhead_0_cons c [' ', '0'], hc,
          Bool.false_and, Bool.false_and]
      · rw [numberAhead_1_cons c (' ' :: d :: r), numberAhead_1_cons c [' ', '0'], if_neg hc',
          if_neg hc', hE1, hE2]
      · rw [numberAhead_2_cons c (' ' :: d :: r), numberAhead_2_cons c [' ', '0']]
        by_cases hcd : isDigit c = true
        · rw [if_pos hcd, if_pos hcd, hE1, hE2]
        · rw [if_neg hcd, if_neg hcd, hc, Bool.false_and, Bool.false_and]
      · rw [numberAhead_3_cons 0 c (' ' :: d :: r), numberAhead_3_cons 0 c [' ', '0'],
          if_neg hc', if_neg hc']
    · have hl : ∀ c1, c1 ∈ y.getLast? → reSpace c1 = false := by
        intro c1 h1
        apply hlast c1
        cases y with
        | nil => exact absurd rfl hy
        | cons b y => rw [List.getLast?_cons_cons]; exact h1
      obtain ⟨i0, i1, i2, i3⟩ := ih hy hl
      simp only [List.cons_append]
      refine ⟨?_, ?_, ?_, ?_⟩
      · rw [numberAhead_0_cons c (y ++ ' ' :: d :: r), numberAhead_0_cons c (y ++ [' ', '0']), i1]
      · rw [numberAhead_1_cons c (y ++ ' ' :: d :: r), numberAhead_1_cons c (y ++ [' ', '0']),
          i1, i2]
      · rw [numberAhead_2_cons c (y ++ ' ' :: d :: r), numberAhead_2_cons c (y ++ [' ', '0']),
          i2, i3]
      · rw [numberAhead_3_cons 0 c (y ++ ' ' :: d :: r),
          numberAhead_3_cons 0 c (y ++ [' ', '0']), i3]

theorem match_greedy_backoff_cap (p : Piece) (ps : List Piece) (x y t : Str) (caps : List Str)
    (hg : p.greedy = true) (hc : p.cap = true) (hx : ∀ c, c ∈ x → p.cls c = true)
    (hy : ∀ c, c ∈ y → p.cls c = true) (ht : ∀ c, c ∈ t.head? → p.cls c = false)
    (hmin : p.min ≤ x.length) (hrest : matchPieces ps (y ++ t) = some caps)
    (hfail : ∀ k, 1 ≤ k → k ≤ y.length → matchPieces ps ((y ++ t).drop k) = none) :
    matchPieces (p :: ps) (x ++ (y ++ t)) = some (x :: caps) := by
  rw [match_greedy_backoff p ps x y t caps hg hx hy ht hmin hrest hfail, if_pos hc]

theorem match_lazy_cap (p : Piece) (ps : List Piece) (x t : Str) (caps : List Str)
    (hg : p.greedy = false) (hc : p.cap = true) (hx : ∀ c, c ∈ x → p.cls c = true)
    (hmin : p.min ≤ x.length) (hrest : matchPieces ps t = some caps)
    (hfail : ∀ k, p.min ≤ k → k < x.length → matchPieces ps ((x ++ t).drop k) = none) :
    matchPieces (p :: ps) (x ++ t) = some (x :: caps) := by
  rw [match_lazy p ps x t caps hg hx hmin hrest hfail, if_pos hc]

theorem length_pos_of_ne_nil (x : Str) (h : x ≠ []) : 1 ≤ x.length := by
  cases x with
  | nil => exact absurd rfl h
  | cons a x => simp

theorem head_mem_not (q : Char → Bool) (x : Str) (h : ∀ c, c ∈ x → q c = false) :
    ∀ c, c ∈ x.head? → q c = false := by
  intro c hc
  cases x with
  | nil => simp at hc
  | cons a x =>
    have : a = c := by simpa using hc
    exact h c (this ▸ List.mem_cons_self _ _)

theorem drop_append_head (x t : Str) (j : Nat) (hj : j < x.length) :
    ∃ e r, (x ++ t).drop j = e :: r ∧ e ∈ x := by
  induction x generalizing j with
  | nil => simp at hj
  | cons a x ih =>
    cases j with
    | zero => exact ⟨a, x ++ t, rfl, List.mem_cons_self _ _⟩
    | succ j =>
      obtain ⟨e, r, h1, h2⟩ := ih j (by simpa using hj)
      exact ⟨e, r, h1, List.mem_cons_of_mem _ h2⟩

theorem getLast_drop (z : Str) (k : Nat) (hk : k < z.length) :
    (z.drop k).getLast? = z.getLast? := by
  induction z generalizing k with
  | nil => simp at hk
  | cons a z ih =>
    cases k with
    | zero => rfl
    | succ k =>
      have hk2 : k < z.length := by simpa using hk
      rw [List.drop_succ_cons, ih k hk2]
      cases z with
      | nil => simp at hk2
      | cons b z => rw [List.getLast?_cons_cons]

theorem not_reSpace_of_not_class (c : Char) (h : reDigitSpaceComma c = false) :
    reSpace c = false := by
  simp only [reDigitSpaceComma, Bool.or_eq_false_iff] at h
  exact h.1.2

/-- The separator a non-empty manufacturer tail is joined with. -/
theorem match_after_price (total mT : Str) (ht : total ≠ [])
    (htd : ∀ c, c ∈ total → reDigitComma c = true)
    (hm1 : ∀ c, c ∈ mT.head? → reDigitSpaceComma c = false)
    (hm2 : ∀ c, c ∈ mT → reAny c = true) :
    matchPieces [⟨reSpace, 1, true, false⟩, ⟨reDigitSpaceComma, 1, true, false⟩,
        ⟨reSpace, 0, true, false⟩, ⟨reAny, 0, true, true⟩]
      ((' ' :: (total ++ if mT = [] then [] else [' '])) ++ mT) = some [mT] := by
  have hsp : ∀ c, c ∈ (if mT = [] then [] else [' '] : Str) → reDigitSpaceComma c = true := by
    intro c hc
    by_cases h : mT = []
    · rw [if_pos h] at hc; exact absurd hc (List.not_mem_nil c)
    · rw [if_neg h] at hc; rw [List.mem_singleton.1 hc]; decide
  refine match_one_space _ _ _
    (head_append_not _ _ _ (by simp [ht])
      (head_append_not _ _ _ ht
        (head_mem_not _ _ (fun c hc => reDigitComma_not_reSpace c (htd c hc))))) ?_
  refine match_greedy_run_nocap _ _ (total ++ if mT = [] then [] else [' ']) mT _ rfl rfl
    (fun c hc => (List.mem_append.1 hc).elim
      (fun h => reDigitComma_reDigitSpaceComma c (htd c h)) (hsp c))
    hm1 (by rw [List.length_append]; have := length_pos_of_ne_nil total ht; show 1 ≤ _; omega) ?_
  refine match_greedy_run_nocap _ _ [] mT _ rfl rfl
    (fun c hc => absurd hc (List.not_mem_nil c))
    (fun c hc => not_reSpace_of_not_class c (hm1 c hc)) (Nat.le_refl 0) ?_
  have h := match_greedy_run_cap ⟨reAny, 0, true, true⟩ [] mT [] [] rfl rfl hm2
    (head_nil_not _) (Nat.zero_le _) rfl
  rw [List.append_nil] at h
  exact h

/-- After the price, a longer candidate of the price group leaves the pieces
`\s+[\d\s,]+` nothing to start on. -/
theorem match_none_after_price (ps : List Piece) (total mT : Str)
    (htd : ∀ c, c ∈ total → reDigitComma c = true)
    (hm1 : ∀ c, c ∈ mT.head? → reDigitSpaceComma c = false) :
    ∀ k, 1 ≤ k → k ≤ (' ' :: (total ++ if mT = [] then [] else [' '])).length →
      matchPieces (⟨reSpace, 1, true, false⟩ :: ⟨reDigitSpaceComma, 1, true, false⟩ :: ps)
        (((' ' :: (total ++ if mT = [] then [] else [' '])) ++ mT).drop k) = none := by
  intro k hk1 hk2
  cases k with
  | zero => omega
  | succ j =>
    rw [List.cons_append, List.drop_succ_cons]
    by_cases hj : j < total.length
    · rw [List.append_assoc]
      obtain ⟨e, r, hd, he⟩ := drop_append_head total ((if mT = [] then [] else [' ']) ++ mT) j hj
      rw [hd]
      exact match_none_of_head _ _ _ (Nat.le_refl 1)
        (head_cons_not _ e r (reDigitComma_not_reSpace e (htd e he)))
    · rw [List.append_assoc, List.drop_append_eq_append_drop,
        List.drop_eq_nil_of_le (by omega), List.nil_append]
      by_cases hm : mT = []
      · subst hm
        simp only [if_true, List.append_nil, List.drop_nil]
        exact match_none_of_head _ _ _ (Nat.le_refl 1) (head_nil_not _)
      · simp only [hm, if_false, List.length_cons, List.length_append, List.length_nil]
          at hk2 ⊢
        have hj2 : j - total.length = 0 ∨ j - total.length = 1 := by omega
        rcases hj2 with h0 | h1
        · rw [h0]
          apply match_none_of_all
          intro k2 hk21 hk22
          have hlen : (([' '] ++ mT).takeWhile reSpace).length = 1 :=
            length_takeWhile_append_stop reSpace [' '] mT
              (fun c hc => by rw [List.mem_singleton.1 hc]; decide)
              (fun c hc => not_reSpace_of_not_class c (hm1 c hc))
          have hk2' : k2 = 1 := by
            simp only [List.drop_zero] at hk22
            rw [hlen] at hk22
            simp only at hk21
            omega
          subst hk2'
          exact match_none_of_head _ _ _ (Nat.le_refl 1) hm1
        · rw [h1]
          exact match_none_of_head _ _ _ (Nat.le_refl 1)
            (fun c hc => not_reSpace_of_not_class c (hm1 c hc))

theorem dropWhile_eq_self_head (q : Char → Bool) (s : Str) (h : s.dropWhile q = s) :
    ∀ c, c ∈ s.head? → q c = false := by
  intro c hc
  cases s with
  | nil => simp at hc
  | cons a r =>
    have hac : a = c := by simpa using hc
    subst hac
    cases hq : q a with
    | false => rfl
    | true =>
      rw [List.dropWhile_cons, if_pos hq] at h
      have h1 := (List.dropWhile_suffix q (l := r)).length_le
      rw [h, List.length_cons] at h1
      omega

theorem dropWhile_of_head (q : Char → Bool) (s : Str) (h : ∀ c, c ∈ s.head? → q c = false) :
    s.dropWhile q = s := by
  cases s with
  | nil => rfl
  | cons a r => rw [List.dropWhile_cons, h a rfl]; rfl

/-- A string that `TrimSpace` leaves as it is neither begins nor ends with white
space. -/
theorem head_last_of_trimSpace_eq (s : Str) (h : trimSpace s = s) :
    (∀ c, c ∈ s.head? → isSpace c = false) ∧ (∀ c, c ∈ s.getLast? → isSpace c = false) := by
  unfold trimSpace at h
  have h1 : ((s.dropWhile isSpace).reverse.dropWhile isSpace).length ≤
      (s.dropWhile isSpace).length := by
    have := (List.dropWhile_suffix isSpace (l := (s.dropWhile isSpace).reverse)).length_le
    rwa [List.length_reverse] at this
  have h2 := (List.dropWhile_suffix isSpace (l := s)).length_le
  have h3 : ((s.dropWhile isSpace).reverse.dropWhile isSpace).length = s.length := by
    have := congrArg List.length h
    rwa [List.length_reverse] at this
  have hd : s.dropWhile isSpace = s :=
    List.IsSuffix.eq_of_length (List.dropWhile_suffix isSpace) (by omega)
  rw [hd] at h
  have hr : s.reverse.dropWhile isSpace = s.reverse := by
    have := congrArg List.reverse h
    rwa [List.reverse_reverse] at this
  refine ⟨dropWhile_eq_self_head isSpace s hd, ?_⟩
  intro c hc
  rw [← List.head?_reverse] at hc
  exact dropWhile_eq_self_head isSpace s.reverse hr c hc

/-- `TrimSpace` removes the white space that follows a string which neither
begins nor ends with white space. -/
theorem trimSpace_append_spaces (z w : Str) (hh : ∀ c, c ∈ z.head? → isSpace c = false)
    (hl : ∀ c, c ∈ z.getLast? → isSpace c = false) (hw : ∀ c, c ∈ w → isSpace c = true) :
    trimSpace (z ++ w) = z := by
  unfold trimSpace
  cases z with
  | nil =>
    rw [List.nil_append, List.dropWhile_eq_nil_iff.2 hw]
    rfl
  | cons a z =>
    have h1 : (a :: z ++ w).dropWhile isSpace = a :: z ++ w := by
      rw [List.cons_append, List.dropWhile_cons, hh a rfl]; rfl
    rw [h1, List.reverse_append,
      List.dropWhile_append_of_pos (fun c hc => hw c (List.mem_reverse.1 hc)),
      dropWhile_of_head isSpace (a :: z).reverse
        (fun c hc => hl c (by rw [← List.head?_reverse]; exact hc)),
      List.reverse_reverse]

/-- The trimmed form of a string that does not begin with white space: what it
is followed by, how it begins and how it ends. -/
theorem trimSpace_decomp (m : Str) (hm : beginsWith isSpace m = false) :
    ∃ w, m = trimSpace m ++ w ∧ (∀ c, c ∈ w → isSpace c = true) ∧
      (trimSpace m).head? = m.head? ∧
      (∀ c, c ∈ (trimSpace m).getLast? → isSpace c = false) ∧
      (trimSpace m = [] → m = []) := by
  have hd : m.dropWhile isSpace = m := by
    cases m with
    | nil => rfl
    | cons a r => rw [List.dropWhile_cons]; simp only [beginsWith] at hm; rw [hm]; rfl
  have ht : trimSpace m = (m.reverse.dropWhile isSpace).reverse := by
    unfold trimSpace; rw [hd]
  obtain ⟨w, hw1, hw2⟩ := trimRight_decomp m
  rw [← ht] at hw1
  have hlast : ∀ c, c ∈ (trimSpace m).getLast? → isSpace c = false := by
    intro c hc
    rw [ht, List.getLast?_reverse] at hc
    have := List.head?_dropWhile_not isSpace m.reverse
    rw [Option.mem_def.1 hc] at this
    exact this
  have hnil : trimSpace m = [] → m = [] := by
    intro he
    rw [he, List.nil_append] at hw1
    cases m with
    | nil => rfl
    | cons a r =>
      simp only [beginsWith] at hm
      have := hw2 a (by rw [← hw1]; exact List.mem_cons_self _ _)
      rw [hm] at this
      exact absurd this (by decide)
  refine ⟨w, hw1, hw2, ?_, hlast, hnil⟩
  by_cases he : trimSpace m = []
  · rw [he, hnil he]
  · conv_rhs => rw [hw1]
    rw [List.head?_append_of_ne_nil _ he]

theorem atoi_digits (N : Str) (hN : N ≠ []) (hd : N.all isDigit = true) :
    atoi N = ((min (decimalValue N) (2 ^ 63 - 1) : Nat) : Int) := by
  have hdig : atoiDigits N (2 ^ 63 - 1) = min (decimalValue N) (2 ^ 63 - 1) := by
    unfold atoiDigits
    rw [if_pos ⟨hN, hd⟩]
  unfold atoi
  split
  · rename_i r
    rw [List.all_cons] at hd
    have : isDigit '-' = false := by decide
    rw [this, Bool.false_and] at hd
    exact absurd hd (by decide)
  · rename_i r
    rw [List.all_cons] at hd
    have : isDigit '+' = false := by decide
    rw [this, Bool.false_and] at hd
    exact absurd hd (by decide)
  · rw [hdig]

theorem not_reSpace_of_not_isSpace (c : Char) (h : isSpace c = false) : reSpace c = false := by
  cases hs : reSpace c with
  | false => rfl
  | true => rw [reSpace_isSpace c hs] at h; exact absurd h (by decide)

theorem reDigitComma_not_isSpace (c : Char) (h : reDigitComma c = true) : isSpace c = false := by
  simp only [reDigitComma, reDigit, Bool.or_eq_true, decide_eq_true_eq] at h
  rcases h with h | h
  · exact isDigit_not_isSpace c h
  · rw [h]; decide

/-- The full pattern on a row of the full shape, already trimmed: the captures
are the row number, the name, the count, the price and the manufacturer. -/
theorem match_full_shape (N name a b count price total mT : Str)
    (hN : N ≠ []) (hNd : ∀ c, c ∈ N → isDigit c = true)
    (hname : name ≠ []) (hnh : ∀ c, c ∈ name.head? → reSpace c = false)
    (hnl : ∀ c, c ∈ name.getLast? → reSpace c = false)
    (hnn : ∀ c, c ∈ name → reAny c = true)
    (hsafe : ∀ k, 1 ≤ k → k < name.length →
      numberAhead 0 (name.drop k ++ [' ', '0']) = false)
    (ha : a ≠ []) (had : ∀ c, c ∈ a → isDigit c = true)
    (hb : b ≠ []) (hbd : ∀ c, c ∈ b → reDigitComma c = true)
    (hc : count ≠ []) (hcd : ∀ c, c ∈ count → reDigitComma c = true)
    (hp : price ≠ []) (hpd : ∀ c, c ∈ price → reDigitSpaceComma c = true)
    (hph : ∀ c, c ∈ price.head? → reSpace c = false)
    (ht : total ≠ []) (htd : ∀ c, c ∈ total → reDigitComma c = true)
    (hm1 : ∀ c, c ∈ mT.head? → reDigitSpaceComma c = false)
    (hm2 : ∀ c, c ∈ mT → reAny c = true) :
    matchPieces pattern1
        (N ++ ' ' :: (name ++ ' ' :: (a ++ ' ' :: (b ++ ' ' :: (count ++ ' ' ::
          (price ++ ((' ' :: (total ++ if mT = [] then [] else [' '])) ++ mT))))))) =
      some [N, name, count, price, mT] := by
  unfold pattern1
  refine match_greedy_run_cap _ _ N _ _ rfl rfl hNd (head_cons_not _ ' ' _ (by decide))
    (length_pos_of_ne_nil N hN) ?_
  refine match_one_space _ _ _ (head_append_not _ _ _ hname hnh) ?_
  refine match_lazy_cap _ _ name _ _ rfl rfl hnn (length_pos_of_ne_nil name hname) ?_ ?_
  · refine match_one_space _ _ _ (head_append_not _ _ _ ha
      (head_mem_not _ _ (fun c hc => isDigit_not_reSpace c (had c hc)))) ?_
    refine match_greedy_run_nocap _ _ a _ _ rfl rfl had (head_cons_not _ ' ' _ (by decide))
      (length_pos_of_ne_nil a ha) ?_
    refine match_one_space _ _ _ (head_append_not _ _ _ hb
      (head_mem_not _ _ (fun c hc => reDigitComma_not_reSpace c (hbd c hc)))) ?_
    refine match_greedy_run_nocap _ _ b _ _ rfl rfl hbd (head_cons_not _ ' ' _ (by decide))
      (length_pos_of_ne_nil b hb) ?_
    refine match_one_space _ _ _ (head_append_not _ _ _ hc
      (head_mem_not _ _ (fun c hc => reDigitComma_not_reSpace c (hcd c hc)))) ?_
    refine match_greedy_run_cap _ _ count _ _ rfl rfl hcd (head_cons_not _ ' ' _ (by decide))
      (length_pos_of_ne_nil count hc) ?_
    refine match_one_space _ _ _ (head_append_not _ _ _ hp hph) ?_
    refine match_greedy_backoff_cap _ _ price
      (' ' :: (total ++ if mT = [] then [] else [' '])) mT _ rfl rfl hpd ?_ hm1
      (length_pos_of_ne_nil price hp) (match_after_price total mT ht htd hm1 hm2)
      (match_none_after_price _ total mT htd hm1)
    intro c hc
    rcases List.mem_cons.1 hc with h | h
    · rw [h]; decide
    · rcases List.mem_append.1 h with h | h
      · exact reDigitComma_reDigitSpaceComma c (htd c h)
      · by_cases hm : mT = []
        · rw [if_pos hm] at h; exact absurd h (List.not_mem_nil c)
        · rw [if_neg hm] at h; rw [List.mem_singleton.1 h]; decide
  · intro k hk1 hk2
    rw [List.drop_append_of_le_length (Nat.le_of_lt hk2)]
    have hne : name.drop k ≠ [] := by
      intro he
      have := congrArg List.length he
      rw [List.length_drop, List.length_nil] at this
      omega
    have hl : ∀ c, c ∈ (name.drop k).getLast? → reSpace c = false := by
      rw [getLast_drop name k hk2]; exact hnl
    cases a with
    | nil => exact absurd rfl ha
    | cons d a1 =>
      have hd : isDigit d = true := had d (List.mem_cons_self _ _)
      rw [List.cons_append]
      apply match_none_no_number
      rw [(numberAhead_in_name d _ hd (name.drop k) hne hl).1]
      exact hsafe k hk1 hk2

/-- C2, as amended. For a row of the full shape `N name a b count price total
manufacturer`, its fields joined by single spaces, where `N` is a digit string of
value at most `2^63 - 1`; `name` is non-empty, is left as it is by `TrimSpace`,
has no line feed, and every digit-only token in it after the first token is
followed, in the name, by a token that begins with neither a digit nor a comma
(`nameSplitSafe`); `a` is a digit string; `b`, `count` and `total` are non-empty strings of digits and commas;
`price` is a non-empty string of digits, commas and `\s` code points that does
not begin with `\s`; and `manufacturer` does not begin with white space, a digit
or a comma and has no line feed in its trimmed form: `parseRowData` returns ok,
with `num = N`, the name, `count = parseNumber(count)`,
`price = parseNumber(price)` and the trimmed manufacturer. -/
theorem C2_full_shape_parsed (N name a b count price total mfr : Str)
    (hN : N ≠ []) (hNd : N.all isDigit = true) (hNv : decimalValue N ≤ 2 ^ 63 - 1)
    (hname : name ≠ []) (hnt : trimSpace name = name) (hnn : '\n' ∉ name)
    (hns : nameSplitSafe name = true)
    (ha : a ≠ []) (had : a.all isDigit = true)
    (hb : b ≠ []) (hbd : b.all reDigitComma = true)
    (hc : count ≠ []) (hcd : count.all reDigitComma = true)
    (hp : price ≠ []) (hpd : price.all reDigitSpaceComma = true)
    (hph : beginsWith reSpace price = false)
    (ht : total ≠ []) (htd : total.all reDigitComma = true)
    (hm : beginsWith isSpace mfr = false) (hmd : beginsWith reDigitComma mfr = false)
    (hmn : '\n' ∉ trimSpace mfr) :
    parseRowData (joinSpace [N, name, a, b, count, price, total, mfr]) =
      ⟨(decimalValue N : Int), name, parseNumber count, parseNumber price, trimSpace mfr,
        true⟩ := by
  obtain ⟨w, hw1, hw2, hhead, hlast, hnil⟩ := trimSpace_decomp mfr hm
  obtain ⟨hnh, hnl⟩ := head_last_of_trimSpace_eq name hnt
  have hNd' : ∀ c, c ∈ N → isDigit c = true := List.all_eq_true.1 hNd
  have htd' : ∀ c, c ∈ total → reDigitComma c = true := List.all_eq_true.1 htd
  have hany : ∀ (s : Str), '\n' ∉ s → ∀ c, c ∈ s → reAny c = true := by
    intro s hs c hc
    simp only [reAny, bne_iff_ne, ne_eq]
    intro h
    exact hs (h ▸ hc)
  have hm1 : ∀ c, c ∈ (trimSpace mfr).head? → reDigitSpaceComma c = false := by
    intro c hc
    rw [hhead] at hc
    cases mfr with
    | nil => simp at hc
    | cons m0 r =>
      have : m0 = c := by simpa using hc
      subst this
      exact not_reDigitSpaceComma m0 hm hmd
  have hmatch := match_full_shape N name a b count price total (trimSpace mfr) hN hNd' hname
    (fun c hc => not_reSpace_of_not_isSpace c (hnh c hc))
    (fun c hc => not_reSpace_of_not_isSpace c (hnl c hc))
    (hany name hnn)
    (fun k hk1 hk2 => by
      have h := List.all_eq_true.1 hns k (List.mem_range.2 hk2)
      have hk0 : (k == 0) = false := by
        cases k with
        | zero => omega
        | succ k => rfl
      rw [hk0, Bool.false_or] at h
      simpa using h)
    ha (List.all_eq_true.1 had) hb (List.all_eq_true.1 hbd) hc
    (List.all_eq_true.1 hcd) hp (List.all_eq_true.1 hpd)
    (fun c hc => by
      cases price with
      | nil => simp at hc
      | cons p0 r =>
        have : p0 = c := by simpa using hc
        subst this
        exact hph)
    ht htd' hm1 (hany _ hmn)
  have hrow : joinSpace [N, name, a, b, count, price, total, mfr] =
      (N ++ ' ' :: (name ++ ' ' :: (a ++ ' ' :: (b ++ ' ' :: (count ++ ' ' ::
          (price ++ ((' ' :: (total ++ if trimSpace mfr = [] then [] else [' '])) ++
            trimSpace mfr))))))) ++
        (if trimSpace mfr = [] then ' ' :: w else w) := by
    by_cases he : trimSpace mfr = []
    · have hmfr := hnil he
      have hwnil : w = [] := by
        rw [he, hmfr, List.nil_append] at hw1
        exact hw1.symm
      subst hmfr
      have hte : trimSpace ([] : Str) = [] := rfl
      simp only [joinSpace, hte, hwnil, if_true, List.append_nil, List.append_assoc,
        List.cons_append, List.nil_append]
    · conv_lhs => rw [hw1]
      simp only [joinSpace, he, if_false, List.append_assoc, List.cons_append, List.nil_append]
  have hsp : ∀ c, c ∈ (if trimSpace mfr = [] then ' ' :: w else w) → isSpace c = true := by
    intro c hc
    by_cases he : trimSpace mfr = []
    · rw [if_pos he] at hc
      rcases List.mem_cons.1 hc with h | h
      · rw [h]; decide
      · exact hw2 c h
    · rw [if_neg he] at hc; exact hw2 c hc
  have hNne : ∀ r, N ++ r ≠ [] := by
    intro r h
    exact hN (List.append_eq_nil.1 h).1
  have htrim : trimSpace (joinSpace [N, name, a, b, count, price, total, mfr]) =
      N ++ ' ' :: (name ++ ' ' :: (a ++ ' ' :: (b ++ ' ' :: (count ++ ' ' ::
          (price ++ ((' ' :: (total ++ if trimSpace mfr = [] then [] else [' '])) ++
            trimSpace mfr)))))) := by
    rw [hrow]
    refine trimSpace_append_spaces _ _ ?_ ?_ hsp
    · exact head_append_not _ _ _ hN
        (head_mem_not _ _ (fun c hc => isDigit_not_isSpace c (hNd' c hc)))
    · have hre : N ++ ' ' :: (name ++ ' ' :: (a ++ ' ' :: (b ++ ' ' :: (count ++ ' ' ::
          (price ++ ((' ' :: (total ++ if trimSpace mfr = [] then [] else [' '])) ++
            trimSpace mfr)))))) =
          (N ++ ' ' :: (name ++ ' ' :: (a ++ ' ' :: (b ++ ' ' :: (count ++ ' ' ::
            (price ++ [' '])))))) ++
            (total ++ ((if trimSpace mfr = [] then [] else [' ']) ++ trimSpace mfr)) := by
        simp only [List.append_assoc, List.cons_append, List.nil_append]
      rw [hre, List.getLast?_append_of_ne_nil _ (by
        intro h; exact ht (List.append_eq_nil.1 h).1)]
      by_cases he : trimSpace mfr = []
      · rw [he, if_pos rfl, List.append_nil, List.append_nil]
        intro c hc
        exact reDigitComma_not_isSpace c (htd' c (List.mem_of_mem_getLast? hc))
      · rw [if_neg he, ← List.append_assoc, List.getLast?_append_of_ne_nil _ he]
        exact hlast
  have hne : N ++ ' ' :: (name ++ ' ' :: (a ++ ' ' :: (b ++ ' ' :: (count ++ ' ' ::
          (price ++ ((' ' :: (total ++ if trimSpace mfr = [] then [] else [' '])) ++
            trimSpace mfr)))))) ≠ [] := hNne _
  have htm : trimSpace (trimSpace mfr) = trimSpace mfr := by
    have := trimSpace_append_spaces (trimSpace mfr) []
      (fun c hc => by
        rw [hhead] at hc
        cases mfr with
        | nil => simp at hc
        | cons m0 r =>
          have : m0 = c := by simpa using hc
          subst this
          exact hm)
      hlast (fun c hc => absurd hc (List.not_mem_nil c))
    rwa [List.append_nil] at this
  unfold parseRowData
  simp only [htrim, if_neg hne, hmatch, Parsed.ofMatch, hnt, htm]
  rw [atoi_digits N hN hNd, Nat.min_eq_left hNv]

theorem bitLenAux_spec : ∀ (fuel n : Nat), n ≤ fuel →
    n < 2 ^ bitLenAux fuel n ∧ (0 < n → 2 ^ (bitLenAux fuel n - 1) ≤ n) := by
  intro fuel
  induction fuel with
  | zero =>
    intro n hn
    have : n = 0 := by omega
    subst this
    exact ⟨by simp [bitLenAux], fun h => absurd h (by decide)⟩
  | succ fuel ih =>
    intro n hn
    by_cases h0 : n = 0
    · subst h0
      exact ⟨by simp [bitLenAux], fun h => absurd h (by decide)⟩
    · have hrec := ih (n / 2) (by omega)
      rw [bitLenAux, if_neg h0]
      obtain ⟨h1, h2⟩ := hrec
      have e1 : 2 ^ (1 + bitLenAux fuel (n / 2)) = 2 * 2 ^ bitLenAux fuel (n / 2) := by
        rw [Nat.add_comm, Nat.pow_succ, Nat.mul_comm]
      refine ⟨by rw [e1]; omega, fun _ => ?_⟩
      have e2 : 1 + bitLenAux fuel (n / 2) - 1 = bitLenAux fuel (n / 2) := by omega
      rw [e2]
      by_cases hh : n / 2 = 0
      · have hb : bitLenAux fuel (n / 2) = 0 := by
          rw [hh]; cases fuel <;> simp [bitLenAux]
        rw [hb]; simp; omega
      · have h3 := h2 (by omega)
        have e3 : bitLenAux fuel (n / 2) = (bitLenAux fuel (n / 2) - 1) + 1 := by
          have : 0 < bitLenAux fuel (n / 2) := by
            by_contra hc
            have hz : bitLenAux fuel (n / 2) = 0 := by omega
            rw [hz] at h1
            simp at h1
            exact hh h1
          omega
        rw [e3, Nat.pow_succ]
        omega

theorem bitLen_spec (n : Nat) (hn : 0 < n) : 2 ^ (bitLen n - 1) ≤ n ∧ n < 2 ^ bitLen n :=
  ⟨(bitLenAux_spec n n (Nat.le_refl n)).2 hn, (bitLenAux_spec n n (Nat.le_refl n)).1⟩

/-- The lower bound that `floorLog2` returns: `2^k ≤ n/d` when `k ≥ 0`. -/
theorem floorLog2_le (n d : Nat) (hn : 0 < n) (hd : 0 < d) (hk : 0 ≤ floorLog2 n d) :
    d * 2 ^ (floorLog2 n d).toNat ≤ n := by
  obtain ⟨hn1, hn2⟩ := bitLen_spec n hn
  obtain ⟨hd1, hd2⟩ := bitLen_spec d hd
  unfold floorLog2 at hk ⊢
  simp only at hk ⊢
  by_cases h0 : (bitLen n : Int) - (bitLen d : Int) ≥ 0
  · rw [if_pos h0] at hk ⊢
    by_cases h1 : d * 2 ^ ((bitLen n : Int) - (bitLen d : Int)).toNat ≤ n
    · rw [if_pos h1]; exact h1
    · rw [if_neg h1] at hk ⊢
      have e1 : ((bitLen n : Int) - (bitLen d : Int) - 1).toNat = bitLen n - bitLen d - 1 := by
        omega
      rw [e1]
      have hlt : bitLen d ≤ bitLen n - 1 := by omega
      calc d * 2 ^ (bitLen n - bitLen d - 1)
          ≤ 2 ^ bitLen d * 2 ^ (bitLen n - bitLen d - 1) :=
            Nat.mul_le_mul_right _ (Nat.le_of_lt hd2)
        _ = 2 ^ (bitLen n - 1) := by
            rw [← Nat.pow_add]
            congr 1
            omega
        _ ≤ n := hn1
  · rw [if_neg h0] at hk
    exfalso
    split at hk <;> omega

theorem roundHalfEven_bounds (a d : Nat) :
    a / d ≤ roundHalfEven a d ∧ roundHalfEven a d ≤ a / d + 1 ∧
      (roundHalfEven a d = a / d + 1 → d ≤ 2 * (a % d)) := by
  unfold roundHalfEven
  simp only
  by_cases h1 : 2 * (a % d) < d
  · rw [if_pos h1]
    exact ⟨Nat.le_refl _, Nat.le_succ _, fun h => by omega⟩
  · rw [if_neg h1]
    by_cases h2 : d < 2 * (a % d)
    · rw [if_pos h2]
      exact ⟨Nat.le_succ _, Nat.le_refl _, fun _ => by omega⟩
    · rw [if_neg h2]
      by_cases h3 : a / d % 2 = 0
      · rw [if_pos h3]
        exact ⟨Nat.le_refl _, Nat.le_succ _, fun h => by omega⟩
      · rw [if_neg h3]
        exact ⟨Nat.le_succ _, Nat.le_refl _, fun _ => by omega⟩

/-- Rounding `n/d` at `s` binary places and truncating gives the integer part of
`n/d`, when `d < 2^(s+1)`. -/
theorem roundHalfEven_trunc (n d i s : Nat) (hd : 0 < d) (h1 : i * d ≤ n)
    (h2 : n < (i + 1) * d) (hs : d < 2 ^ (s + 1)) :
    roundHalfEven (n * 2 ^ s) d / 2 ^ s = i := by
  obtain ⟨hb1, hb2, hb3⟩ := roundHalfEven_bounds (n * 2 ^ s) d
  have hp : 0 < 2 ^ s := Nat.pow_pos (by decide)
  have hdm := Nat.div_add_mod (n * 2 ^ s) d
  have hmod := Nat.mod_lt (n * 2 ^ s) hd
  have hlow : i * 2 ^ s ≤ n * 2 ^ s / d := by
    rw [Nat.le_div_iff_mul_le hd]
    calc i * 2 ^ s * d = i * d * 2 ^ s := by ring
      _ ≤ n * 2 ^ s := Nat.mul_le_mul_right _ h1
  have hA : n * 2 ^ s + 2 ^ s ≤ d * ((i + 1) * 2 ^ s) := by
    calc n * 2 ^ s + 2 ^ s = (n + 1) * 2 ^ s := by ring
      _ ≤ (i + 1) * d * 2 ^ s := Nat.mul_le_mul_right _ h2
      _ = d * ((i + 1) * 2 ^ s) := by ring
  have hup0 : n * 2 ^ s / d < (i + 1) * 2 ^ s := by
    rw [Nat.div_lt_iff_lt_mul hd]
    calc n * 2 ^ s < n * 2 ^ s + 2 ^ s := by omega
      _ ≤ d * ((i + 1) * 2 ^ s) := hA
      _ = (i + 1) * 2 ^ s * d := by ring
  have hup : roundHalfEven (n * 2 ^ s) d < (i + 1) * 2 ^ s := by
    by_contra hc
    have hq : roundHalfEven (n * 2 ^ s) d = n * 2 ^ s / d + 1 := by omega
    have hr := hb3 hq
    have hT : (i + 1) * 2 ^ s ≤ n * 2 ^ s / d + 1 := by omega
    have h4 : d * ((i + 1) * 2 ^ s) ≤ d * (n * 2 ^ s / d) + d := by
      calc d * ((i + 1) * 2 ^ s) ≤ d * (n * 2 ^ s / d + 1) := Nat.mul_le_mul_left _ hT
        _ = d * (n * 2 ^ s / d) + d := by ring
    have e : 2 ^ (s + 1) = 2 * 2 ^ s := by rw [Nat.pow_succ, Nat.mul_comm]
    rw [e] at hs
    omega
  apply Nat.div_eq_of_lt_le
  · rw [Nat.mul_comm] at hlow ⊢
    calc 2 ^ s * i = i * 2 ^ s := Nat.mul_comm _ _
      _ ≤ n * 2 ^ s / d := by rw [Nat.mul_comm] at hlow; exact hlow
      _ ≤ roundHalfEven (n * 2 ^ s) d := hb1
  · calc roundHalfEven (n * 2 ^ s) d < (i + 1) * 2 ^ s := hup
      _ = (i + 1) * 2 ^ s := rfl

set_option exponentiation.threshold 1100 in
/-- The value `ParseFloat` rounds `n/d` to, truncated by `int(f)`, is the integer
part `i` of `n/d` whenever `(i + 1) * d ≤ 2^53`. -/
theorem roundF64_toInt (n d i : Nat) (hd : 0 < d) (h1 : i * d ≤ n) (h2 : n < (i + 1) * d)
    (hb : (i + 1) * d ≤ 2 ^ 53) :
    ∃ f, roundF64 false n d = some f ∧ f.toInt = (i : Int) := by
  have hi : i < 2 ^ 53 := by
    have : i + 1 ≤ (i + 1) * d := Nat.le_mul_of_pos_right _ hd
    omega
  have hd53 : d ≤ 2 ^ 53 := by
    have : d ≤ (i + 1) * d := Nat.le_mul_of_pos_left _ (by omega)
    omega
  have hrange : ∀ a : Nat, a = i →
      (F64.fin false (a * 1) 0).toInt = (i : Int) ∧ True := by
    intro a ha
    subst ha
    refine ⟨?_, trivial⟩
    simp only [F64.toInt, ge_iff_le, le_refl, if_true, Int.toNat_zero, pow_zero, mul_one,
      Bool.false_eq_true, if_false, minInt, maxInt]
    rw [if_pos]
    constructor <;> omega
  by_cases hn : n = 0
  · subst hn
    have hi0 : i = 0 := by
      rcases Nat.eq_zero_or_pos i with h | h
      · exact h
      · have : 1 * d ≤ i * d := Nat.mul_le_mul_right _ h
        omega
    subst hi0
    exact ⟨F64.fin false 0 0, by simp [roundF64], by decide⟩
  · have hn0 : 0 < n := Nat.pos_of_ne_zero hn
    have hk52 : floorLog2 n d ≤ 52 := by
      by_contra hc
      have hk0 : 0 ≤ floorLog2 n d := by omega
      have hle := floorLog2_le n d hn0 hd hk0
      have hp : 2 ^ 53 ≤ 2 ^ (floorLog2 n d).toNat :=
        Nat.pow_le_pow_right (by decide) (by omega)
      have : d * 2 ^ 53 ≤ d * 2 ^ (floorLog2 n d).toNat := Nat.mul_le_mul_left _ hp
      have : 1 * 2 ^ 53 ≤ d * 2 ^ 53 := Nat.mul_le_mul_right _ hd
      omega
    have hs : d < 2 ^ ((-(max (-1074) (floorLog2 n d - 52))).toNat + 1) := by
      by_cases hk0 : 0 ≤ floorLog2 n d
      · have hle := floorLog2_le n d hn0 hd hk0
        have e1 : (-(max (-1074) (floorLog2 n d - 52))).toNat + 1 =
            53 - (floorLog2 n d).toNat := by omega
        rw [e1]
        have hlt : d * 2 ^ (floorLog2 n d).toNat < 2 ^ 53 := by omega
        have e2 : (2 : Nat) ^ 53 =
            2 ^ (53 - (floorLog2 n d).toNat) * 2 ^ (floorLog2 n d).toNat := by
          rw [← Nat.pow_add]
          congr 1
          omega
        rw [e2] at hlt
        exact Nat.lt_of_mul_lt_mul_right hlt
      · have hp : 2 ^ 54 ≤ 2 ^ ((-(max (-1074) (floorLog2 n d - 52))).toNat + 1) :=
          Nat.pow_le_pow_right (by decide) (by omega)
        have : (2 : Nat) ^ 53 < 2 ^ 54 := by decide
        omega
    have htr := roundHalfEven_trunc n d i _ hd h1 h2 hs
    unfold roundF64
    rw [if_neg hn]
    simp only
    by_cases he : max (-1074) (floorLog2 n d - 52) ≥ 0
    · have he0 : max (-1074) (floorLog2 n d - 52) = 0 := by omega
      rw [he0] at htr ⊢
      simp only [neg_zero, Int.toNat_zero, pow_zero, mul_one, Nat.div_one] at htr
      simp only [ge_iff_le, le_refl, if_true, Int.toNat_zero, pow_zero, mul_one, true_and]
      rw [htr, if_neg (by
        have : (2 : Nat) ^ 53 < 2 ^ 1024 := Nat.pow_lt_pow_right (by decide) (by decide)
        omega)]
      refine ⟨_, rfl, ?_⟩
      have := (hrange i rfl).1
      rwa [Nat.mul_one] at this
    · rw [if_neg he, if_neg (fun h => he h.1)]
      refine ⟨_, rfl, ?_⟩
      simp only [F64.toInt, if_neg he, htr, Bool.false_eq_true, if_false, minInt, maxInt]
      rw [if_pos]
      constructor <;> omega

theorem foldl_decimal (x : Str) : ∀ acc : Nat,
    x.foldl (fun acc c => acc * 10 + digitVal c) acc = acc * 10 ^ x.length + decimalValue x := by
  induction x with
  | nil => intro acc; simp [decimalValue]
  | cons c x ih =>
    intro acc
    unfold decimalValue
    rw [List.foldl_cons, List.foldl_cons, ih, ih (0 * 10 + digitVal c), List.length_cons,
      Nat.pow_succ]
    ring

theorem decimalValue_append (x y : Str) :
    decimalValue (x ++ y) = decimalValue x * 10 ^ y.length + decimalValue y := by
  unfold decimalValue
  rw [List.foldl_append, foldl_decimal y]
  rfl

theorem decimalValue_lt (x : Str) (hx : ∀ c, c ∈ x → isDigit c = true) :
    decimalValue x < 10 ^ x.length := by
  induction x with
  | nil => simp [decimalValue]
  | cons c x ih =>
    have h := decimalValue_append [c] x
    rw [List.singleton_append] at h
    rw [h, List.length_cons, Nat.pow_succ]
    have hc := hx c (List.mem_cons_self _ _)
    simp only [isDigit, Bool.and_eq_true, decide_eq_true_eq] at hc
    have hv : decimalValue [c] ≤ 9 := by
      simp only [decimalValue, List.foldl_cons, List.foldl_nil, digitVal]
      omega
    have ih' := ih (fun b hb => hx b (List.mem_cons_of_mem _ hb))
    have : decimalValue [c] * 10 ^ x.length ≤ 9 * 10 ^ x.length := Nat.mul_le_mul_right _ hv
    omega

theorem isDigit_ne (c : Char) (h : isDigit c = true) :
    c ≠ '_' ∧ c ≠ '.' ∧ c ≠ '+' ∧ c ≠ '-' ∧ c ≠ ',' ∧ c ≠ ' ' ∧ c ≠ 'x' ∧ c ≠ 'X' := by
  refine ⟨?_, ?_, ?_, ?_, ?_, ?_, ?_, ?_⟩ <;>
  · intro hc
    rw [hc] at h
    exact absurd h (by decide)

/-- The mantissa loop of `readFloat` over a run of decimal digits. -/
theorem scanMant_digits (x : Str) (hx : ∀ c, c ∈ x → isDigit c = true) :
    ∀ (r : Str) (m f : Nat) (dot dig us : Bool),
      scanMant false (x ++ r) m f dot dig us =
        scanMant false r (m * 10 ^ x.length + decimalValue x)
          (if dot then f + x.length else f) dot (dig || !x.isEmpty) us := by
  induction x with
  | nil =>
    intro r m f dot dig us
    cases dot <;> simp [decimalValue]
  | cons c x ih =>
    intro r m f dot dig us
    have hc := hx c (List.mem_cons_self _ _)
    obtain ⟨h1, h2, -⟩ := isDigit_ne c hc
    rw [List.cons_append, scanMant, if_neg h1, if_neg h2, if_pos hc,
      ih (fun b hb => hx b (List.mem_cons_of_mem _ hb))]
    have hv := decimalValue_append [c] x
    rw [List.singleton_append] at hv
    have hv1 : decimalValue [c] = digitVal c := by simp [decimalValue]
    rw [hv, hv1, List.length_cons, Nat.pow_succ]
    have e1 : (m * (if false = true then 16 else 10) + digitVal c) * 10 ^ x.length +
        decimalValue x = m * (10 ^ x.length * 10) + (digitVal c * 10 ^ x.length + decimalValue x) := by
      simp only [Bool.false_eq_true, if_false]
      ring
    rw [e1]
    cases dot
    · simp
    · simp only [if_true, List.isEmpty_cons, Bool.not_false, Bool.or_true, Bool.true_or]
      congr 1
      omega

theorem parseSpecial_digit (c : Char) (r : Str) (hc : isDigit c = true) :
    parseSpecial (c :: r) = none := by
  have hl : asciiLower c = c := by
    simp only [isDigit, Bool.and_eq_true, decide_eq_true_eq] at hc
    unfold asciiLower
    rw [if_neg (by omega)]
  have key : ∀ (t : Str), beginsWith isDigit t = false → (c :: r).map asciiLower ≠ t := by
    intro t ht he
    rw [List.map_cons, hl] at he
    rw [← he] at ht
    simp only [beginsWith] at ht
    rw [hc] at ht
    exact absurd ht (by decide)
  unfold parseSpecial
  simp only
  rw [if_neg, if_neg, if_neg]
  · exact key _ (by decide)
  · rintro (h | h)
    · exact key _ (by decide) h
    · exact key _ (by decide) h
  · rintro (h | h | h | h)
    · exact key _ (by decide) h
    · exact key _ (by decide) h
    · exact key _ (by decide) h
    · exact key _ (by decide) h

theorem splitSign_digit (c : Char) (r : Str) (hc : isDigit c = true) :
    splitSign (c :: r) = (false, c :: r) := by
  obtain ⟨-, -, h3, h4, -⟩ := isDigit_ne c hc
  rw [splitSign, if_neg h3, if_neg h4]

theorem splitHex_digits (c : Char) (r : Str) (h : ∀ x, x ∈ r.head? → x ≠ 'x' ∧ x ≠ 'X') :
    splitHex (c :: r) = (false, c :: r) := by
  match r, h with
  | [], _ => rfl
  | [_], _ => rfl
  | x :: c2 :: r2, h =>
    have hx := h x rfl
    rw [splitHex, if_neg]
    rintro ⟨-, h1 | h1⟩
    · exact hx.1 h1
    · exact hx.2 h1

/-- `ParseFloat` on a decimal numeral `ip.fp`: the value `ip fp / 10^|fp|`,
rounded. -/
theorem parseFloat_decimal (ip fp : Str) (hip : ip ≠ [])
    (hipd : ∀ c, c ∈ ip → isDigit c = true) (hfpd : ∀ c, c ∈ fp → isDigit c = true) :
    parseFloat (ip ++ '.' :: fp) = roundF64 false (decimalValue (ip ++ fp)) (10 ^ fp.length) := by
  cases ip with
  | nil => exact absurd rfl hip
  | cons c ip =>
    have hc := hipd c (List.mem_cons_self _ _)
    have hhex : splitHex (c :: ip ++ '.' :: fp) = (false, c :: ip ++ '.' :: fp) := by
      rw [List.cons_append]
      apply splitHex_digits
      intro x hx
      cases ip with
      | nil =>
        have : '.' = x := by simpa using hx
        rw [← this]
        exact ⟨by decide, by decide⟩
      | cons d ip =>
        have : d = x := by simpa using hx
        have hd := hipd d (List.mem_cons_of_mem _ (List.mem_cons_self _ _))
        rw [← this]
        exact ⟨(isDigit_ne d hd).2.2.2.2.2.2.1, (isDigit_ne d hd).2.2.2.2.2.2.2⟩
    have hscan : scanMant false (c :: ip ++ '.' :: fp) 0 0 false false false =
        ⟨decimalValue (c :: ip ++ fp), fp.length, true, true, false, []⟩ := by
      rw [scanMant_digits (c :: ip) hipd, scanMant, if_neg (by decide), if_pos rfl]
      simp only [Bool.false_eq_true, if_false]
      have h2 := scanMant_digits fp hfpd [] (0 * 10 ^ (c :: ip).length + decimalValue (c :: ip)) 0
        true (false || !(c :: ip).isEmpty) false
      rw [List.append_nil] at h2
      rw [h2, decimalValue_append]
      simp [scanMant]
    unfold parseFloat
    rw [List.cons_append, parseSpecial_digit c _ hc]
    simp only
    rw [splitSign_digit c _ hc]
    simp only
    rw [← List.cons_append, hhex]
    simp only
    rw [hscan]
    simp

/-- `ParseFloat` on a string of decimal digits: its value, rounded. -/
theorem parseFloat_digits (ip : Str) (hip : ip ≠ [])
    (hipd : ∀ c, c ∈ ip → isDigit c = true) :
    parseFloat ip = roundF64 false (decimalValue ip) 1 := by
  cases ip with
  | nil => exact absurd rfl hip
  | cons c ip =>
    have hc := hipd c (List.mem_cons_self _ _)
    have hhex : splitHex (c :: ip) = (false, c :: ip) := by
      apply splitHex_digits
      intro x hx
      cases ip with
      | nil => simp at hx
      | cons d ip =>
        have : d = x := by simpa using hx
        have hd := hipd d (List.mem_cons_of_mem _ (List.mem_cons_self _ _))
        rw [← this]
        exact ⟨(isDigit_ne d hd).2.2.2.2.2.2.1, (isDigit_ne d hd).2.2.2.2.2.2.2⟩
    have hscan : scanMant false (c :: ip) 0 0 false false false =
        ⟨decimalValue (c :: ip), 0, false, true, false, []⟩ := by
      have h2 := scanMant_digits (c :: ip) hipd [] 0 0 false false false
      rw [List.append_nil] at h2
      rw [h2]
      simp [scanMant]
    unfold parseFloat
    rw [parseSpecial_digit c _ hc]
    simp only
    rw [splitSign_digit c _ hc]
    simp only
    rw [hhex]
    simp only
    rw [hscan]
    simp

theorem removeSpaces_append (x y : Str) :
    removeSpaces (x ++ y) = removeSpaces x ++ removeSpaces y := by
  unfold removeSpaces
  rw [List.filter_append]

theorem removeSpaces_of_spaces (w : Str) (h : ∀ c, c ∈ w → c = ' ') : removeSpaces w = [] := by
  unfold removeSpaces
  rw [List.filter_eq_nil_iff]
  intro c hc
  rw [h c hc]
  decide

theorem removeSpaces_of_no_space (x : Str) (h : ∀ c, c ∈ x → c ≠ ' ') : removeSpaces x = x := by
  unfold removeSpaces
  rw [List.filter_eq_self]
  intro c hc
  simp only [bne_iff_ne, ne_eq]
  exact h c hc

theorem commaToPoint_of_no_comma (x : Str) (h : ∀ c, c ∈ x → c ≠ ',') : commaToPoint x = x := by
  unfold commaToPoint
  induction x with
  | nil => rfl
  | cons c x ih =>
    rw [List.map_cons, if_neg (h c (List.mem_cons_self _ _)),
      ih (fun b hb => h b (List.mem_cons_of_mem _ hb))]

/-- Where the only white space of a string is the space, trimming before the
removal of the spaces changes nothing. -/
theorem removeSpaces_trimSpace (s : Str) (h : ∀ c, c ∈ s → isSpace c = true → c = ' ') :
    removeSpaces (trimSpace s) = removeSpaces s := by
  obtain ⟨w, hd, hw⟩ := trimRight_decomp (s.dropWhile isSpace)
  have hs : s = s.takeWhile isSpace ++ (trimSpace s ++ w) := by
    conv_lhs => rw [← List.takeWhile_append_dropWhile isSpace s, hd]
    rfl
  have h1 : removeSpaces (s.takeWhile isSpace) = [] :=
    removeSpaces_of_spaces _ (fun c hc =>
      h c ((List.takeWhile_sublist isSpace).subset hc) (List.mem_takeWhile_imp hc))
  have h2 : removeSpaces w = [] :=
    removeSpaces_of_spaces _ (fun c hc => h c (by
      rw [hs]
      exact List.mem_append_right _ (List.mem_append_right _ hc)) (hw c hc))
  conv_rhs => rw [hs]
  rw [removeSpaces_append, removeSpaces_append, h1, h2, List.nil_append, List.append_nil]

/-- The text `parseNumber` hands to `ParseFloat` for a numeral whose integer part
`w` is `ip` written with spaces and whose fraction follows a comma or a point. -/
theorem normalize_numeral (ip fp w : Str) (sep : Char) (hsep : sep = ',' ∨ sep = '.')
    (hipd : ∀ c, c ∈ ip → isDigit c = true) (hfpd : ∀ c, c ∈ fp → isDigit c = true)
    (hw : removeSpaces w = ip) :
    commaToPoint (removeSpaces (trimSpace (w ++ sep :: fp))) = ip ++ '.' :: fp := by
  have hwc : ∀ c, c ∈ w → c = ' ' ∨ isDigit c = true := by
    intro c hc
    by_cases h : c = ' '
    · exact Or.inl h
    · right
      apply hipd
      rw [← hw]
      unfold removeSpaces
      rw [List.mem_filter]
      exact ⟨hc, by simpa using h⟩
  have hsp : ∀ c, c ∈ w ++ sep :: fp → isSpace c = true → c = ' ' := by
    intro c hc hs
    rcases List.mem_append.1 hc with h | h
    · rcases hwc c h with h1 | h1
      · exact h1
      · rw [isDigit_not_isSpace c h1] at hs; exact absurd hs (by decide)
    · rcases List.mem_cons.1 h with h1 | h1
      · rcases hsep with h2 | h2 <;>
        · rw [h1, h2] at hs; exact absurd hs (by decide)
      · rw [isDigit_not_isSpace c (hfpd c h1)] at hs; exact absurd hs (by decide)
  have hsepsp : removeSpaces (sep :: fp) = sep :: fp := by
    apply removeSpaces_of_no_space
    intro c hc
    rcases List.mem_cons.1 hc with h1 | h1
    · rcases hsep with h2 | h2 <;>
      · rw [h1, h2]; decide
    · exact (isDigit_ne c (hfpd c h1)).2.2.2.2.2.1
  rw [removeSpaces_trimSpace _ hsp, removeSpaces_append, hw, hsepsp]
  unfold commaToPoint
  rw [List.map_append, List.map_cons]
  have h1 := commaToPoint_of_no_comma ip (fun c hc => (isDigit_ne c (hipd c hc)).2.2.2.2.1)
  have h2 := commaToPoint_of_no_comma fp (fun c hc => (isDigit_ne c (hfpd c hc)).2.2.2.2.1)
  unfold commaToPoint at h1 h2
  rw [h1, h2]
  rcases hsep with h | h
  · rw [h, if_pos rfl]
  · rw [h, if_neg (by decide)]

/-- The text `parseNumber` hands to `ParseFloat` for a whole number written with
spaces. -/
theorem normalize_whole (ip w : Str) (hipd : ∀ c, c ∈ ip → isDigit c = true)
    (hw : removeSpaces w = ip) :
    commaToPoint (removeSpaces (trimSpace w)) = ip := by
  have hsp : ∀ c, c ∈ w → isSpace c = true → c = ' ' := by
    intro c hc hs
    by_cases h : c = ' '
    · exact h
    · have hm : c ∈ ip := by
        rw [← hw]
        unfold removeSpaces
        rw [List.mem_filter]
        exact ⟨hc, by simpa using h⟩
      rw [isDigit_not_isSpace c (hipd c hm)] at hs
      exact absurd hs (by decide)
  rw [removeSpaces_trimSpace _ hsp, hw]
  exact commaToPoint_of_no_comma ip (fun c hc => (isDigit_ne c (hipd c hc)).2.2.2.2.1)

theorem parseNumber_of_norm (s t : Str) (h : commaToPoint (removeSpaces (trimSpace s)) = t) :
    parseNumber s = match parseFloat t with
      | none => 0
      | some f => f.toInt := by
  unfold parseNumber
  simp only [h]

theorem removeSpaces_digits (ip : Str) (hipd : ∀ c, c ∈ ip → isDigit c = true) :
    removeSpaces ip = ip :=
  removeSpaces_of_no_space ip (fun c hc => (isDigit_ne c (hipd c hc)).2.2.2.2.2.1)

/-- C5, as amended. `parseNumber` is invariant to space group separators and to
decimal-comma notation: for a non-negative decimal numeral with integer part `ip`
and fraction digits `fp`, writing the integer part with spaces (any `w` whose
non-space code points spell `ip`) or without, and the fraction after a comma or
after a point, gives one and the same result; and that result is the integer
part of the numeral, its value truncated, whenever
`(ip + 1) * 10^|fp| ≤ 2^53`. -/
theorem C5_space_and_decimal_comma_invariance (ip fp w : Str) (hip : ip ≠ [])
    (hipd : ip.all isDigit = true) (hfpd : fp.all isDigit = true)
    (hw : removeSpaces w = ip) :
    parseNumber (w ++ ',' :: fp) = parseNumber (ip ++ '.' :: fp) ∧
      parseNumber (w ++ '.' :: fp) = parseNumber (ip ++ '.' :: fp) ∧
      parseNumber (ip ++ ',' :: fp) = parseNumber (ip ++ '.' :: fp) ∧
      parseNumber w = parseNumber ip ∧
      ((decimalValue ip + 1) * 10 ^ fp.length ≤ 2 ^ 53 →
        parseNumber (ip ++ '.' :: fp) = (decimalValue ip : Int) ∧
          parseNumber ip = (decimalValue ip : Int)) := by
  have hipd' : ∀ c, c ∈ ip → isDigit c = true := List.all_eq_true.1 hipd
  have hfpd' : ∀ c, c ∈ fp → isDigit c = true := List.all_eq_true.1 hfpd
  have hself := removeSpaces_digits ip hipd'
  have n1 := parseNumber_of_norm _ _ (normalize_numeral ip fp w ',' (Or.inl rfl) hipd' hfpd' hw)
  have n2 := parseNumber_of_norm _ _ (normalize_numeral ip fp w '.' (Or.inr rfl) hipd' hfpd' hw)
  have n3 := parseNumber_of_norm _ _
    (normalize_numeral ip fp ip ',' (Or.inl rfl) hipd' hfpd' hself)
  have n4 := parseNumber_of_norm _ _
    (normalize_numeral ip fp ip '.' (Or.inr rfl) hipd' hfpd' hself)
  have n5 := parseNumber_of_norm _ _ (normalize_whole ip w hipd' hw)
  have n6 := parseNumber_of_norm _ _ (normalize_whole ip ip hipd' hself)
  refine ⟨by rw [n1, n4], by rw [n2, n4], by rw [n3, n4], by rw [n5, n6], ?_⟩
  intro hb
  have hF := decimalValue_lt fp hfpd'
  have hN := decimalValue_append ip fp
  have hpos : 0 < 10 ^ fp.length := Nat.pow_pos (by decide)
  constructor
  · obtain ⟨f, hf1, hf2⟩ := roundF64_toInt (decimalValue (ip ++ fp)) (10 ^ fp.length)
      (decimalValue ip) hpos (by rw [hN]; omega)
      (by rw [hN, Nat.add_mul, Nat.one_mul]; omega) hb
    rw [n4, parseFloat_decimal ip fp hip hipd' hfpd', hf1]
    exact hf2
  · obtain ⟨f, hf1, hf2⟩ := roundF64_toInt (decimalValue ip) 1 (decimalValue ip) (by decide)
      (by omega) (by omega)
      (by
        have : (decimalValue ip + 1) * 1 ≤ (decimalValue ip + 1) * 10 ^ fp.length :=
          Nat.mul_le_mul_left _ hpos
        omega)
    rw [n6, parseFloat_digits ip hip hipd', hf1]
    exact hf2

/-- Witness for C5: `1 234,50` and `1234.50` both give 1234. -/
theorem C5_space_and_decimal_comma_invariance_witness :
    parseNumber ("1 234".toList ++ ',' :: "50".toList) =
        parseNumber ("1234".toList ++ '.' :: "50".toList) ∧
      parseNumber ("1234".toList ++ '.' :: "50".toList) = (decimalValue "1234".toList : Int) ∧
      (decimalValue "1234".toList : Int) = 1234 :=
  have h := C5_space_and_decimal_comma_invariance "1234".toList "50".toList "1 234".toList
    (by decide) (by decide) (by decide) (by decide)
  ⟨h.1, (h.2.2.2.2 (by decide)).1, by decide⟩

set_option exponentiation.threshold 1100 in
/-- C5 as stated fails: a comma is read as the decimal point also where it is
meant as a group separator, so `1,234` gives 1 and `1 234` gives 1234; and the
result is the truncation of the nearest `float64`, not of the numeral, so
`0,99999999999999999999` gives 1 and `9007199254740993` gives
9007199254740992. -/
theorem C5_comma_group_separator_counterexample :
    parseNumber "1,234".toList = 1 ∧ parseNumber "1 234".toList = 1234 ∧
      parseNumber "1,234,567".toList = 0 ∧ parseNumber "1 234 567".toList = 1234567 ∧
      parseNumber "0,99999999999999999999".toList = 1 ∧
      parseNumber "9007199254740993".toList = 9007199254740992 := by
  refine ⟨by rfl, by rfl, by rfl, by rfl, by rfl, by rfl⟩

/-- Witness for C2: the row `1 Парацетамол 500 мг 5 10 20 1 500 30000 Bayer AG`. -/
theorem C2_full_shape_parsed_witness :
    parseRowData (joinSpace ["1".toList, "Парацетамол 500 мг".toList, "5".toList, "10".toList,
        "20".toList, "1 500".toList, "30000".toList, "Bayer AG".toList]) =
      ⟨(decimalValue "1".toList : Int), "Парацетамол 500 мг".toList, parseNumber "20".toList,
        parseNumber "1 500".toList, trimSpace "Bayer AG".toList, true⟩ :=
  C2_full_shape_parsed "1".toList "Парацетамол 500 мг".toList "5".toList "10".toList "20".toList
    "1 500".toList "30000".toList "Bayer AG".toList
    (by decide) (by decide) (by decide) (by decide) (by decide) (by decide) (by decide)
    (by decide) (by decide) (by decide) (by decide) (by decide) (by decide) (by decide)
    (by decide) (by decide) (by decide) (by decide) (by decide) (by decide) (by decide)

/-- C2 as stated fails. On the row `1 Аспирин 5 10 20 1 500 30 000 Bayer` of the
full shape (price `1 500`, total `30 000`) the price returned is 150030, not
`parseNumber "1 500" = 1500`; a manufacturer that begins with a digit or follows
an empty cell is taken into the total and the total into the price; a name with
numeric tokens is cut at the first split that matches; a line feed in the name
rejects the row; and a row number above `2^63 - 1` is clamped. -/
theorem C2_full_shape_counterexample :
    (parseRowData (joinSpace ["1".toList, "Аспирин".toList, "5".toList, "10".toList,
        "20".toList, "1 500".toList, "30 000".toList, "Bayer".toList])).price = 150030 ∧
      parseNumber "1 500".toList = 1500 ∧
      (parseRowData (joinSpace ["1".toList, "Аспирин".toList, "5".toList, "10".toList,
        "20".toList, "1500".toList, "30000".toList, "3M".toList])).price = 150030000 ∧
      (parseRowData (joinSpace ["1".toList, "Аспирин".toList, "5".toList, "10".toList,
        "20".toList, "1500".toList, "30000".toList, " Bayer".toList])).price = 150030000 ∧
      (parseRowData (joinSpace ["1".toList, "A 1 2 3 4".toList, "5".toList, "6".toList,
        "7".toList, "8".toList, "9".toList, "Bayer".toList])).name = "A".toList ∧
      (parseRowData (joinSpace ["1".toList, "Аспирин\nфорте".toList, "5".toList, "10".toList,
        "20".toList, "1500".toList, "30000".toList, "Bayer".toList])).ok = false ∧
      (parseRowData (joinSpace ["9223372036854775808".toList, "Аспирин".toList, "5".toList,
        "10".toList, "20".toList, "1500".toList, "30000".toList, "Bayer".toList])).num =
        9223372036854775807 := by
  refine ⟨by rfl, by rfl, by rfl, by rfl, by rfl, by rfl, by rfl⟩

/-- A match of a pattern yields as many captures as the pattern has groups. -/
theorem matchPieces_caps_length (ps : List Piece) :
    ∀ (s : Str) (caps : List Str), matchPieces ps s = some caps →
      caps.length = (ps.filter (fun p => p.cap)).length := by
  induction ps with
  | nil =>
    intro s caps h
    rw [matchPieces] at h
    by_cases hs : s = []
    · rw [if_pos hs] at h
      injection h with h
      rw [← h]; rfl
    · rw [if_neg hs] at h
      exact absurd h (by simp)
  | cons p ps ih =>
    intro s caps h
    obtain ⟨n, caps1, -, -, h1, hc⟩ := matchPieces_cons_some p ps s caps h
    have := ih _ _ h1
    by_cases hp : p.cap = true
    · rw [hc, if_pos hp, List.filter_cons, if_pos hp, List.length_cons, List.length_cons, this]
    · rw [hc, if_neg hp, List.filter_cons, if_neg hp, this]

/-- Both patterns have five groups, so a match always fills the five results of
`parseRowData`. -/
theorem pattern_five_captures (s : Str) (caps : List Str)
    (h : matchPieces pattern1 s = some caps ∨ matchPieces pattern2 s = some caps) :
    caps.length = 5 := by
  rcases h with h | h
  · rw [matchPieces_caps_length _ _ _ h]; rfl
  · rw [matchPieces_caps_length _ _ _ h]; rfl

theorem mem_mapSet {V : Type} (m : List (Str × V)) (k : Str) (v : V) (e : Str × V)
    (h : e ∈ mapSet m k v) : e = (k, v) ∨ e ∈ m := by
  induction m with
  | nil =>
    rw [mapSet, List.mem_singleton] at h
    exact Or.inl h
  | cons e0 m ih =>
    obtain ⟨k0, v0⟩ := e0
    by_cases hk : k0 = k
    · rw [mapSet, if_pos hk] at h
      rcases List.mem_cons.1 h with h1 | h1
      · exact Or.inl h1
      · exact Or.inr (List.mem_cons_of_mem _ h1)
    · rw [mapSet, if_neg hk] at h
      rcases List.mem_cons.1 h with h1 | h1
      · exact Or.inr (h1 ▸ List.mem_cons_self _ _)
      · rcases ih h1 with h2 | h2
        · exact Or.inl h2
        · exact Or.inr (List.mem_cons_of_mem _ h2)

theorem mapKeys_eq_map {V : Type} (m : List (Str × V)) : mapKeys m = m.map Prod.fst := by
  induction m with
  | nil => rfl
  | cons e m ih =>
    obtain ⟨k, v⟩ := e
    rw [mapKeys, ih, List.map_cons]

/-- Every record of the map is filed under its own name and carries the
`pharmacyID` of the call. -/
theorem uploadLoop_records (orders : Nat → List (Str × List Str)) (phone address : Str)
    (pharmacyID : Int) (rows : List Str) :
    ∀ (st : LoopState) (i : Nat),
      (∀ e, e ∈ st.medicinesMap → e.2.Name = e.1 ∧ e.2.PharmacyID = pharmacyID) →
      ∀ e, e ∈ (uploadLoop orders phone address pharmacyID st i rows).medicinesMap →
        e.2.Name = e.1 ∧ e.2.PharmacyID = pharmacyID := by
  induction rows with
  | nil => intro st i h; exact h
  | cons rowStr rest ih =>
    intro st i h
    rw [uploadLoop]
    apply ih
    intro e he
    cases hacc : accepted rowStr with
    | false =>
      rw [uploadStep_rejected _ _ _ _ _ _ _ hacc] at he
      exact h e he
    | true =>
      rw [(uploadStep_accepted (orders i) phone address pharmacyID st i rowStr hacc).1] at he
      rcases mem_mapSet _ _ _ _ he with h1 | h1
      · rw [h1]; exact ⟨rfl, rfl⟩
      · exact h e h1

/-- The records of the map after the row loop have pairwise distinct keys
`(name, pharmacy_id)`. -/
theorem loopRecords_keys_nodup (orders : Nat → List (Str × List Str)) (phone address : Str)
    (pharmacyID : Int) (rows : List (List Str)) :
    ((loopRecords orders phone address pharmacyID rows).map Medicine.key).Nodup := by
  unfold loopRecords
  have hinv := uploadLoop_records orders phone address pharmacyID (flattenRows rows)
    LoopState.init 0 (fun e he => absurd he (List.not_mem_nil e))
  have hnd := (uploadLoop_spec orders phone address pharmacyID (flattenRows rows)
    LoopState.init 0).2.1 (by simp only [LoopState.init, mapKeys]; exact List.nodup_nil)
  rw [mapKeys_eq_map] at hnd
  generalize (uploadLoop orders phone address pharmacyID LoopState.init 0
    (flattenRows rows)).medicinesMap = m at hinv hnd
  rw [List.map_map]
  have hmap : m.map (Medicine.key ∘ Prod.snd) = m.map (fun e => (e.1, pharmacyID)) := by
    apply List.map_congr_left
    intro e he
    obtain ⟨h1, h2⟩ := hinv e he
    simp only [Function.comp, Medicine.key, h1, h2]
  rw [hmap]
  have hcomp : m.map (fun e => (e.1, pharmacyID)) =
      (m.map Prod.fst).map (fun k => (k, pharmacyID)) := by
    rw [List.map_map]; rfl
  rw [hcomp]
  exact List.Nodup.map (fun a b hab => (Prod.mk.inj hab).1) hnd

/-- The table a call of `UploadExcel` on a readable sheet leaves when it returns
no error: the statements of the records of the map, in the order of the slice. -/
theorem UploadExcel_store_of_ok (db : DB) (fileName : Str) (rows : List (List Str))
    (botToken chatID phone address : Str) (pharmacyID : Int)
    (orders : Nat → List (Str × List Str)) (sliceOrder : List Medicine → List Medicine)
    (h : (UploadExcel db fileName (SheetRead.rows rows) botToken chatID phone address
      pharmacyID orders sliceOrder).err = none) :
    (UploadExcel db fileName (SheetRead.rows rows) botToken chatID phone address pharmacyID
      orders sliceOrder).store =
      execInsert db.now db.store
        (sliceOrder (loopRecords orders phone address pharmacyID rows)) := by
  unfold UploadExcel at h ⊢
  unfold loopRecords
  simp only at h ⊢
  generalize sliceOrder ((uploadLoop orders phone address pharmacyID LoopState.init 0
    (flattenRows rows)).medicinesMap.map Prod.snd) = meds at h ⊢
  by_cases hl : meds.length > 0
  · rw [if_pos hl] at h ⊢
    cases he : (batchInsertMedicines db meds).err with
    | some e => rw [he] at h; exact absurd h (by simp)
    | none => exact batchInsert_store_of_ok db meds he
  · rw [if_neg hl]
    have : meds = [] := List.length_eq_zero.1 (by omega)
    rw [this]
    rfl

theorem untimed_upsertRow (now t : Nat) (st : Store) (m : Medicine)
    (h : st.get m.key = some (m.toRow t)) :
    (upsertRow now st m).map StoredRow.untimed = st.map StoredRow.untimed := by
  induction st with
  | nil => simp [Store.get] at h
  | cons r st ih =>
    by_cases hk : r.key = m.key
    · rw [upsertRow, if_pos hk, List.map_cons, List.map_cons]
      have hr : r = m.toRow t := by
        simp only [Store.get, List.find?, hk, decide_True] at h
        exact Option.some.inj h
      rw [hr]
      rfl
    · rw [upsertRow, if_neg hk, List.map_cons, List.map_cons, ih]
      simp only [Store.get, List.find?, hk, decide_False] at h
      exact h

/-- Writing again records that the table already holds changes time stamps only. -/
theorem untimed_execInsert (now t : Nat) (batch : List Medicine)
    (hnd : (batch.map Medicine.key).Nodup) :
    ∀ st : Store, (∀ m, m ∈ batch → st.get m.key = some (m.toRow t)) →
      (execInsert now st batch).map StoredRow.untimed = st.map StoredRow.untimed := by
  induction batch with
  | nil => intro st _; rfl
  | cons m batch ih =>
    intro st h
    rw [List.map_cons, List.nodup_cons] at hnd
    have h1 : execInsert now st (m :: batch) = execInsert now (upsertRow now st m) batch := rfl
    rw [h1, ih hnd.2 (upsertRow now st m), untimed_upsertRow now t st m
      (h m (List.mem_cons_self _ _))]
    intro m1 hm1
    have hne : m1.key ≠ m.key := by
      intro he
      exact hnd.1 (he ▸ List.mem_map_of_mem _ hm1)
    rw [get_upsertRow_other now st m m1.key hne]
    exact h m1 (List.mem_cons_of_mem _ hm1)

/-- Ingesting a sheet a second time leaves the table as the first run left it,
apart from `updated_at`, when the calls of `detectCategory` of the second run
visit the map in the orders of the first run (`orders` is shared); the records
may reach the statements in different orders. -/
theorem upload_twice_same_orders (db db2 : DB) (fileName : Str) (rows : List (List Str))
    (botToken chatID phone address : Str) (pharmacyID : Int)
    (orders : Nat → List (Str × List Str)) (sliceOrder sliceOrder2 : List Medicine → List Medicine)
    (hs1 : IsSliceOrder sliceOrder) (hs2 : IsSliceOrder sliceOrder2)
    (h1 : (UploadExcel db fileName (SheetRead.rows rows) botToken chatID phone address
      pharmacyID orders sliceOrder).err = none)
    (hdb : db2.store = (UploadExcel db fileName (SheetRead.rows rows) botToken chatID phone
      address pharmacyID orders sliceOrder).store)
    (h2 : (UploadExcel db2 fileName (SheetRead.rows rows) botToken chatID phone address
      pharmacyID orders sliceOrder2).err = none) :
    (UploadExcel db2 fileName (SheetRead.rows rows) botToken chatID phone address pharmacyID
        orders sliceOrder2).store.map StoredRow.untimed =
      (UploadExcel db fileName (SheetRead.rows rows) botToken chatID phone address pharmacyID
        orders sliceOrder).store.map StoredRow.untimed := by
  have e1 := UploadExcel_store_of_ok db fileName rows botToken chatID phone address pharmacyID
    orders sliceOrder h1
  have e2 := UploadExcel_store_of_ok db2 fileName rows botToken chatID phone address
    pharmacyID orders sliceOrder2 h2
  have hnd := loopRecords_keys_nodup orders phone address pharmacyID rows
  have hp1 := hs1 (loopRecords orders phone address pharmacyID rows)
  have hp2 := hs2 (loopRecords orders phone address pharmacyID rows)
  have hnd1 : ((sliceOrder (loopRecords orders phone address pharmacyID rows)).map
      Medicine.key).Nodup := (List.Perm.nodup_iff (hp1.map _)).2 hnd
  have hnd2 : ((sliceOrder2 (loopRecords orders phone address pharmacyID rows)).map
      Medicine.key).Nodup := (List.Perm.nodup_iff (hp2.map _)).2 hnd
  rw [e2, hdb, e1]
  refine untimed_execInsert db2.now db.now _ hnd2 _ (fun m hm => ?_)
  have hm1 : m ∈ sliceOrder (loopRecords orders phone address pharmacyID rows) :=
    hp1.symm.subset (hp2.subset hm)
  exact get_execInsert_self db.now _ hnd1 db.store m hm1

theorem detectCategory_eq (order : List (Str × List Str)) (medicineName : Str) :
    (detectCategory order medicineName = "Boshqa".toList ∧
        ∀ entry, entry ∈ order → keywordHit (toLower medicineName) entry.2 = false) ∨
      ∃ entry, entry ∈ order ∧ keywordHit (toLower medicineName) entry.2 = true ∧
        detectCategory order medicineName = entry.1 := by
  have hd : detectCategory order medicineName =
      match order.find? (fun entry => keywordHit (toLower medicineName) entry.2) with
      | some entry => entry.1
      | none => "Boshqa".toList := rfl
  rw [hd]
  cases h : order.find? (fun entry => keywordHit (toLower medicineName) entry.2) with
  | none =>
    refine Or.inl ⟨rfl, fun entry he => ?_⟩
    have := List.find?_eq_none.1 h entry he
    simpa using this
  | some e =>
    exact Or.inr ⟨e, List.mem_of_find?_eq_some h,
      List.find?_some (p := fun entry : Str × List Str =>
        keywordHit (toLower medicineName) entry.2) h, rfl⟩

/-- C11. For every name and every order of visiting the category table,
`detectCategory` returns `Boshqa` exactly when the lower-cased name contains no
keyword of the table; otherwise it returns the category of one of the 13 entries
of the table, and a keyword of that entry is contained in the lower-cased name. -/
theorem C11_catch_all_iff_no_keyword (order : List (Str × List Str))
    (horder : IsCategoryOrder order) (medicineName : Str) :
    categories.length = 13 ∧
      (detectCategory order medicineName = "Boshqa".toList ↔
        ∀ entry, entry ∈ categories → ∀ keyword, keyword ∈ entry.2 →
          contains (toLower medicineName) keyword = false) ∧
      (detectCategory order medicineName ≠ "Boshqa".toList →
        ∃ entry, entry ∈ categories ∧ detectCategory order medicineName = entry.1 ∧
          ∃ keyword, keyword ∈ entry.2 ∧ contains (toLower medicineName) keyword = true) := by
  have hmem : ∀ entry, entry ∈ order ↔ entry ∈ categories := fun entry => horder.mem_iff
  have hnames : ∀ entry, entry ∈ categories → entry.1 ≠ "Boshqa".toList := by decide
  have hhit : ∀ entry : Str × List Str, keywordHit (toLower medicineName) entry.2 = false ↔
      ∀ keyword, keyword ∈ entry.2 → contains (toLower medicineName) keyword = false := by
    intro entry
    unfold keywordHit
    rw [List.any_eq_false]
    constructor
    · intro h keyword hk
      simpa using h keyword hk
    · intro h keyword hk
      simpa using h keyword hk
  refine ⟨rfl, ⟨fun h entry he => ?_, fun h => ?_⟩, fun h => ?_⟩
  · rcases detectCategory_eq order medicineName with ⟨-, h1⟩ | ⟨e, he1, -, he3⟩
    · exact (hhit entry).1 (h1 entry ((hmem entry).2 he))
    · exact absurd (he3 ▸ h) (hnames e ((hmem e).1 he1))
  · rcases detectCategory_eq order medicineName with ⟨h1, -⟩ | ⟨e, he1, he2, -⟩
    · exact h1
    · have := (hhit e).2 (h e ((hmem e).1 he1))
      rw [this] at he2
      exact absurd he2 (by decide)
  · rcases detectCategory_eq order medicineName with ⟨h1, -⟩ | ⟨e, he1, he2, he3⟩
    · exact absurd h1 h
    · refine ⟨e, (hmem e).1 he1, he3, ?_⟩
      unfold keywordHit at he2
      obtain ⟨keyword, hk, hc⟩ := List.any_eq_true.1 he2
      exact ⟨keyword, hk, hc⟩

/-- Witness for C11: the table in the order of the source, and a name with the
keyword `парацетамол`. -/
theorem C11_catch_all_iff_no_keyword_witness :
    IsCategoryOrder categories ∧
      (detectCategory categories "Парацетамол 500 мг".toList ≠ "Boshqa".toList →
        ∃ entry, entry ∈ categories ∧
          detectCategory categories "Парацетамол 500 мг".toList = entry.1 ∧
          ∃ keyword, keyword ∈ entry.2 ∧
            contains (toLower "Парацетамол 500 мг".toList) keyword = true) :=
  ⟨by decide, (C11_catch_all_iff_no_keyword categories (by decide) "Парацетамол 500 мг".toList).2.2⟩

set_option maxRecDepth 100000 in
/-- C12, at the input `shch`: when the first loop visits the map in the order the
source lists it, `ch` and `sh` are replaced before `shch` is looked for, and the
result is the two letters `шч`; the single letter `щ` comes out only when `shch`
is visited before both `sh` and `ch`, as in the reversed order. -/
theorem C12_shch_depends_on_map_order :
    IsReplacementOrder replacements ∧ IsReplacementOrder replacements.reverse ∧
      translitToRussian replacements replacements "shch".toList = "шч".toList ∧
      translitToRussian replacements.reverse replacements.reverse "shch".toList =
        "щ".toList ∧
      replaceAll "shch".toList "ch".toList "ч".toList = "shч".toList ∧
      replaceAll "shч".toList "sh".toList "ш".toList = "шч".toList ∧
      replaceAll "шч".toList "shch".toList "щ".toList = "шч".toList :=
  ⟨List.Perm.refl _, List.reverse_perm _, by rfl, by rfl, by rfl, by rfl, by rfl⟩

theorem foldl_fixed {α : Type} (step : Str → α → Str) (u : Str) (l : List α)
    (h : ∀ e, e ∈ l → step u e = u) : l.foldl step u = u := by
  induction l with
  | nil => rfl
  | cons e l ih =>
    rw [List.foldl_cons, h e (List.mem_cons_self _ _)]
    exact ih (fun x hx => h x (List.mem_cons_of_mem _ hx))

theorem foldl_hit {α : Type} (step : Str → α → Str) (t u : Str) (l : List α)
    (h1 : ∀ e, e ∈ l → step t e = t ∨ step t e = u) (h2 : ∀ e, e ∈ l → step u e = u)
    (h3 : ∃ e, e ∈ l ∧ step t e = u) : l.foldl step t = u := by
  induction l with
  | nil =>
    obtain ⟨e, he, -⟩ := h3
    exact absurd he (List.not_mem_nil e)
  | cons e l ih =>
    rw [List.foldl_cons]
    rcases h1 e (List.mem_cons_self _ _) with h | h
    · rw [h]
      obtain ⟨x, hx, hxu⟩ := h3
      rcases List.mem_cons.1 hx with hxe | hxl
      · have htu : t = u := by rw [← h, ← hxe, hxu]
        rw [htu]
        exact foldl_fixed step u l (fun y hy => h2 y (List.mem_cons_of_mem _ hy))
      · exact ih (fun y hy => h1 y (List.mem_cons_of_mem _ hy))
          (fun y hy => h2 y (List.mem_cons_of_mem _ hy)) ⟨x, hxl, hxu⟩
    · rw [h]
      exact foldl_fixed step u l (fun y hy => h2 y (List.mem_cons_of_mem _ hy))

/-- A cluster that one long key of the table maps to a letter, and that no other
long key touches, comes out as that letter whatever the two orders are. -/
theorem translit_cluster (order1 order2 : List (Str × Str))
    (h1 : IsReplacementOrder order1) (h2 : IsReplacementOrder order2) (t u : Str)
    (ha : ∀ e, e ∈ replacements → replaceLong t e = t ∨ replaceLong t e = u)
    (hb : ∀ e, e ∈ replacements → replaceLong u e = u)
    (hc : ∃ e, e ∈ replacements ∧ replaceLong t e = u)
    (hd : ∀ e, e ∈ replacements → replaceShort u e = u) :
    translitToRussian order1 order2 t = u := by
  unfold translitToRussian
  have hm1 : ∀ e, e ∈ order1 ↔ e ∈ replacements := fun e => h1.mem_iff
  have hm2 : ∀ e, e ∈ order2 ↔ e ∈ replacements := fun e => h2.mem_iff
  rw [foldl_hit replaceLong t u order1 (fun e he => ha e ((hm1 e).1 he))
    (fun e he => hb e ((hm1 e).1 he))
    (hc.elim fun e he => ⟨e, (hm1 e).2 he.1, he.2⟩)]
  exact foldl_fixed replaceShort u order2 (fun e he => hd e ((hm2 e).1 he))

set_option maxRecDepth 100000 in
/-- C13. The first loop of `translitToRussian` applies the keys longer than one
byte and the second loop the keys of one byte, so for every pair of orders in
which the two loops visit the map each of `sh`, `ch`, `zh`, `ts`, `yu`, `ya` comes
out as its single letter, which is not the images of its two letters put
together. -/
theorem C13_digraphs_before_single_letters (order1 order2 : List (Str × Str))
    (h1 : IsReplacementOrder order1) (h2 : IsReplacementOrder order2) :
    translitToRussian order1 order2 "sh".toList = "ш".toList ∧
      translitToRussian order1 order2 "ch".toList = "ч".toList ∧
      translitToRussian order1 order2 "zh".toList = "ж".toList ∧
      translitToRussian order1 order2 "ts".toList = "ц".toList ∧
      translitToRussian order1 order2 "yu".toList = "ю".toList ∧
      translitToRussian order1 order2 "ya".toList = "я".toList ∧
      "ш".toList ≠ "сх".toList ∧ "ч".toList ≠ "кх".toList ∧ "ж".toList ≠ "зх".toList ∧
      "ц".toList ≠ "тс".toList ∧ "ю".toList ≠ "йу".toList ∧ "я".toList ≠ "йа".toList := by
  refine ⟨?_, ?_, ?_, ?_, ?_, ?_, by decide, by decide, by decide, by decide, by decide,
    by decide⟩
  · exact translit_cluster order1 order2 h1 h2 _ _ (by decide) (by decide)
      ⟨("sh".toList, "ш".toList), by decide, by rfl⟩ (by decide)
  · exact translit_cluster order1 order2 h1 h2 _ _ (by decide) (by decide)
      ⟨("ch".toList, "ч".toList), by decide, by rfl⟩ (by decide)
  · exact translit_cluster order1 order2 h1 h2 _ _ (by decide) (by decide)
      ⟨("zh".toList, "ж".toList), by decide, by rfl⟩ (by decide)
  · exact translit_cluster order1 order2 h1 h2 _ _ (by decide) (by decide)
      ⟨("ts".toList, "ц".toList), by decide, by rfl⟩ (by decide)
  · exact translit_cluster order1 order2 h1 h2 _ _ (by decide) (by decide)
      ⟨("yu".toList, "ю".toList), by decide, by rfl⟩ (by decide)
  · exact translit_cluster order1 order2 h1 h2 _ _ (by decide) (by decide)
      ⟨("ya".toList, "я".toList), by decide, by rfl⟩ (by decide)

/-- Witness for C13: both loops visit the map in the order of the source. -/
theorem C13_digraphs_before_single_letters_witness :
    IsReplacementOrder replacements ∧
      translitToRussian replacements replacements "sh".toList = "ш".toList :=
  ⟨List.Perm.refl _,
    (C13_digraphs_before_single_letters replacements replacements (List.Perm.refl _)
      (List.Perm.refl _)).1⟩

theorem likeItems_plain (p : Str) (h : '\\' ∉ p) : likeItems p = some (p.map likeItem) := by
  induction p with
  | nil => rfl
  | cons c p ih =>
    have hc : c ≠ '\\' := fun e => h (e ▸ List.mem_cons_self _ _)
    have hp : '\\' ∉ p := fun e => h (List.mem_cons_of_mem _ e)
    cases p with
    | nil => rw [likeItems, if_neg hc]; rfl
    | cons d r => rw [likeItems, if_neg hc, ih hp]; rfl

theorem likeMatch_anySeq (items : List LikeItem) (a t : Str) (h : likeMatch items t = true) :
    likeMatch (LikeItem.anySeq :: items) (a ++ t) = true := by
  rw [likeMatch, List.any_eq_true]
  exact ⟨t, (List.mem_tails _ _).2 (List.suffix_append a t), h⟩

theorem likeMatch_self (items : List LikeItem) (b : Str) (h : likeMatch items b = true) :
    ∀ p : Str, likeMatch (p.map likeItem ++ items) (p ++ b) = true := by
  intro p
  induction p with
  | nil => exact h
  | cons c p ih =>
    rw [List.map_cons, List.cons_append, List.cons_append]
    by_cases h1 : c = '%'
    · have hi : likeItem c = LikeItem.anySeq := by unfold likeItem; rw [if_pos h1]
      rw [hi]
      exact likeMatch_anySeq _ [c] _ ih
    · by_cases h2 : c = '_'
      · have hi : likeItem c = LikeItem.anyOne := by unfold likeItem; rw [if_neg h1, if_pos h2]
        rw [hi, likeMatch]
        exact ih
      · have hi : likeItem c = LikeItem.lit c := by unfold likeItem; rw [if_neg h1, if_neg h2]
        rw [hi, likeMatch, ih, Bool.and_true]
        exact beq_self_eq_true c

theorem isPrefixOf_split (sub : Str) :
    ∀ t : Str, sub.isPrefixOf t = true → ∃ b, t = sub ++ b := by
  induction sub with
  | nil => intro t _; exact ⟨t, rfl⟩
  | cons c sub ih =>
    intro t h
    cases t with
    | nil => simp [List.isPrefixOf] at h
    | cons d t =>
      simp only [List.isPrefixOf, Bool.and_eq_true, beq_iff_eq] at h
      obtain ⟨b, hb⟩ := ih t h.2
      exact ⟨b, by rw [h.1, hb]; rfl⟩

theorem contains_split (s sub : Str) (h : contains s sub = true) :
    ∃ a b, s = a ++ (sub ++ b) := by
  unfold contains at h
  obtain ⟨t, ht, hp⟩ := List.any_eq_true.1 h
  obtain ⟨a, ha⟩ := (List.mem_tails _ _).1 ht
  obtain ⟨b, hb⟩ := isPrefixOf_split sub t hp
  exact ⟨a, b, by rw [← ha, hb]⟩

theorem pattern_fold (fold : Char → Char) (hpct : fold '%' = '%') (p : Str) :
    ('%' :: p ++ ['%']).map fold = '%' :: (p.map fold ++ ['%']) := by
  rw [List.cons_append, List.map_cons, List.map_append, List.map_cons, List.map_nil, hpct]

theorem pattern_plain (fold : Char → Char) (hesc : ∀ c, fold c = '\\' → c = '\\') (p : Str)
    (hp : '\\' ∉ p) : '\\' ∉ '%' :: (p.map fold ++ ['%']) := by
  intro hm
  rcases List.mem_cons.1 hm with h | h
  · exact absurd h (by decide)
  · rcases List.mem_append.1 h with h | h
    · obtain ⟨c, hc1, hc2⟩ := List.mem_map.1 h
      exact hp (hesc c hc2 ▸ hc1)
    · rw [List.mem_singleton] at h
      exact absurd h (by decide)

/-- A pattern `%p%` whose `p` has no backslash is well formed. -/
theorem ilike_defined (fold : Char → Char) (hpct : fold '%' = '%')
    (hesc : ∀ c, fold c = '\\' → c = '\\') (name p : Str) (hp : '\\' ∉ p) :
    ∃ a, ilike fold name ('%' :: p ++ ['%']) = some a := by
  unfold ilike
  rw [pattern_fold fold hpct, likeItems_plain _ (pattern_plain fold hesc p hp)]
  exact ⟨_, rfl⟩

/-- A pattern `%p%` whose `p` has no backslash matches every text that contains
`p`, both sides folded. -/
theorem ilike_of_contains (fold : Char → Char) (hpct : fold '%' = '%')
    (hesc : ∀ c, fold c = '\\' → c = '\\') (name p : Str) (hp : '\\' ∉ p)
    (hc : containsFold fold name p = true) :
    ilike fold name ('%' :: p ++ ['%']) = some true := by
  obtain ⟨a, b, hab⟩ := contains_split _ _ hc
  unfold ilike
  rw [pattern_fold fold hpct, likeItems_plain _ (pattern_plain fold hesc p hp), Option.map_some', hab, List.map_cons, List.map_append]
  have h1 : likeItem '%' = LikeItem.anySeq := rfl
  have h2 : (['%'] : Str).map likeItem = [LikeItem.anySeq] := rfl
  rw [h1, h2]
  refine congrArg some (likeMatch_anySeq _ a _ (likeMatch_self _ b ?_ _))
  have := likeMatch_anySeq [] b [] rfl
  rwa [List.append_nil] at this

theorem mem_replaceScan (old new : Str) (x : Char) :
    ∀ (s : Str) (k : Nat), x ∈ replaceScan old new k s → x ∈ new ∨ x ∈ s := by
  intro s
  induction s with
  | nil => intro k h; rw [replaceScan] at h; exact absurd h (List.not_mem_nil x)
  | cons c r ih =>
    intro k h
    cases k with
    | succ k =>
      rw [replaceScan] at h
      exact (ih k h).imp id (List.mem_cons_of_mem _)
    | zero =>
      rw [replaceScan] at h
      by_cases hp : old.isPrefixOf (c :: r) = true
      · rw [if_pos hp] at h
        rcases List.mem_append.1 h with h | h
        · exact Or.inl h
        · exact (ih _ h).imp id (List.mem_cons_of_mem _)
      · rw [if_neg hp] at h
        rcases List.mem_cons.1 h with h | h
        · exact Or.inr (h ▸ List.mem_cons_self _ _)
        · exact (ih _ h).imp id (List.mem_cons_of_mem _)

theorem mem_replaceAll (s old new : Str) (x : Char) (h : x ∈ replaceAll s old new) :
    x ∈ new ∨ x ∈ s := by
  unfold replaceAll at h
  by_cases h1 : old = new
  · rw [if_pos h1] at h; exact Or.inr h
  · rw [if_neg h1] at h
    by_cases h2 : old = []
    · rw [if_pos h2] at h
      rcases List.mem_append.1 h with h | h
      · exact Or.inl h
      · obtain ⟨c, hc, hx⟩ := List.mem_flatMap.1 h
        rcases List.mem_cons.1 hx with hx | hx
        · exact Or.inr (hx ▸ hc)
        · exact Or.inl hx
    · rw [if_neg h2] at h
      exact mem_replaceScan old new x s 0 h

/-- Transliteration brings in no backslash. -/
theorem translit_no_backslash (order1 order2 : List (Str × Str))
    (h1 : IsReplacementOrder order1) (h2 : IsReplacementOrder order2) (text : Str)
    (h : '\\' ∉ text) : '\\' ∉ translitToRussian order1 order2 text := by
  have himg : ∀ e, e ∈ replacements → '\\' ∉ e.2 := by decide
  have hfold : ∀ (step : Str → Str × Str → Str)
      (_ : ∀ (t : Str) (e : Str × Str), step t e = t ∨ step t e = replaceAll t e.1 e.2)
      (l : List (Str × Str)) (_ : ∀ e, e ∈ l → e ∈ replacements) (t : Str),
      '\\' ∉ t → '\\' ∉ l.foldl step t := by
    intro step hstep l
    induction l with
    | nil => intro _ t ht; exact ht
    | cons e l ih =>
      intro hl t ht
      rw [List.foldl_cons]
      refine ih (fun x hx => hl x (List.mem_cons_of_mem _ hx)) _ ?_
      rcases hstep t e with hs | hs
      · rw [hs]; exact ht
      · rw [hs]
        intro hm
        rcases mem_replaceAll _ _ _ _ hm with hm | hm
        · exact himg e (hl e (List.mem_cons_self _ _)) hm
        · exact ht hm
  unfold translitToRussian
  refine hfold replaceShort (fun t e => ?_) order2 (fun e he => h2.mem_iff.1 he) _
    (hfold replaceLong (fun t e => ?_) order1 (fun e he => h1.mem_iff.1 he) _ h)
  · unfold replaceShort
    by_cases hb : byteLen e.1 = 1
    · rw [if_pos hb]; exact Or.inr rfl
    · rw [if_neg hb]; exact Or.inl rfl
  · unfold replaceLong
    by_cases hb : byteLen e.1 > 1
    · rw [if_pos hb]; exact Or.inr rfl
    · rw [if_neg hb]; exact Or.inl rfl

/-- C14, as amended. For every text whose trimmed form `q` is not empty and has
no backslash, and every stored name: when the name contains `q` or the
transliteration of `q`, letter case ignored as the database folds it, the
condition of the search query holds for the name.  The folding is any map of
code points that keeps `%` and sends nothing but the backslash to the
backslash. -/
theorem C14_search_tries_both_forms (fold : Char → Char) (hpct : fold '%' = '%')
    (hesc : ∀ c, fold c = '\\' → c = '\\') (order1 order2 : List (Str × Str))
    (h1 : IsReplacementOrder order1) (h2 : IsReplacementOrder order2) (text name : Str)
    (hne : trimSpace text ≠ []) (hq : '\\' ∉ trimSpace text)
    (hc : containsFold fold name (trimSpace text) = true ∨
      containsFold fold name (translitToRussian order1 order2 (trimSpace text)) = true) :
    searchMatches fold order1 order2 text name = some (some true) := by
  have hr := translit_no_backslash order1 order2 h1 h2 _ hq
  unfold searchMatches
  simp only [if_neg hne]
  unfold searchCondition
  rcases hc with hc | hc
  · obtain ⟨b, hb⟩ := ilike_defined fold hpct hesc name _ hr
    rw [ilike_of_contains fold hpct hesc name _ hq hc, hb]
    rfl
  · obtain ⟨a, ha⟩ := ilike_defined fold hpct hesc name _ hq
    rw [ilike_of_contains fold hpct hesc name _ hr hc, ha]
    simp only [Bool.or_true]

theorem toLowerRune_backslash (c : Char) (h : toLowerRune c = '\\') : c = '\\' := by
  unfold toLowerRune at h
  simp only [] at h
  split_ifs at h with h1 h2 h3 h4
  · obtain ⟨a, b⟩ := h1
    generalize c.toNat = n at *
    interval_cases n <;> exact absurd h (by decide)
  · obtain ⟨a, b, -⟩ := h2
    generalize c.toNat = n at *
    interval_cases n <;> exact absurd h (by decide)
  · obtain ⟨a, b⟩ := h3
    generalize c.toNat = n at *
    interval_cases n <;> exact absurd h (by decide)
  · obtain ⟨a, b⟩ := h4
    generalize c.toNat = n at *
    interval_cases n <;> exact absurd h (by decide)
  · exact h

set_option maxRecDepth 100000 in
/-- Witness for C14: the query `aspirin`, typed in Latin letters, and the stored
name `Аспирин 500`, with the lower-casing of `strings.ToLower` as the folding. -/
theorem C14_search_tries_both_forms_witness :
    containsFold toLowerRune "Аспирин 500".toList
        (translitToRussian replacements replacements (trimSpace " aspirin ".toList)) = true ∧
      searchMatches toLowerRune replacements replacements " aspirin ".toList
        "Аспирин 500".toList = some (some true) :=
  ⟨by rfl, C14_search_tries_both_forms toLowerRune (by rfl) toLowerRune_backslash
    replacements replacements (List.Perm.refl _) (List.Perm.refl _) " aspirin ".toList
    "Аспирин 500".toList (by decide) (by decide) (Or.inr (by rfl))⟩

set_option maxRecDepth 100000 in
/-- C14 as stated fails at the query and stored name `\`: the name contains the
query, but in the pattern `%\%` the backslash makes the last `%` stand for
itself, and the condition of the search query is false. -/
theorem C14_backslash_query_counterexample :
    trimSpace "\\".toList = "\\".toList ∧ "\\".toList ≠ [] ∧
      containsFold toLowerRune "\\".toList "\\".toList = true ∧
      searchMatches toLowerRune replacements replacements "\\".toList "\\".toList =
        some (some false) :=
  ⟨by rfl, by decide, by rfl, by rfl⟩

/-- C15, at the sheet row with the cells `1`, two empty cells, `3`, `4`, `5`: the
row is flattened to `1   3 4 5`, the fallback pattern matches it with the name
group on the middle space, the name trims to the empty string, and the record
handed to `batchInsertMedicines`, and stored, has an empty name. -/
theorem C15_record_with_empty_name :
    flattenRows [["1".toList, [], [], "3".toList, "4".toList, "5".toList]] =
        ["1   3 4 5".toList] ∧
      matchPieces pattern1 "1   3 4 5".toList = none ∧
      matchPieces pattern2 "1   3 4 5".toList =
        some ["1".toList, " ".toList, "3".toList, "4".toList, []] ∧
      parseRowData "1   3 4 5".toList = ⟨1, [], 3, 4, [], true⟩ ∧
      (UploadExcel emptyDB [] emptyCellsSheet [] [] "1".toList "A".toList 1
        (fun _ => categories) id).medicines =
        [⟨[], 4, 3, "Unknown".toList, "1".toList, "A".toList, "Shifo-dori vositasi".toList,
          "Boshqa".toList, 1⟩] ∧
      (UploadExcel emptyDB [] emptyCellsSheet [] [] "1".toList "A".toList 1
        (fun _ => categories) id).err = none ∧
      (UploadExcel emptyDB [] emptyCellsSheet [] [] "1".toList "A".toList 1
        (fun _ => categories) id).store =
        [⟨[], 1, 4, 3, "Unknown".toList, "1".toList, "A".toList, "Shifo-dori vositasi".toList,
          "Boshqa".toList, 0⟩] := by
  refine ⟨by rfl, by rfl, by rfl, by rfl, by rfl, by rfl, by rfl⟩

/-- What the mantissa loop has seen when it consumes a whole text that has no
underscore: digits and at most one point. -/
theorem scanMant_all (t : Str) (hu : '_' ∉ t) :
    ∀ (m f : Nat) (dot dig us : Bool), (scanMant false t m f dot dig us).rest = [] →
      t.all (fun c => isDigit c || c == '.') = true ∧ (dot = true → t.count '.' = 0) ∧
        t.count '.' ≤ 1 ∧
        (scanMant false t m f dot dig us).sawdigits = (dig || t.any isDigit) := by
  induction t with
  | nil => intro m f dot dig us _; simp [scanMant]
  | cons c r ih =>
    intro m f dot dig us h
    have hc : c ≠ '_' := fun e => hu (e ▸ List.mem_cons_self _ _)
    have hr : '_' ∉ r := fun e => hu (List.mem_cons_of_mem _ e)
    rw [scanMant, if_neg hc] at h ⊢
    by_cases hp : c = '.'
    · rw [if_pos hp] at h ⊢
      cases dot with
      | true => exact absurd h (by simp)
      | false =>
        simp only [Bool.false_eq_true, if_false] at h ⊢
        obtain ⟨h1, h2, -, h4⟩ := ih hr m f true dig us h
        have h2 := h2 rfl
        subst hp
        refine ⟨?_, fun e => absurd e (by decide), ?_, ?_⟩
        · simp [h1]
        · rw [List.count_cons_self, h2]
        · rw [h4]
          simp [isDigit]
    · rw [if_neg hp] at h ⊢
      by_cases hd : isDigit c = true
      · rw [if_pos hd] at h ⊢
        obtain ⟨h1, h2, h3, h4⟩ := ih hr _ _ dot true us h
        refine ⟨?_, fun e => ?_, ?_, ?_⟩
        · simp [h1, hd]
        · rw [List.count_cons_of_ne (fun e => hp e.symm)]; exact h2 e
        · rw [List.count_cons_of_ne (fun e => hp e.symm)]; exact h3
        · rw [h4]; simp [hd]
      · rw [if_neg hd] at h
        simp only [Bool.false_and, Bool.false_eq_true, if_false] at h
        exact absurd h (by simp)

theorem numberChar_toNat (c : Char)
    (h : isDigit c = true ∨ c = '.' ∨ isSpace c = true) :
    (9 ≤ c.toNat ∧ c.toNat ≤ 13) ∨ c.toNat = 32 ∨ c.toNat = 46 ∨
      (48 ≤ c.toNat ∧ c.toNat ≤ 57) ∨ 133 ≤ c.toNat := by
  rcases h with h | h | h
  · simp only [isDigit, Bool.and_eq_true, decide_eq_true_eq] at h
    omega
  · subst h
    decide
  · simp only [isSpace, Bool.or_eq_true, Bool.and_eq_true, decide_eq_true_eq] at h
    omega

theorem scanMant_rest_mem (hex : Bool) (t : Str) :
    ∀ (m f : Nat) (dot dig us : Bool) (d : Char),
      d ∈ (scanMant hex t m f dot dig us).rest → d ∈ t := by
  induction t with
  | nil => intro m f dot dig us d h; simp [scanMant] at h
  | cons c r ih =>
    intro m f dot dig us d h
    rw [scanMant] at h
    split_ifs at h <;>
      first
      | exact h
      | exact List.mem_cons_of_mem _ (ih _ _ _ _ _ d h)

theorem parseSpecial_of_head (c : Char) (r : Str) (hl : asciiLower c = c)
    (hne : c ≠ 'i' ∧ c ≠ 'n' ∧ c ≠ '+' ∧ c ≠ '-') : parseSpecial (c :: r) = none := by
  have key : ∀ (d : Char) (t : Str), c ≠ d → (c :: r).map asciiLower ≠ d :: t := by
    intro d t hd he
    rw [List.map_cons, hl] at he
    injection he with e1 e2
    exact hd e1
  unfold parseSpecial
  simp only
  rw [if_neg, if_neg, if_neg]
  · exact key _ _ hne.2.1
  · rintro (h | h)
    · exact key _ _ hne.2.2.2 h
    · exact key _ _ hne.2.2.2 h
  · rintro (h | h | h | h)
    · exact key _ _ hne.1 h
    · exact key _ _ hne.1 h
    · exact key _ _ hne.2.2.1 h
    · exact key _ _ hne.2.2.1 h

/-- `ParseFloat` reports a syntax error on every text of digits, points and white
space that is not a decimal numeral. -/
theorem parseFloat_not_numeral (t : Str)
    (ht : ∀ c, c ∈ t → isDigit c = true ∨ c = '.' ∨ isSpace c = true)
    (hn : isDecimalNumeral t = false) : parseFloat t = none := by
  have hne : ∀ (c d : Char), c ∈ t → 58 ≤ d.toNat → d.toNat ≤ 132 → c ≠ d := by
    intro c d hc h1 h2 e
    have := numberChar_toNat c (ht c hc)
    rw [e] at this
    omega
  have hsign : ∀ c, c ∈ t → c ≠ '+' ∧ c ≠ '-' := by
    intro c hc
    have := numberChar_toNat c (ht c hc)
    constructor
    · intro e; rw [e] at this; revert this; decide
    · intro e; rw [e] at this; revert this; decide
  cases t with
  | nil => rfl
  | cons c r =>
    have hc := List.mem_cons_self c r
    have hl : asciiLower c = c := by
      have := numberChar_toNat c (ht c hc)
      unfold asciiLower
      rw [if_neg (by omega)]
    have h1 : parseSpecial (c :: r) = none :=
      parseSpecial_of_head c r hl
        ⟨hne c 'i' hc (by decide) (by decide), hne c 'n' hc (by decide) (by decide),
          (hsign c hc).1, (hsign c hc).2⟩
    have h2 : splitSign (c :: r) = (false, c :: r) := by
      rw [splitSign, if_neg (hsign c hc).1, if_neg (hsign c hc).2]
    have h3 : splitHex (c :: r) = (false, c :: r) := by
      apply splitHex_digits
      intro x hx
      have hxr : x ∈ c :: r := List.mem_cons_of_mem _ (List.mem_of_mem_head? hx)
      exact ⟨hne x 'x' hxr (by decide) (by decide), hne x 'X' hxr (by decide) (by decide)⟩
    have hu : '_' ∉ c :: r := fun hm => hne '_' '_' hm (by decide) (by decide) rfl
    unfold parseFloat
    rw [h1]
    simp only [h2, h3]
    by_cases hs : (scanMant false (c :: r) 0 0 false false false).sawdigits = true
    · rw [hs]
      simp only [Bool.not_true, Bool.false_eq_true, if_false]
      cases hrest : (scanMant false (c :: r) 0 0 false false false).rest with
      | nil =>
        obtain ⟨a1, -, a3, a4⟩ := scanMant_all (c :: r) hu 0 0 false false false hrest
        rw [hs, Bool.false_or] at a4
        have : isDecimalNumeral (c :: r) = true := by
          unfold isDecimalNumeral
          rw [a1, ← a4, Bool.and_self, Bool.true_and, decide_eq_true_eq]
          exact a3
        rw [this] at hn
        exact absurd hn (by decide)
      | cons d r1 =>
        have hd : d ∈ c :: r :=
          scanMant_rest_mem false (c :: r) 0 0 false false false d
            (hrest ▸ List.mem_cons_self d r1)
        have he : asciiLowerEq d 'e' = false := by
          have := numberChar_toNat d (ht d hd)
          unfold asciiLowerEq
          rw [Bool.or_eq_false_iff]
          constructor
          · exact decide_eq_false (hne d 'e' hd (by decide) (by decide))
          · apply decide_eq_false
            have h101 : ('e' : Char).toNat = 101 := by decide
            rw [h101]
            omega
        simp only [Bool.false_eq_true, if_false, he]
    · rw [Bool.not_eq_true] at hs
      rw [hs]
      rfl

theorem mem_trimSpace (s : Str) (c : Char) (h : c ∈ trimSpace s) : c ∈ s := by
  unfold trimSpace at h
  rw [List.mem_reverse] at h
  have h1 := (List.dropWhile_sublist isSpace).subset h
  rw [List.mem_reverse] at h1
  exact (List.dropWhile_sublist isSpace).subset h1

/-- On numeric text that does not normalise to a decimal numeral `parseNumber`
returns 0. -/
theorem parseNumber_not_numeral (s : Str) (hs : ∀ c, c ∈ s → isNumberChar c = true)
    (hn : isDecimalNumeral (normalizeNumber s) = false) : parseNumber s = 0 := by
  have ht : ∀ c, c ∈ normalizeNumber s → isDigit c = true ∨ c = '.' ∨ isSpace c = true := by
    intro c hc
    unfold normalizeNumber commaToPoint at hc
    obtain ⟨d, hd, hdc⟩ := List.mem_map.1 hc
    unfold removeSpaces at hd
    have hd1 := mem_trimSpace s d (List.mem_filter.1 hd).1
    have := hs d hd1
    simp only [isNumberChar, Bool.or_eq_true, beq_iff_eq] at this
    by_cases hcm : d = ','
    · rw [if_pos hcm] at hdc
      exact Or.inr (Or.inl hdc.symm)
    · rw [if_neg hcm] at hdc
      subst hdc
      rcases this with ((h | h) | h) | h
      · exact Or.inl h
      · exact absurd h hcm
      · exact Or.inr (Or.inl h)
      · exact Or.inr (Or.inr h)
  rw [parseNumber_of_norm s (normalizeNumber s) rfl, parseFloat_not_numeral _ ht hn]

theorem parseRowData_eq (rowStr : Str) :
    parseRowData rowStr =
      match rowMatch rowStr with
      | some submatches => Parsed.ofMatch submatches
      | none => Parsed.zero := by
  unfold parseRowData rowMatch
  simp only
  by_cases he : trimSpace rowStr = []
  · rw [if_pos he, he]
    rfl
  · rw [if_neg he]
    cases matchPieces pattern1 (trimSpace rowStr) with
    | some caps => rfl
    | none => rfl

theorem mem_take_of_le_takeWhile (q : Char → Bool) :
    ∀ (s : Str) (n : Nat), n ≤ (s.takeWhile q).length → ∀ c, c ∈ s.take n → q c = true := by
  intro s
  induction s with
  | nil => intro n _ c hc; simp at hc
  | cons a s ih =>
    intro n hn c hc
    cases n with
    | zero => simp at hc
    | succ n =>
      by_cases ha : q a = true
      · rw [List.takeWhile_cons_of_pos ha, List.length_cons] at hn
        rw [List.take_succ_cons] at hc
        rcases List.mem_cons.1 hc with h | h
        · rw [h]; exact ha
        · exact ih n (by omega) c h
      · rw [List.takeWhile_cons_of_neg ha] at hn
        simp at hn

/-- Every capture of a match is made of code points of the class of its group. -/
theorem matchPieces_caps_class (ps : List Piece) :
    ∀ (s : Str) (caps : List Str), matchPieces ps s = some caps →
      List.Forall₂ (fun (p : Piece) (cap : Str) => ∀ c, c ∈ cap → p.cls c = true)
        (ps.filter (fun p => p.cap)) caps := by
  induction ps with
  | nil =>
    intro s caps h
    rw [matchPieces] at h
    by_cases hs : s = []
    · rw [if_pos hs] at h
      injection h with h
      rw [← h]
      exact List.Forall₂.nil
    · rw [if_neg hs] at h
      exact absurd h (by simp)
  | cons p ps ih =>
    intro s caps h
    obtain ⟨n, caps1, -, hn, h1, hc⟩ := matchPieces_cons_some p ps s caps h
    have := ih _ _ h1
    by_cases hp : p.cap = true
    · rw [hc, if_pos hp, List.filter_cons, if_pos hp]
      exact List.Forall₂.cons (mem_take_of_le_takeWhile p.cls s n hn) this
    · rw [hc, if_neg hp, List.filter_cons, if_neg hp]
      exact this

/-- The five submatches of a row that one of the patterns matches, the classes of
the count and price texts, and the results `parseRowData` makes of them. -/
theorem rowMatch_some (rowStr : Str) (caps : List Str) (h : rowMatch rowStr = some caps) :
    ∃ m1 m2 m3 m4 m5, caps = [m1, m2, m3, m4, m5] ∧
      (∀ c, c ∈ m3 → reDigitComma c = true) ∧ (∀ c, c ∈ m4 → reDigitSpaceComma c = true) ∧
      parseRowData rowStr =
        ⟨atoi m1, trimSpace m2, parseNumber m3, parseNumber m4, trimSpace m5, true⟩ := by
  have key : ∀ p1 p2 p3 p4 p5 : Piece,
      List.Forall₂ (fun (p : Piece) (cap : Str) => ∀ c, c ∈ cap → p.cls c = true)
        [p1, p2, p3, p4, p5] caps →
      ∃ m1 m2 m3 m4 m5, caps = [m1, m2, m3, m4, m5] ∧
        (∀ c, c ∈ m3 → p3.cls c = true) ∧ (∀ c, c ∈ m4 → p4.cls c = true) := by
    intro p1 p2 p3 p4 p5 hf
    obtain ⟨m1, u1, -, g1, e1⟩ := List.forall₂_cons_left_iff.1 hf
    obtain ⟨m2, u2, -, g2, e2⟩ := List.forall₂_cons_left_iff.1 g1
    obtain ⟨m3, u3, f3, g3, e3⟩ := List.forall₂_cons_left_iff.1 g2
    obtain ⟨m4, u4, f4, g4, e4⟩ := List.forall₂_cons_left_iff.1 g3
    obtain ⟨m5, u5, -, g5, e5⟩ := List.forall₂_cons_left_iff.1 g4
    rw [List.forall₂_nil_left_iff] at g5
    exact ⟨m1, m2, m3, m4, m5, by rw [e1, e2, e3, e4, e5, g5], f3, f4⟩
  have hform : ∃ m1 m2 m3 m4 m5, caps = [m1, m2, m3, m4, m5] ∧
      (∀ c, c ∈ m3 → reDigitComma c = true) ∧
      (∀ c, c ∈ m4 → reDigitSpaceComma c = true) := by
    unfold rowMatch at h
    cases h1 : matchPieces pattern1 (trimSpace rowStr) with
    | some caps1 =>
      rw [h1] at h
      injection h with h
      subst h
      exact key _ _ _ _ _ (matchPieces_caps_class pattern1 _ _ h1)
    | none =>
      rw [h1] at h
      exact key _ _ _ _ _ (matchPieces_caps_class pattern2 _ _ h)
  obtain ⟨m1, m2, m3, m4, m5, hc, h3, h4⟩ := hform
  refine ⟨m1, m2, m3, m4, m5, hc, h3, h4, ?_⟩
  rw [parseRowData_eq, h, hc]
  rfl

/-- C16, as amended. On every text made of digits, commas, points and white
space that is not a decimal numeral after trimming, removing spaces and
replacing commas by points, `parseNumber` returns 0; and for every row that one
of the two patterns matches, `parseRowData` returns ok with count and price the
`parseNumber` of their texts, hence 0 for a count or price text that is not a
decimal numeral (the patterns capture digits, commas and white space only). -/
theorem C16_unparseable_numeric_text_is_zero :
    (∀ s : Str, (∀ c, c ∈ s → isNumberChar c = true) →
      isDecimalNumeral (normalizeNumber s) = false → parseNumber s = 0) ∧
    (∀ (rowStr : Str) (caps : List Str), rowMatch rowStr = some caps →
      ∃ m1 m2 m3 m4 m5, caps = [m1, m2, m3, m4, m5] ∧ (parseRowData rowStr).ok = true ∧
        (parseRowData rowStr).count = parseNumber m3 ∧
        (parseRowData rowStr).price = parseNumber m4 ∧
        (isDecimalNumeral (normalizeNumber m3) = false → (parseRowData rowStr).count = 0) ∧
        (isDecimalNumeral (normalizeNumber m4) = false → (parseRowData rowStr).price = 0)) := by
  refine ⟨parseNumber_not_numeral, fun rowStr caps h => ?_⟩
  obtain ⟨m1, m2, m3, m4, m5, hc, h3, h4, hp⟩ := rowMatch_some rowStr caps h
  refine ⟨m1, m2, m3, m4, m5, hc, by rw [hp], by rw [hp], by rw [hp], fun hn => ?_, fun hn => ?_⟩
  · rw [hp]
    refine parseNumber_not_numeral m3 (fun c hm => ?_) hn
    have := h3 c hm
    simp only [reDigitComma, reDigit, Bool.or_eq_true, decide_eq_true_eq] at this
    simp only [isNumberChar, Bool.or_eq_true, beq_iff_eq]
    rcases this with h | h
    · exact Or.inl (Or.inl (Or.inl h))
    · exact Or.inl (Or.inl (Or.inr h))
  · rw [hp]
    refine parseNumber_not_numeral m4 (fun c hm => ?_) hn
    have := h4 c hm
    simp only [reDigitSpaceComma, reDigit, Bool.or_eq_true, decide_eq_true_eq] at this
    simp only [isNumberChar, Bool.or_eq_true, beq_iff_eq]
    rcases this with (h | h) | h
    · exact Or.inl (Or.inl (Or.inl h))
    · exact Or.inr (reSpace_isSpace c h)
    · exact Or.inl (Or.inl (Or.inr h))

/-- Witness for C16: the text `1,2,3`, and the row `1 Аспирин 1,2,3 1500 30000
Bayer`, whose count text it is. -/
theorem C16_unparseable_numeric_text_is_zero_witness :
    parseNumber "1,2,3".toList = 0 ∧
      rowMatch "1 Аспирин 1,2,3 1500 30000 Bayer".toList =
        some ["1".toList, "Аспирин".toList, "1,2,3".toList, "1500".toList, "Bayer".toList] ∧
      ∃ m1 m2 m3 m4 m5,
        ["1".toList, "Аспирин".toList, "1,2,3".toList, "1500".toList, "Bayer".toList] =
          [m1, m2, m3, m4, m5] ∧
        (parseRowData "1 Аспирин 1,2,3 1500 30000 Bayer".toList).ok = true ∧
        (parseRowData "1 Аспирин 1,2,3 1500 30000 Bayer".toList).count = parseNumber m3 ∧
        (parseRowData "1 Аспирин 1,2,3 1500 30000 Bayer".toList).price = parseNumber m4 ∧
        (isDecimalNumeral (normalizeNumber m3) = false →
          (parseRowData "1 Аспирин 1,2,3 1500 30000 Bayer".toList).count = 0) ∧
        (isDecimalNumeral (normalizeNumber m4) = false →
          (parseRowData "1 Аспирин 1,2,3 1500 30000 Bayer".toList).price = 0) :=
  ⟨C16_unparseable_numeric_text_is_zero.1 "1,2,3".toList (by decide) (by decide), by rfl,
    C16_unparseable_numeric_text_is_zero.2 "1 Аспирин 1,2,3 1500 30000 Bayer".toList _ (by rfl)⟩

/-- C16 as stated fails at the texts `0x1p4` and `1e3`: neither is a decimal
numeral after normalisation, yet `ParseFloat` accepts the first as a hexadecimal
and the second as an exponent form, and `parseNumber` returns 16 and 1000. -/
theorem C16_accepted_text_counterexample :
    normalizeNumber "0x1p4".toList = "0x1p4".toList ∧
      isDecimalNumeral "0x1p4".toList = false ∧ parseNumber "0x1p4".toList = 16 ∧
      normalizeNumber "1e3".toList = "1e3".toList ∧
      isDecimalNumeral "1e3".toList = false ∧ parseNumber "1e3".toList = 1000 :=
  ⟨by rfl, by decide, by rfl, by rfl, by decide, by rfl⟩

/-- A property that every record built from an accepted row has holds of every
record of the map after the row loop. -/
theorem uploadLoop_all (P : Medicine → Prop) (orders : Nat → List (Str × List Str))
    (phone address : Str) (pharmacyID : Int) (rows : List Str) :
    (∀ rowStr, rowStr ∈ rows → accepted rowStr = true →
      ∀ order, P (buildRecord order phone address pharmacyID rowStr)) →
    ∀ (st : LoopState) (i : Nat), (∀ e, e ∈ st.medicinesMap → P e.2) →
      ∀ e, e ∈ (uploadLoop orders phone address pharmacyID st i rows).medicinesMap → P e.2 := by
  induction rows with
  | nil => intro _ st i h; exact h
  | cons rowStr rest ih =>
    intro hP st i h
    rw [uploadLoop]
    apply ih (fun r hr => hP r (List.mem_cons_of_mem _ hr))
    intro e he
    cases hacc : accepted rowStr with
    | false =>
      rw [uploadStep_rejected _ _ _ _ _ _ _ hacc] at he
      exact h e he
    | true =>
      rw [(uploadStep_accepted (orders i) phone address pharmacyID st i rowStr hacc).1] at he
      rcases mem_mapSet _ _ _ _ he with h1 | h1
      · rw [h1]; exact hP rowStr (List.mem_cons_self _ _) hacc _
      · exact h e h1

/-- The slice `UploadExcel` hands to `batchInsertMedicines`. -/
theorem UploadExcel_medicines (db : DB) (fileName : Str) (rows : List (List Str))
    (botToken chatID phone address : Str) (pharmacyID : Int)
    (orders : Nat → List (Str × List Str)) (sliceOrder : List Medicine → List Medicine) :
    (UploadExcel db fileName (SheetRead.rows rows) botToken chatID phone address pharmacyID
      orders sliceOrder).medicines =
        sliceOrder (loopRecords orders phone address pharmacyID rows) ∧
    (UploadExcel db fileName (SheetRead.rows rows) botToken chatID phone address pharmacyID
      orders sliceOrder).loop =
        uploadLoop orders phone address pharmacyID LoopState.init 0 (flattenRows rows) := by
  unfold UploadExcel loopRecords
  simp only
  generalize sliceOrder ((uploadLoop orders phone address pharmacyID LoopState.init 0
    (flattenRows rows)).medicinesMap.map Prod.snd) = meds
  by_cases hl : meds.length > 0
  · rw [if_pos hl]
    cases he : (batchInsertMedicines db meds).err with
    | none => exact ⟨rfl, rfl⟩
    | some e => exact ⟨rfl, rfl⟩
  · rw [if_neg hl]
    exact ⟨rfl, rfl⟩

theorem accepted_rowMatch (rowStr : Str) (h : accepted rowStr = true) :
    ∃ m1 m2 m3 m4 m5, rowMatch rowStr = some [m1, m2, m3, m4, m5] ∧
      parseRowData rowStr =
        ⟨atoi m1, trimSpace m2, parseNumber m3, parseNumber m4, trimSpace m5, true⟩ := by
  have hok : (parseRowData rowStr).ok = true := by
    simp only [accepted, Bool.and_eq_true] at h
    exact h.1
  cases hm : rowMatch rowStr with
  | none =>
    rw [parseRowData_eq, hm] at hok
    exact absurd hok (by decide)
  | some caps =>
    obtain ⟨m1, m2, m3, m4, m5, hc, -, -, hp⟩ := rowMatch_some rowStr caps hm
    exact ⟨m1, m2, m3, m4, m5, by rw [hc], hp⟩

theorem buildRecord_manufacturer (order : List (Str × List Str)) (phone address : Str)
    (pharmacyID : Int) (rowStr : Str) :
    (buildRecord order phone address pharmacyID rowStr).Manufacturer =
        (if (parseRowData rowStr).manufacturer = [] then "Unknown".toList
          else (parseRowData rowStr).manufacturer) ∧
      (buildRecord order phone address pharmacyID rowStr).Manufacturer ≠ [] := by
  have h1 : (buildRecord order phone address pharmacyID rowStr).Manufacturer =
      (if (parseRowData rowStr).manufacturer = [] then "Unknown".toList
        else (parseRowData rowStr).manufacturer) := rfl
  refine ⟨h1, ?_⟩
  rw [h1]
  by_cases hm : (parseRowData rowStr).manufacturer = []
  · rw [if_pos hm]; decide
  · rw [if_neg hm]; exact hm

theorem insertLoop_store_of_err (db : DB) (medicines : List Medicine) :
    ∀ (fuel i saved : Nat) (tx : Store) (issued : List (List Medicine)),
      (insertLoop db medicines fuel i saved tx issued).err ≠ none →
      (insertLoop db medicines fuel i saved tx issued).store = db.store := by
  intro fuel
  induction fuel with
  | zero => intro i saved tx issued _; rfl
  | succ fuel ih =>
    intro i saved tx issued h
    rw [insertLoop] at h ⊢
    by_cases hi : i < medicines.length
    · rw [if_pos hi] at h ⊢
      simp only at h ⊢
      cases he : db.execErr issued.length (slice medicines i
        (if i + 100 > medicines.length then medicines.length else i + 100)) with
      | some e => rfl
      | none =>
        rw [he] at h
        exact ih _ _ _ _ h
    · rw [if_neg hi] at h ⊢
      cases hc : db.commitErr with
      | some e => rfl
      | none =>
        rw [hc] at h
        exact absurd rfl h

/-- A call of `batchInsertMedicines` that returns an error leaves the table as it
was. -/
theorem batchInsert_store_of_err (db : DB) (medicines : List Medicine)
    (h : (batchInsertMedicines db medicines).err ≠ none) :
    (batchInsertMedicines db medicines).store = db.store := by
  unfold batchInsertMedicines at h ⊢
  by_cases hl : medicines.length = 0
  · rw [if_pos hl]
  · rw [if_neg hl] at h ⊢
    cases hb : db.beginErr with
    | some e => rfl
    | none =>
      rw [hb] at h
      exact insertLoop_store_of_err db medicines _ _ _ _ _ h

/-- C18, as amended. Whenever the call of `batchInsertMedicines` that
`UploadExcel` makes returns an error with message `e`, `UploadExcel` returns an
error whose message is `batch insert xato: ` followed by `e`, no notification is
sent, and the table is left as it was. -/
theorem C18_upsert_failure_is_wrapped (db : DB) (fileName : Str) (fileData : SheetRead)
    (botToken chatID phone address : Str) (pharmacyID : Int)
    (orders : Nat → List (Str × List Str)) (sliceOrder : List Medicine → List Medicine)
    (out : BatchOutcome) (e : Str)
    (hcall : (UploadExcel db fileName fileData botToken chatID phone address pharmacyID orders
      sliceOrder).batch = some out)
    (herr : out.err = some e) :
    out = batchInsertMedicines db (UploadExcel db fileName fileData botToken chatID phone
        address pharmacyID orders sliceOrder).medicines ∧
      (UploadExcel db fileName fileData botToken chatID phone address pharmacyID orders
        sliceOrder).err = some ("batch insert xato: ".toList ++ e) ∧
      (UploadExcel db fileName fileData botToken chatID phone address pharmacyID orders
        sliceOrder).notification = none ∧
      (UploadExcel db fileName fileData botToken chatID phone address pharmacyID orders
        sliceOrder).store = db.store := by
  cases fileData with
  | fileErr x => exact absurd hcall (by simp [UploadExcel])
  | openErr x => exact absurd hcall (by simp [UploadExcel])
  | noSheet => exact absurd hcall (by simp [UploadExcel])
  | rowsErr x => exact absurd hcall (by simp [UploadExcel])
  | rows rows =>
    unfold UploadExcel at hcall ⊢
    simp only at hcall ⊢
    generalize sliceOrder ((uploadLoop orders phone address pharmacyID LoopState.init 0
      (flattenRows rows)).medicinesMap.map Prod.snd) = meds at hcall ⊢
    by_cases hl : meds.length > 0
    · rw [if_pos hl] at hcall ⊢
      cases he : (batchInsertMedicines db meds).err with
      | none =>
        rw [he] at hcall
        simp only [Option.some.injEq] at hcall
        rw [← hcall, he] at herr
        exact absurd herr (by simp)
      | some e1 =>
        rw [he] at hcall
        simp only [Option.some.injEq] at hcall
        rw [← hcall, he] at herr
        injection herr with herr
        subst herr
        refine ⟨hcall.symm, rfl, rfl, ?_⟩
        exact batchInsert_store_of_err db meds (by rw [he]; simp)
    · rw [if_neg hl] at hcall
      exact absurd hcall (by simp)

/-- Witness for C18: a sheet of one row and a database whose insert statement
fails. -/
theorem C18_upsert_failure_is_wrapped_witness :
    (UploadExcel failingDB [] clotrimazoleSheet "t".toList "c".toList "1".toList "A".toList 1
        (fun _ => categories) id).batch =
        some (batchInsertMedicines failingDB (UploadExcel failingDB [] clotrimazoleSheet
          "t".toList "c".toList "1".toList "A".toList 1 (fun _ => categories) id).medicines) ∧
      (UploadExcel failingDB [] clotrimazoleSheet "t".toList "c".toList "1".toList "A".toList 1
        (fun _ => categories) id).err =
        some ("batch insert xato: ".toList ++ "batch insert xato: connection reset".toList) ∧
      (UploadExcel failingDB [] clotrimazoleSheet "t".toList "c".toList "1".toList "A".toList 1
        (fun _ => categories) id).notification = none :=
  ⟨by rfl,
    (C18_upsert_failure_is_wrapped failingDB [] clotrimazoleSheet "t".toList "c".toList
      "1".toList "A".toList 1 (fun _ => categories) id _
      "batch insert xato: connection reset".toList (by rfl) (by rfl)).2.1,
    (C18_upsert_failure_is_wrapped failingDB [] clotrimazoleSheet "t".toList "c".toList
      "1".toList "A".toList 1 (fun _ => categories) id _
      "batch insert xato: connection reset".toList (by rfl) (by rfl)).2.2.1⟩

/-- C18 as stated fails at a sheet of one row and a database whose insert
statement fails with `connection reset`: `batchInsertMedicines` returns the
message `batch insert xato: connection reset`, and `UploadExcel` returns another
message, that one with `batch insert xato: ` put before it. -/
theorem C18_message_not_verbatim_counterexample :
    (batchInsertMedicines failingDB (UploadExcel failingDB [] clotrimazoleSheet "t".toList
        "c".toList "1".toList "A".toList 1 (fun _ => categories) id).medicines).err =
        some "batch insert xato: connection reset".toList ∧
      (UploadExcel failingDB [] clotrimazoleSheet "t".toList "c".toList "1".toList "A".toList 1
        (fun _ => categories) id).err =
        some "batch insert xato: batch insert xato: connection reset".toList ∧
      (UploadExcel failingDB [] clotrimazoleSheet "t".toList "c".toList "1".toList "A".toList 1
        (fun _ => categories) id).err ≠ some "batch insert xato: connection reset".toList :=
  ⟨by rfl, by rfl, by decide⟩

theorem slice_sublist (medicines : List Medicine) (i stop : Nat) :
    (slice medicines i stop).Sublist medicines :=
  (List.take_sublist _ _).trans (List.drop_sublist _ _)

/-- Every statement `batchInsertMedicines` issues carries a run of the input, in
order. -/
theorem insertLoop_issued_sublist (db : DB) (medicines : List Medicine) :
    ∀ (fuel i saved : Nat) (tx : Store) (issued : List (List Medicine)),
      (∀ s, s ∈ issued → s.Sublist medicines) →
      ∀ s, s ∈ (insertLoop db medicines fuel i saved tx issued).issued → s.Sublist medicines := by
  intro fuel
  induction fuel with
  | zero => intro i saved tx issued h; exact h
  | succ fuel ih =>
    intro i saved tx issued h
    have hext : ∀ stop, ∀ s, s ∈ issued ++ [slice medicines i stop] → s.Sublist medicines := by
      intro stop s hs
      rcases List.mem_append.1 hs with h1 | h1
      · exact h s h1
      · rw [List.mem_singleton] at h1
        rw [h1]
        exact slice_sublist medicines i stop
    rw [insertLoop]
    by_cases hi : i < medicines.length
    · rw [if_pos hi]
      simp only
      cases he : db.execErr issued.length (slice medicines i
        (if i + 100 > medicines.length then medicines.length else i + 100)) with
      | some e => exact hext _
      | none => exact ih _ _ _ _ (hext _)
    · rw [if_neg hi]
      cases hc : db.commitErr with
      | some e => exact h
      | none => exact h

theorem batchInsert_issued_sublist (db : DB) (medicines : List Medicine) :
    ∀ s, s ∈ (batchInsertMedicines db medicines).issued → s.Sublist medicines := by
  unfold batchInsertMedicines
  by_cases hl : medicines.length = 0
  · rw [if_pos hl]
    intro s hs
    exact absurd hs (List.not_mem_nil s)
  · rw [if_neg hl]
    cases hb : db.beginErr with
    | some e => intro s hs; exact absurd hs (List.not_mem_nil s)
    | none =>
      exact insertLoop_issued_sublist db medicines _ _ _ _ _
        (fun s hs => absurd hs (List.not_mem_nil s))

theorem UploadExcel_batch (db : DB) (fileName : Str) (rows : List (List Str))
    (botToken chatID phone address : Str) (pharmacyID : Int)
    (orders : Nat → List (Str × List Str)) (sliceOrder : List Medicine → List Medicine)
    (out : BatchOutcome)
    (h : (UploadExcel db fileName (SheetRead.rows rows) botToken chatID phone address
      pharmacyID orders sliceOrder).batch = some out) :
    out = batchInsertMedicines db
      (sliceOrder (loopRecords orders phone address pharmacyID rows)) := by
  unfold UploadExcel loopRecords at *
  simp only at h ⊢
  generalize sliceOrder ((uploadLoop orders phone address pharmacyID LoopState.init 0
    (flattenRows rows)).medicinesMap.map Prod.snd) = meds at h ⊢
  by_cases hl : meds.length > 0
  · rw [if_pos hl] at h
    cases he : (batchInsertMedicines db meds).err with
    | none =>
      rw [he] at h
      simp only [Option.some.injEq] at h
      exact h.symm
    | some e =>
      rw [he] at h
      simp only [Option.some.injEq] at h
      exact h.symm
  · rw [if_neg hl] at h
    exact absurd h (by simp)

/-- The names of the records of the map after the row loop are pairwise
distinct. -/
theorem loopRecords_names_nodup (orders : Nat → List (Str × List Str)) (phone address : Str)
    (pharmacyID : Int) (rows : List (List Str)) :
    ((loopRecords orders phone address pharmacyID rows).map (fun m => m.Name)).Nodup := by
  have h := loopRecords_keys_nodup orders phone address pharmacyID rows
  have hm : (loopRecords orders phone address pharmacyID rows).map Medicine.key =
      ((loopRecords orders phone address pharmacyID rows).map (fun m => m.Name)).map
        (fun k => (k, pharmacyID)) := by
    rw [List.map_map]
    apply List.map_congr_left
    intro m hm
    unfold loopRecords at hm
    obtain ⟨e, he, rfl⟩ := List.mem_map.1 hm
    have := uploadLoop_records orders phone address pharmacyID (flattenRows rows)
      LoopState.init 0 (fun e he => absurd he (List.not_mem_nil e)) e he
    simp only [Function.comp, Medicine.key, this.2]
  rw [hm] at h
  exact List.Nodup.of_map _ h

/-- C19. For every sheet, the records of the slice `UploadExcel` hands to
`batchInsertMedicines` have pairwise distinct names and all carry the
`pharmacyID` of the call, so their keys `(name, pharmacy_id)` are pairwise
distinct, and so are the keys of the rows of each insert statement issued. -/
theorem C19_slice_keys_distinct (db : DB) (fileName : Str) (rows : List (List Str))
    (botToken chatID phone address : Str) (pharmacyID : Int)
    (orders : Nat → List (Str × List Str)) (sliceOrder : List Medicine → List Medicine)
    (hs : IsSliceOrder sliceOrder) :
    ((UploadExcel db fileName (SheetRead.rows rows) botToken chatID phone address pharmacyID
        orders sliceOrder).medicines.map (fun m => m.Name)).Nodup ∧
      (∀ m, m ∈ (UploadExcel db fileName (SheetRead.rows rows) botToken chatID phone address
        pharmacyID orders sliceOrder).medicines → m.PharmacyID = pharmacyID) ∧
      ((UploadExcel db fileName (SheetRead.rows rows) botToken chatID phone address pharmacyID
        orders sliceOrder).medicines.map Medicine.key).Nodup ∧
      (∀ out, (UploadExcel db fileName (SheetRead.rows rows) botToken chatID phone address
          pharmacyID orders sliceOrder).batch = some out →
        ∀ statement, statement ∈ out.issued → (statement.map Medicine.key).Nodup) := by
  have hmed := (UploadExcel_medicines db fileName rows botToken chatID phone address pharmacyID
    orders sliceOrder).1
  have hperm := hs (loopRecords orders phone address pharmacyID rows)
  have hkeys : ((sliceOrder (loopRecords orders phone address pharmacyID rows)).map
      Medicine.key).Nodup :=
    (List.Perm.nodup_iff (hperm.map _)).2
      (loopRecords_keys_nodup orders phone address pharmacyID rows)
  rw [hmed]
  refine ⟨(List.Perm.nodup_iff (hperm.map _)).2
    (loopRecords_names_nodup orders phone address pharmacyID rows), fun m hm => ?_, hkeys,
    fun out hout statement hst => ?_⟩
  · have hm1 := hperm.subset hm
    unfold loopRecords at hm1
    obtain ⟨e, he, rfl⟩ := List.mem_map.1 hm1
    exact (uploadLoop_records orders phone address pharmacyID (flattenRows rows)
      LoopState.init 0 (fun e he => absurd he (List.not_mem_nil e)) e he).2
  · rw [UploadExcel_batch db fileName rows botToken chatID phone address pharmacyID orders
      sliceOrder out hout] at hst
    exact List.Nodup.sublist ((batchInsert_issued_sublist db _ statement hst).map _) hkeys

/-- Witness for C19: a sheet in which one name comes twice. -/
theorem C19_slice_keys_distinct_witness :
    IsSliceOrder id ∧
      ((UploadExcel emptyDB [] (SheetRead.rows
          [["1".toList, "Аспирин".toList, "5".toList, "10".toList, "20".toList, "1500".toList,
            "30000".toList, "Bayer".toList],
           ["2".toList, "Аспирин".toList, "5".toList, "10".toList, "20".toList, "1700".toList,
            "34000".toList, "Bayer".toList]]) [] [] "1".toList "A".toList 1
          (fun _ => categories) id).medicines.map Medicine.key).Nodup :=
  ⟨fun l => List.Perm.refl l,
    (C19_slice_keys_distinct emptyDB [] _ [] [] "1".toList "A".toList 1 (fun _ => categories) id
      (fun l => List.Perm.refl l)).2.2.1⟩

theorem uploadStep_accepted_stats (order : List (Str × List Str)) (phone address : Str)
    (pharmacyID : Int) (st : LoopState) (i : Nat) (rowStr : Str) (h : accepted rowStr = true) :
    (uploadStep order phone address pharmacyID st i rowStr).categoryStats =
      mapSet st.categoryStats (buildRecord order phone address pharmacyID rowStr).Category
        ((mapGet st.categoryStats
          (buildRecord order phone address pharmacyID rowStr).Category).getD 0 + 1) := by
  have hg : (!(parseRowData rowStr).ok || (parseRowData rowStr).num == 0) = false := by
    simp only [accepted, Bool.and_eq_true, bne_iff_ne, ne_eq] at h
    simp [h.1, h.2]
  simp only [uploadStep, hg, buildRecord]
  simp

/-- Counting one more under a category raises the total of the histogram by 1. -/
theorem statsTotal_mapSet (m : List (Str × Nat)) (k : Str) :
    statsTotal (mapSet m k ((mapGet m k).getD 0 + 1)) = statsTotal m + 1 := by
  induction m with
  | nil => rfl
  | cons e m ih =>
    obtain ⟨k1, v1⟩ := e
    by_cases hk : k1 = k
    · rw [mapSet, if_pos hk, mapGet, if_pos hk]
      simp only [statsTotal, List.map_cons, List.sum_cons, Option.getD_some]
      omega
    · rw [mapSet, if_neg hk, mapGet, if_neg hk]
      simp only [statsTotal, List.map_cons, List.sum_cons] at ih ⊢
      rw [ih]
      omega

theorem length_accepted_rejected (orders : Nat → List (Str × List Str)) (phone address : Str)
    (pharmacyID : Int) (rows : List Str) :
    ∀ i, (acceptedRecords orders phone address pharmacyID i rows).length +
      (rejectedLines i rows).length = rows.length := by
  induction rows with
  | nil => intro i; rfl
  | cons rowStr rest ih =>
    intro i
    cases hacc : accepted rowStr with
    | false =>
      simp only [acceptedRecords, rejectedLines, hacc, Bool.false_eq_true, if_false,
        List.length_cons]
      have := ih (i + 1)
      omega
    | true =>
      simp only [acceptedRecords, rejectedLines, hacc, if_true, List.length_cons]
      have := ih (i + 1)
      omega

/-- The counters after the rows, from any start with at most 10 lines retained. -/
theorem uploadLoop_counters (orders : Nat → List (Str × List Str)) (phone address : Str)
    (pharmacyID : Int) (rows : List Str) :
    ∀ (st : LoopState) (i : Nat), st.failedRows.length ≤ 10 →
      (uploadLoop orders phone address pharmacyID st i rows).skipped =
        st.skipped + (rejectedLines i rows).length ∧
      (uploadLoop orders phone address pharmacyID st i rows).failedRows =
        st.failedRows ++ (rejectedLines i rows).take (10 - st.failedRows.length) ∧
      statsTotal (uploadLoop orders phone address pharmacyID st i rows).categoryStats =
        statsTotal st.categoryStats +
          (acceptedRecords orders phone address pharmacyID i rows).length := by
  induction rows with
  | nil =>
    intro st i _
    simp only [uploadLoop, rejectedLines, acceptedRecords, List.length_nil, List.take_nil,
      List.append_nil, Nat.add_zero, and_self]
  | cons rowStr rest ih =>
    intro st i hlen
    rw [uploadLoop]
    cases hacc : accepted rowStr with
    | false =>
      have hst := uploadStep_rejected (orders i) phone address pharmacyID st i rowStr hacc
      have hsk : (uploadStep (orders i) phone address pharmacyID st i rowStr).skipped =
          st.skipped + 1 := by rw [hst]
      have hcs : (uploadStep (orders i) phone address pharmacyID st i rowStr).categoryStats =
          st.categoryStats := by rw [hst]
      have hfr : (uploadStep (orders i) phone address pharmacyID st i rowStr).failedRows =
          if st.failedRows.length < 10 then
            st.failedRows ++ ["Qator ".toList ++ fmtNat (i + 1) ++ ": ".toList ++ rowStr]
          else st.failedRows := by rw [hst]
      simp only [rejectedLines, acceptedRecords, hacc, Bool.false_eq_true, if_false,
        List.length_cons]
      by_cases hlt : st.failedRows.length < 10
      · rw [if_pos hlt] at hfr
        obtain ⟨h1, h2, h3⟩ :=
          ih (uploadStep (orders i) phone address pharmacyID st i rowStr) (i + 1)
            (by rw [hfr, List.length_append, List.length_singleton]; omega)
        rw [h1, h2, h3, hsk, hcs, hfr, List.length_append, List.length_singleton]
        refine ⟨by omega, ?_, rfl⟩
        have e10 : 10 - st.failedRows.length = (10 - (st.failedRows.length + 1)) + 1 := by omega
        rw [e10, List.take_succ_cons, List.append_assoc, List.singleton_append]
      · rw [if_neg hlt] at hfr
        obtain ⟨h1, h2, h3⟩ :=
          ih (uploadStep (orders i) phone address pharmacyID st i rowStr) (i + 1)
            (by rw [hfr]; exact hlen)
        rw [h1, h2, h3, hsk, hcs, hfr]
        refine ⟨by omega, ?_, rfl⟩
        have e0 : 10 - st.failedRows.length = 0 := by omega
        rw [e0, List.take_zero, List.take_zero]
    | true =>
      obtain ⟨-, -, hsk, hfr⟩ :=
        uploadStep_accepted (orders i) phone address pharmacyID st i rowStr hacc
      have hcs := uploadStep_accepted_stats (orders i) phone address pharmacyID st i rowStr hacc
      obtain ⟨h1, h2, h3⟩ :=
        ih (uploadStep (orders i) phone address pharmacyID st i rowStr) (i + 1)
          (by rw [hfr]; exact hlen)
      simp only [rejectedLines, acceptedRecords, hacc, if_true, List.length_cons]
      rw [h1, h2, h3, hsk, hfr, hcs, statsTotal_mapSet]
      refine ⟨rfl, rfl, by omega⟩

/-- C20. The run counters of `UploadExcel` are conserved, for every sheet:
skipped rows, records kept and duplicates add up to the number of non-empty
flattened rows; the counts of the category histogram add up to the records kept
plus the duplicates; and the retained failure sample is the first
`min(10, skipped)` rejected rows, in input order, each with its row number. -/
theorem C20_counters_conserved (db : DB) (fileName : Str) (rows : List (List Str))
    (botToken chatID phone address : Str) (pharmacyID : Int)
    (orders : Nat → List (Str × List Str)) (sliceOrder : List Medicine → List Medicine)
    (hs : IsSliceOrder sliceOrder) :
    (UploadExcel db fileName (SheetRead.rows rows) botToken chatID phone address pharmacyID
        orders sliceOrder).loop.skipped +
        (UploadExcel db fileName (SheetRead.rows rows) botToken chatID phone address pharmacyID
          orders sliceOrder).medicines.length +
        (UploadExcel db fileName (SheetRead.rows rows) botToken chatID phone address pharmacyID
          orders sliceOrder).loop.duplicates = (flattenRows rows).length ∧
      statsTotal (UploadExcel db fileName (SheetRead.rows rows) botToken chatID phone address
          pharmacyID orders sliceOrder).loop.categoryStats =
        (UploadExcel db fileName (SheetRead.rows rows) botToken chatID phone address pharmacyID
          orders sliceOrder).medicines.length +
        (UploadExcel db fileName (SheetRead.rows rows) botToken chatID phone address pharmacyID
          orders sliceOrder).loop.duplicates ∧
      (UploadExcel db fileName (SheetRead.rows rows) botToken chatID phone address pharmacyID
        orders sliceOrder).loop.skipped = (rejectedLines 0 (flattenRows rows)).length ∧
      (UploadExcel db fileName (SheetRead.rows rows) botToken chatID phone address pharmacyID
        orders sliceOrder).loop.failedRows =
        (rejectedLines 0 (flattenRows rows)).take
          (min 10 (UploadExcel db fileName (SheetRead.rows rows) botToken chatID phone address
            pharmacyID orders sliceOrder).loop.skipped) := by
  obtain ⟨hmed, hloop⟩ := UploadExcel_medicines db fileName rows botToken chatID phone address
    pharmacyID orders sliceOrder
  have hlen : (sliceOrder (loopRecords orders phone address pharmacyID rows)).length =
      (uploadLoop orders phone address pharmacyID LoopState.init 0
        (flattenRows rows)).medicinesMap.length := by
    rw [(hs _).length_eq]
    unfold loopRecords
    rw [List.length_map]
  obtain ⟨h1, h2, h3⟩ := uploadLoop_counters orders phone address pharmacyID (flattenRows rows)
    LoopState.init 0 (by decide)
  have h4 := (uploadLoop_spec orders phone address pharmacyID (flattenRows rows)
    LoopState.init 0).2.2.2
  have h5 := length_accepted_rejected orders phone address pharmacyID (flattenRows rows) 0
  have i1 : LoopState.init.skipped = 0 := rfl
  have i2 : LoopState.init.failedRows = [] := rfl
  have i3 : statsTotal LoopState.init.categoryStats = 0 := rfl
  have i4 : LoopState.init.duplicates = 0 := rfl
  have i5 : LoopState.init.medicinesMap.length = 0 := rfl
  rw [i1, Nat.zero_add] at h1
  rw [i2, List.nil_append, List.length_nil, Nat.sub_zero] at h2
  rw [i3, Nat.zero_add] at h3
  rw [i4, i5] at h4
  rw [hmed, hloop, hlen]
  refine ⟨by omega, by omega, h1, ?_⟩
  rw [h2, h1]
  by_cases hle : (rejectedLines 0 (flattenRows rows)).length ≤ 10
  · rw [Nat.min_eq_right hle, List.take_of_length_le hle, List.take_of_length_le (le_refl _)]
  · rw [Nat.min_eq_left (by omega)]

/-- Witness for C20: a sheet with a heading row, two rows of one name and an
empty row. -/
theorem C20_counters_conserved_witness :
    IsSliceOrder id ∧
      (UploadExcel emptyDB [] (SheetRead.rows
          [["№".toList, "Nomi".toList], [],
           ["1".toList, "Аспирин".toList, "5".toList, "10".toList, "20".toList, "1500".toList,
            "30000".toList, "Bayer".toList],
           ["2".toList, "Аспирин".toList, "5".toList, "10".toList, "20".toList, "1700".toList,
            "34000".toList, "Bayer".toList]]) [] [] "1".toList "A".toList 1
          (fun _ => categories) id).loop.failedRows =
        (rejectedLines 0 (flattenRows
          [["№".toList, "Nomi".toList], [],
           ["1".toList, "Аспирин".toList, "5".toList, "10".toList, "20".toList, "1500".toList,
            "30000".toList, "Bayer".toList],
           ["2".toList, "Аспирин".toList, "5".toList, "10".toList, "20".toList, "1700".toList,
            "34000".toList, "Bayer".toList]])).take
          (min 10 (UploadExcel emptyDB [] (SheetRead.rows
            [["№".toList, "Nomi".toList], [],
             ["1".toList, "Аспирин".toList, "5".toList, "10".toList, "20".toList,
              "1500".toList, "30000".toList, "Bayer".toList],
             ["2".toList, "Аспирин".toList, "5".toList, "10".toList, "20".toList,
              "1700".toList, "34000".toList, "Bayer".toList]]) [] [] "1".toList "A".toList 1
            (fun _ => categories) id).loop.skipped) :=
  ⟨fun l => List.Perm.refl l,
    (C20_counters_conserved emptyDB [] _ [] [] "1".toList "A".toList 1 (fun _ => categories) id
      (fun l => List.Perm.refl l)).2.2.2⟩

/-- C21, at three message sequences of the super admin.  After `/upload 2`,
`/ahad_confirm` consumes the selection and deletes the medicines of branch 2.
After `/ahad 2`, a document consumes the selection and `excel.UploadExcel` is
called with `pharmacyID` 2, a branch never selected with `/upload`.  After
`/ahad all`, a document consumes the stored -1 as its target: the upload stops at
the missing phone and address of branch -1, and a following `/ahad_confirm` finds
no selection. -/
theorem C21_session_shared_by_upload_and_delete :
    runUpdates sampleConfig sampleState [superText "/upload 2".toList,
        superText "/ahad_confirm".toList] =
      (⟨[], sampleState.settings,
          [⟨"Аспирин".toList, 1, 900, 3, "Bayer".toList, "1".toList, "A".toList, [],
            "Boshqa".toList, 5⟩]⟩,
        [Effect.reply, Effect.deleteBranch 2, Effect.reply]) ∧
    (runUpdates sampleConfig sampleState [superText "/ahad 2".toList]).1.uploadSession =
      [(100, 2)] ∧
    (runUpdates sampleConfig sampleState [superText "/ahad 2".toList, superDocument]).2 =
      [Effect.reply,
        Effect.uploadExcel "stock.xlsx".toList "100".toList "+998901234567".toList
          "Toshkent".toList 2] ∧
    (runUpdates sampleConfig sampleState
        [superText "/ahad 2".toList, superDocument]).1.uploadSession = [] ∧
    (runUpdates sampleConfig sampleState
        [superText "/ahad 2".toList, superDocument]).1.medicines =
      sampleStore ++
        [⟨"Клотримазол".toList, 2, 1500, 20, "Bayer".toList, "+998901234567".toList,
          "Toshkent".toList, "Teri kasalliklarini davolash".toList, "Dermatalogiya".toList, 7⟩] ∧
    (runUpdates sampleConfig sampleState [superText "/ahad all".toList]).1.uploadSession =
      [(100, -1)] ∧
    runUpdates sampleConfig sampleState [superText "/ahad all".toList, superDocument,
        superText "/ahad_confirm".toList] =
      (sampleState, [Effect.reply, Effect.reply, Effect.reply]) := by
  refine ⟨by rfl, by rfl, by rfl, by rfl, by rfl, by rfl, by rfl⟩

section GoMaps

variable {K V : Type} [DecidableEq K]

theorem lookupKey_mem (m : List (K × V)) (k : K) (v : V) (h : lookupKey m k = some v) :
    (k, v) ∈ m := by
  induction m with
  | nil => simp [lookupKey] at h
  | cons e m ih =>
    obtain ⟨k1, v1⟩ := e
    by_cases hk : k1 = k
    · rw [lookupKey, if_pos hk] at h
      injection h with h
      rw [hk, h]
      exact List.mem_cons_self _ _
    · rw [lookupKey, if_neg hk] at h
      exact List.mem_cons_of_mem _ (ih h)

theorem lookupKey_assignKey (m : List (K × V)) (k k1 : K) (v : V) :
    lookupKey (assignKey m k v) k1 = if k = k1 then some v else lookupKey m k1 := by
  induction m with
  | nil => simp only [assignKey, lookupKey]
  | cons e m ih =>
    obtain ⟨k2, v2⟩ := e
    by_cases h2 : k2 = k
    · subst h2
      by_cases h : k2 = k1
      · simp only [assignKey, lookupKey, if_true, h]
      · simp only [assignKey, lookupKey, if_true, h, if_false]
    · simp only [assignKey, h2, if_false, lookupKey, ih]
      by_cases h : k2 = k1
      · subst h
        have : ¬ k = k2 := fun hh => h2 hh.symm
        simp only [if_true, this, if_false]
      · simp only [h, if_false]

theorem mem_assignKey (m : List (K × V)) (k : K) (v : V) (e : K × V)
    (h : e ∈ assignKey m k v) : e = (k, v) ∨ e ∈ m := by
  induction m with
  | nil =>
    rw [assignKey, List.mem_singleton] at h
    exact Or.inl h
  | cons e0 m ih =>
    obtain ⟨k0, v0⟩ := e0
    by_cases hk : k0 = k
    · rw [assignKey, if_pos hk] at h
      rcases List.mem_cons.1 h with h1 | h1
      · exact Or.inl h1
      · exact Or.inr (List.mem_cons_of_mem _ h1)
    · rw [assignKey, if_neg hk] at h
      rcases List.mem_cons.1 h with h1 | h1
      · exact Or.inr (h1 ▸ List.mem_cons_self _ _)
      · rcases ih h1 with h2 | h2
        · exact Or.inl h2
        · exact Or.inr (List.mem_cons_of_mem _ h2)

theorem mem_deleteKey (m : List (K × V)) (k : K) (e : K × V) (h : e ∈ deleteKey m k) :
    e ∈ m :=
  (List.mem_filter.1 h).1

end GoMaps

/-- An admin who is not the super admin has one of the branches 1, 2, 3. -/
theorem getPharmacyID_range (cfg : Config) (userID : Int) (ha : isAdmin cfg userID = true)
    (hs : isSuperAdmin cfg userID = false) :
    1 ≤ getPharmacyID cfg userID ∧ getPharmacyID cfg userID ≤ 3 := by
  unfold isAdmin at ha
  rw [hs] at ha
  simp only [Bool.false_eq_true, if_false, Config.adminIDs, List.any_cons, List.any_nil,
    Bool.or_false, Bool.or_eq_true, decide_eq_true_eq] at ha
  unfold getPharmacyID
  rw [hs]
  simp only [Bool.false_eq_true, if_false, Config.adminPharmacy, lookupKey_assignKey, lookupKey]
  by_cases h4 : cfg.admin4 = userID
  · rw [if_pos h4]; decide
  · rw [if_neg h4]
    by_cases h3 : cfg.admin3 = userID
    · rw [if_pos h3]; decide
    · rw [if_neg h3]
      by_cases h2 : cfg.admin2 = userID
      · rw [if_pos h2]; decide
      · rcases ha with h | h | h
        · exact absurd h h2
        · exact absurd h h3
        · exact absurd h h4

theorem sessionOK_assign (st : BotState) (userID v : Int) (h : SessionOK st)
    (hv : v = -1 ∨ (1 ≤ v ∧ v ≤ 3)) :
    SessionOK { st with uploadSession := assignKey st.uploadSession userID v } := by
  refine ⟨fun e he => ?_, h.2⟩
  rcases mem_assignKey _ _ _ _ he with h1 | h1
  · rw [h1]; exact hv
  · exact h.1 e h1

theorem sessionOK_delete (st : BotState) (userID : Int) (h : SessionOK st) :
    SessionOK { st with uploadSession := deleteKey st.uploadSession userID } :=
  ⟨fun e he => h.1 e (mem_deleteKey _ _ _ he), h.2⟩

theorem sessionOK_medicines (st : BotState) (medicines : Store) (h : SessionOK st) :
    SessionOK { st with medicines := medicines } := h

theorem sessionOK_setting (st : BotState) (key : Str) (pharmacyID : Int) (value : Str)
    (h : SessionOK st) (hp : 1 ≤ pharmacyID ∧ pharmacyID ≤ 3) :
    SessionOK { st with settings := assignKey st.settings (key, pharmacyID) value } := by
  refine ⟨h.1, fun e he => ?_⟩
  rcases mem_assignKey _ _ _ _ he with h1 | h1
  · rw [h1]; exact hp
  · exact h.2 e h1

theorem stepOK_of (st : BotState) (effects : List Effect) (h : SessionOK st)
    (ht : uploadTargets effects = []) : StepOK (st, effects) :=
  ⟨h, fun p hp => by rw [ht] at hp; exact absurd hp (List.not_mem_nil p)⟩

theorem handleAhadSelect_ok (cfg : Config) (st : BotState) (msg : Message) (h : SessionOK st) :
    StepOK (handleAhadSelect cfg st msg) := by
  unfold handleAhadSelect
  repeat' split
  all_goals first
    | exact stepOK_of _ _ h rfl
    | exact stepOK_of _ _ (sessionOK_assign st _ _ h (Or.inl rfl)) rfl
    | exact stepOK_of _ _ (sessionOK_assign st _ _ h (Or.inr (by omega))) rfl

theorem handleUploadSelect_ok (cfg : Config) (st : BotState) (msg : Message) (h : SessionOK st) :
    StepOK (handleUploadSelect cfg st msg) := by
  unfold handleUploadSelect
  repeat' split
  all_goals first
    | exact stepOK_of _ _ h rfl
    | exact stepOK_of _ _ (sessionOK_assign st _ _ h (Or.inr (by omega))) rfl

theorem deleteMedicines_ok (env : Env) (st : BotState) (deleteAll : Bool) (pharmacyID : Int)
    (h : SessionOK st) : StepOK (deleteMedicines env st deleteAll pharmacyID) := by
  unfold deleteMedicines
  repeat' split
  all_goals exact stepOK_of _ _ h rfl

theorem handleAhadConfirm_ok (cfg : Config) (env : Env) (st : BotState) (msg : Message)
    (h : SessionOK st) : StepOK (handleAhadConfirm cfg env st msg) := by
  unfold handleAhadConfirm
  repeat' split
  all_goals first
    | exact stepOK_of _ _ h rfl
    | exact deleteMedicines_ok env _ _ _ h
    | exact deleteMedicines_ok env _ _ _ (sessionOK_delete st _ h)

theorem handleCancel_ok (st : BotState) (msg : Message) (h : SessionOK st) :
    StepOK (handleCancel st msg) :=
  stepOK_of _ _ (sessionOK_delete st _ h) rfl

theorem storeSetting_ok (env : Env) (st : BotState) (field : Field) (pharmacyID : Int)
    (value : Str) (h : SessionOK st) (hp : 1 ≤ pharmacyID ∧ pharmacyID ≤ 3) :
    StepOK (storeSetting env st field pharmacyID value) := by
  unfold storeSetting
  repeat' split
  all_goals first
    | exact stepOK_of _ _ h rfl
    | exact stepOK_of _ _ (sessionOK_setting st _ _ _ h hp) rfl

theorem handleSet_ok (cfg : Config) (env : Env) (st : BotState) (msg : Message) (field : Field)
    (h : SessionOK st) : StepOK (handleSet cfg env st msg field) := by
  unfold handleSet
  by_cases ha : isAdmin cfg msg.fromID = true
  · by_cases hs : isSuperAdmin cfg msg.fromID = true
    · simp only [ha, hs, Bool.not_true, Bool.false_eq_true, if_false, if_true]
      repeat' split
      all_goals first
        | exact stepOK_of _ _ h rfl
        | exact storeSetting_ok env st field _ _ h (by omega)
    · rw [Bool.not_eq_true] at hs
      simp only [ha, hs, Bool.not_true, Bool.false_eq_true, if_false]
      split
      · exact stepOK_of _ _ h rfl
      · exact storeSetting_ok env st field _ _ h (getPharmacyID_range cfg _ ha hs)
  · rw [Bool.not_eq_true] at ha
    simp only [ha, Bool.not_false, if_true]
    exact stepOK_of _ _ h rfl

theorem getSetting_outside (env : Env) (st : BotState) (key : Str) (pharmacyID : Int)
    (h : SessionOK st) (hp : ¬ (1 ≤ pharmacyID ∧ pharmacyID ≤ 3)) :
    getSetting env st key pharmacyID = [] := by
  unfold getSetting
  split
  · rfl
  · cases hl : lookupKey st.settings (key, pharmacyID) with
    | none => rfl
    | some value => exact absurd (h.2 _ (lookupKey_mem _ _ _ hl)) hp

theorem uploadDocument_ok (cfg : Config) (env : Env) (st : BotState) (msg : Message)
    (doc : Document) (pharmacyID : Int) (h : SessionOK st) :
    StepOK (uploadDocument cfg env st msg doc pharmacyID) := by
  unfold uploadDocument
  by_cases hp : 1 ≤ pharmacyID ∧ pharmacyID ≤ 3
  · simp only
    repeat' split
    all_goals first
      | exact stepOK_of _ _ h rfl
      | exact ⟨sessionOK_medicines st _ h, fun p hm => by
          simp only [uploadTargets, List.filterMap_cons, List.filterMap_nil,
            List.mem_singleton] at hm
          rw [hm]; exact hp⟩
  · simp only [getSetting_outside env st _ pharmacyID h hp, true_or, if_true]
    exact stepOK_of _ _ h rfl

theorem handleDocument_ok (cfg : Config) (env : Env) (st : BotState) (msg : Message)
    (doc : Document) (h : SessionOK st) : StepOK (handleDocument cfg env st msg doc) := by
  unfold handleDocument
  repeat' split
  all_goals first
    | exact stepOK_of _ _ h rfl
    | exact uploadDocument_ok cfg env _ msg doc _ h
    | exact uploadDocument_ok cfg env _ msg doc _ (sessionOK_delete st _ h)

theorem stepOK_ite (c : Prop) [Decidable c] (a b : BotState × List Effect) (ha : StepOK a)
    (hb : StepOK b) : StepOK (if c then a else b) := by
  by_cases hc : c
  · rw [if_pos hc]; exact ha
  · rw [if_neg hc]; exact hb

theorem handleMessage_ok (cfg : Config) (env : Env) (st : BotState) (msg : Message)
    (h : SessionOK st) : StepOK (handleMessage cfg env st msg) := by
  unfold handleMessage
  repeat' with_reducible apply stepOK_ite
  all_goals first
    | exact stepOK_of _ _ h rfl
    | exact handleAhadSelect_ok cfg st _ h
    | exact handleAhadConfirm_ok cfg env st _ h
    | exact handleCancel_ok st _ h
    | exact handleSet_ok cfg env st _ _ h
    | exact handleUploadSelect_ok cfg st _ h
    | (cases msg.document with
       | some doc => exact handleDocument_ok cfg env st _ _ h
       | none =>
         repeat' with_reducible apply stepOK_ite
         all_goals exact stepOK_of _ _ h rfl)

theorem handleUpdate_ok (cfg : Config) (env : Env) (st : BotState) (update : Option Message)
    (h : SessionOK st) : StepOK (handleUpdate cfg env st update) := by
  cases update with
  | none => exact stepOK_of _ _ h rfl
  | some msg => exact handleMessage_ok cfg env st msg h

/-- From a state in which every pending selection is -1 or a branch 1, 2, 3 and
every row of `settings` belongs to a branch 1, 2, 3, every call of
`excel.UploadExcel` the loop makes is for a branch 1, 2, 3: a stored -1 is
consumed by a document, but the upload stops at the missing phone of branch
-1. -/
theorem runUpdates_targets (cfg : Config) (updates : List (Env × Option Message)) :
    ∀ st : BotState, SessionOK st → StepOK (runUpdates cfg st updates) := by
  induction updates with
  | nil => intro st h; exact stepOK_of _ _ h rfl
  | cons u rest ih =>
    intro st h
    obtain ⟨env, update⟩ := u
    obtain ⟨h1, h2⟩ := handleUpdate_ok cfg env st update h
    obtain ⟨h3, h4⟩ := ih _ h1
    refine ⟨h3, fun p hp => ?_⟩
    have hp1 : p ∈ uploadTargets ((handleUpdate cfg env st update).2 ++
        (runUpdates cfg (handleUpdate cfg env st update).1 rest).2) := hp
    unfold uploadTargets at hp1
    rw [List.filterMap_append, List.mem_append] at hp1
    rcases hp1 with hp1 | hp1
    · exact h2 p hp1
    · exact h4 p hp1

/-- A row that one of the patterns matches with a row number other than 0 is
accepted, and `parseRowData` returns what it makes of the five submatches. -/
theorem rowMatch_accepted (rowStr m1 m2 m3 m4 m5 : Str)
    (h : rowMatch rowStr = some [m1, m2, m3, m4, m5]) (hnum : atoi m1 ≠ 0) :
    accepted rowStr = true ∧
      parseRowData rowStr =
        ⟨atoi m1, trimSpace m2, parseNumber m3, parseNumber m4, trimSpace m5, true⟩ := by
  have hp : parseRowData rowStr =
      ⟨atoi m1, trimSpace m2, parseNumber m3, parseNumber m4, trimSpace m5, true⟩ := by
    rw [parseRowData_eq, h]
    rfl
  refine ⟨?_, hp⟩
  unfold accepted
  rw [hp]
  simp only [Bool.true_and, bne_iff_ne, ne_eq]
  exact hnum

theorem mem_acceptedRecords (orders : Nat → List (Str × List Str)) (phone address : Str)
    (pharmacyID : Int) (rowStr : Str) (hacc : accepted rowStr = true) (rows : List Str) :
    rowStr ∈ rows → ∀ i,
      (parseRowData rowStr).name ∈
        (acceptedRecords orders phone address pharmacyID i rows).map (fun m => m.Name) := by
  induction rows with
  | nil => intro h; exact absurd h (List.not_mem_nil _)
  | cons r rest ih =>
    intro h i
    rcases List.mem_cons.1 h with h1 | h1
    · subst h1
      simp only [acceptedRecords, hacc, if_true, List.map_cons, buildRecord_name]
      exact List.mem_cons_self _ _
    · cases hr : accepted r with
      | false =>
        simp only [acceptedRecords, hr, Bool.false_eq_true, if_false]
        exact ih h1 (i + 1)
      | true =>
        simp only [acceptedRecords, hr, if_true, List.map_cons]
        exact List.mem_cons_of_mem _ (ih h1 (i + 1))

/-- Every accepted row leaves a record under its name in the slice handed to
`batchInsertMedicines`. -/
theorem accepted_row_in_slice (db : DB) (fileName : Str) (rows : List (List Str))
    (botToken chatID phone address : Str) (pharmacyID : Int)
    (orders : Nat → List (Str × List Str)) (sliceOrder : List Medicine → List Medicine)
    (hs : IsSliceOrder sliceOrder) (rowStr : Str) (hrow : rowStr ∈ flattenRows rows)
    (hacc : accepted rowStr = true) :
    ∃ m, m ∈ (UploadExcel db fileName (SheetRead.rows rows) botToken chatID phone address
        pharmacyID orders sliceOrder).medicines ∧ m.Name = (parseRowData rowStr).name := by
  rw [(UploadExcel_medicines db fileName rows botToken chatID phone address pharmacyID orders
    sliceOrder).1]
  have hkey := ((uploadLoop_spec orders phone address pharmacyID (flattenRows rows)
    LoopState.init 0).2.2.1 (parseRowData rowStr).name).2
    (Or.inr (mem_acceptedRecords orders phone address pharmacyID rowStr hacc _ hrow 0))
  rw [mapKeys_eq_map] at hkey
  obtain ⟨e, he, hname⟩ := List.mem_map.1 hkey
  have hinv := uploadLoop_records orders phone address pharmacyID (flattenRows rows)
    LoopState.init 0 (fun e he => absurd he (List.not_mem_nil e)) e he
  refine ⟨e.2, (hs _).symm.subset ?_, by rw [hinv.1, hname]⟩
  unfold loopRecords
  exact List.mem_map_of_mem _ he

/-- C17. A row that one of the two patterns matches, with submatches `m1`, ...,
`m5` and a row number other than 0, is accepted, and the record the loop body
files under the trimmed name has as manufacturer the trimmed tail `m5` of the
row when that is not empty and `Unknown` when it is.  Every such row of the
sheet leaves a record under its name in the slice handed to
`batchInsertMedicines`, and no record of that slice has an empty
manufacturer. -/
theorem C17_manufacturer_default (db : DB) (fileName : Str) (rows : List (List Str))
    (botToken chatID phone address : Str) (pharmacyID : Int)
    (orders : Nat → List (Str × List Str)) (sliceOrder : List Medicine → List Medicine)
    (hs : IsSliceOrder sliceOrder) :
    (∀ (order : List (Str × List Str)) (st : LoopState) (i : Nat) (rowStr m1 m2 m3 m4 m5 : Str),
      rowMatch rowStr = some [m1, m2, m3, m4, m5] → atoi m1 ≠ 0 →
      accepted rowStr = true ∧
      ∃ rec, mapGet (uploadStep order phone address pharmacyID st i rowStr).medicinesMap
          (trimSpace m2) = some rec ∧
        rec.Manufacturer = (if trimSpace m5 = [] then "Unknown".toList else trimSpace m5)) ∧
    (∀ (rowStr m1 m2 m3 m4 m5 : Str), rowStr ∈ flattenRows rows →
      rowMatch rowStr = some [m1, m2, m3, m4, m5] → atoi m1 ≠ 0 →
      ∃ m, m ∈ (UploadExcel db fileName (SheetRead.rows rows) botToken chatID phone address
          pharmacyID orders sliceOrder).medicines ∧ m.Name = trimSpace m2) ∧
    (∀ m, m ∈ (UploadExcel db fileName (SheetRead.rows rows) botToken chatID phone address
        pharmacyID orders sliceOrder).medicines → m.Manufacturer ≠ []) := by
  refine ⟨?_, ?_, ?_⟩
  · intro order st i rowStr m1 m2 m3 m4 m5 hm hnum
    obtain ⟨hacc, hp⟩ := rowMatch_accepted rowStr m1 m2 m3 m4 m5 hm hnum
    refine ⟨hacc, buildRecord order phone address pharmacyID rowStr, ?_, ?_⟩
    · rw [(uploadStep_accepted order phone address pharmacyID st i rowStr hacc).1,
        mapGet_mapSet, buildRecord_name, hp, if_pos rfl]
    · rw [(buildRecord_manufacturer order phone address pharmacyID rowStr).1, hp]
  · intro rowStr m1 m2 m3 m4 m5 hrow hm hnum
    obtain ⟨hacc, hp⟩ := rowMatch_accepted rowStr m1 m2 m3 m4 m5 hm hnum
    obtain ⟨m, hmem, hname⟩ := accepted_row_in_slice db fileName rows botToken chatID phone
      address pharmacyID orders sliceOrder hs rowStr hrow hacc
    exact ⟨m, hmem, by rw [hname, hp]⟩
  · intro m hm
    rw [(UploadExcel_medicines db fileName rows botToken chatID phone address pharmacyID orders
      sliceOrder).1] at hm
    have hm1 := (hs _).subset hm
    unfold loopRecords at hm1
    obtain ⟨e, he, rfl⟩ := List.mem_map.1 hm1
    exact uploadLoop_all (fun m => m.Manufacturer ≠ []) orders phone address pharmacyID
      (flattenRows rows)
      (fun rowStr _ _ order => (buildRecord_manufacturer order phone address pharmacyID rowStr).2)
      LoopState.init 0 (fun e he => absurd he (List.not_mem_nil e)) e he

/-- Witness for C17: a sheet of two rows, the first with a manufacturer cell
that is `Bayer` after a no-break space and before a space, the second without
one.  Both rows are accepted; the records filed
carry `Bayer` and `Unknown`; and the slice holds exactly these two records. -/
theorem C17_manufacturer_default_witness :
    IsSliceOrder id ∧
      flattenRows twoMakersSheet =
        ["1 Аспирин 5 10 20 1500 30000 \u00a0Bayer".toList,
          "2 Цитрамон 5 10 20 400 8000".toList] ∧
      (accepted "1 Аспирин 5 10 20 1500 30000 \u00a0Bayer".toList = true ∧
        ∃ rec, mapGet (uploadStep categories "1".toList "A".toList 1 LoopState.init 0
            "1 Аспирин 5 10 20 1500 30000 \u00a0Bayer".toList).medicinesMap
            (trimSpace "Аспирин".toList) = some rec ∧
          rec.Manufacturer = "Bayer".toList) ∧
      (accepted "2 Цитрамон 5 10 20 400 8000".toList = true ∧
        ∃ rec, mapGet (uploadStep categories "1".toList "A".toList 1 LoopState.init 1
            "2 Цитрамон 5 10 20 400 8000".toList).medicinesMap
            (trimSpace "Цитрамон".toList) = some rec ∧
          rec.Manufacturer = "Unknown".toList) ∧
      (∃ m, m ∈ (UploadExcel emptyDB [] (SheetRead.rows twoMakersSheet) [] [] "1".toList
          "A".toList 1 (fun _ => categories) id).medicines ∧
        m.Name = trimSpace "Цитрамон".toList) ∧
      (UploadExcel emptyDB [] (SheetRead.rows twoMakersSheet) [] [] "1".toList "A".toList 1
        (fun _ => categories) id).medicines.map (fun m => (m.Name, m.Manufacturer)) =
        [("Аспирин".toList, "Bayer".toList), ("Цитрамон".toList, "Unknown".toList)] :=
  ⟨fun l => List.Perm.refl l, by rfl,
    (C17_manufacturer_default emptyDB [] twoMakersSheet [] [] "1".toList "A".toList 1
      (fun _ => categories) id (fun l => List.Perm.refl l)).1 categories LoopState.init 0
      "1 Аспирин 5 10 20 1500 30000 \u00a0Bayer".toList "1".toList "Аспирин".toList "20".toList
      "1500".toList "\u00a0Bayer".toList (by rfl) (by decide),
    (C17_manufacturer_default emptyDB [] twoMakersSheet [] [] "1".toList "A".toList 1
      (fun _ => categories) id (fun l => List.Perm.refl l)).1 categories LoopState.init 1
      "2 Цитрамон 5 10 20 400 8000".toList "2".toList "Цитрамон".toList "20".toList
      "400".toList [] (by rfl) (by decide),
    (C17_manufacturer_default emptyDB [] twoMakersSheet [] [] "1".toList "A".toList 1
      (fun _ => categories) id (fun l => List.Perm.refl l)).2.1
      "2 Цитрамон 5 10 20 400 8000".toList "2".toList "Цитрамон".toList "20".toList
      "400".toList [] (by decide) (by rfl) (by decide),
    by rfl⟩

theorem fieldAhead_0_cons (c : Char) (r : Str) :
    fieldAhead 0 (c :: r) = (reSpace c && fieldAhead 1 r) := rfl

theorem fieldAhead_1_cons (c : Char) (r : Str) :
    fieldAhead 1 (c :: r) =
      if reSpace c then fieldAhead 1 r else reDigitComma c && fieldAhead 2 r := rfl

theorem fieldAhead_2_cons (c : Char) (r : Str) :
    fieldAhead 2 (c :: r) =
      if reDigitComma c then fieldAhead 2 r else reSpace c && fieldAhead 3 r := rfl

theorem fieldAhead_3_cons (n : Nat) (c : Char) (r : Str) :
    fieldAhead (n + 3) (c :: r) = reDigitSpaceComma c := rfl

theorem fieldAhead_three (n : Nat) (s : Str) :
    fieldAhead (n + 3) s = beginsWith reDigitSpaceComma s := by
  cases s <;> rfl

theorem fieldAhead_two (s : Str) :
    fieldAhead 2 s = (beginsWith reSpace (s.dropWhile reDigitComma) &&
      fieldAhead 3 ((s.dropWhile reDigitComma).drop 1)) := by
  induction s with
  | nil => rfl
  | cons c r ih =>
    by_cases hc : reDigitComma c = true
    · rw [fieldAhead_2_cons, if_pos hc, List.dropWhile_cons, if_pos hc, ih]
    · rw [fieldAhead_2_cons, if_neg hc, List.dropWhile_cons, if_neg hc]
      rfl

theorem fieldAhead_one (s : Str) :
    fieldAhead 1 s = (beginsWith reDigitComma (s.dropWhile reSpace) &&
      fieldAhead 2 (s.dropWhile reSpace)) := by
  induction s with
  | nil => rfl
  | cons c r ih =>
    by_cases hc : reSpace c = true
    · rw [fieldAhead_1_cons, if_pos hc, List.dropWhile_cons, if_pos hc, ih]
    · rw [fieldAhead_1_cons, if_neg hc, List.dropWhile_cons, if_neg hc]
      by_cases hd : reDigitComma c = true
      · simp only [beginsWith, hd, Bool.true_and]
        rw [fieldAhead_2_cons, if_pos hd]
      · simp only [beginsWith, hd, Bool.not_eq_true, Bool.false_and]

theorem fieldAhead_zero (s : Str) :
    fieldAhead 0 s = (beginsWith reSpace s && fieldAhead 1 s) := by
  cases s with
  | nil => rfl
  | cons c r =>
    by_cases hc : reSpace c = true
    · rw [fieldAhead_0_cons, fieldAhead_1_cons, if_pos hc, hc]
      simp only [beginsWith, hc, Bool.true_and]
    · rw [fieldAhead_0_cons]
      simp only [beginsWith, hc, Bool.not_eq_true, Bool.false_and]

/-- Where the full pattern could go on after the name, the fallback pattern
could too. -/
theorem fieldAhead_of_numberAhead (s : Str) :
    (numberAhead 0 s = true → fieldAhead 0 s = true) ∧
      (numberAhead 1 s = true → fieldAhead 1 s = true) ∧
      (numberAhead 2 s = true → fieldAhead 2 s = true) ∧
      (numberAhead 3 s = true → fieldAhead 3 s = true) := by
  induction s with
  | nil => exact ⟨fun h => h, fun h => h, fun h => h, fun h => h⟩
  | cons c r ih =>
    obtain ⟨-, i1, i2, i3⟩ := ih
    refine ⟨fun h => ?_, fun h => ?_, fun h => ?_, fun h => ?_⟩
    · rw [numberAhead_0_cons, Bool.and_eq_true] at h
      rw [fieldAhead_0_cons, h.1, Bool.true_and]
      exact i1 h.2
    · rw [numberAhead_1_cons] at h
      rw [fieldAhead_1_cons]
      by_cases hc : reSpace c = true
      · rw [if_pos hc] at h ⊢
        exact i1 h
      · rw [if_neg hc] at h ⊢
        rw [Bool.and_eq_true] at h
        rw [reDigit_reDigitComma c h.1, Bool.true_and]
        exact i2 h.2
    · rw [numberAhead_2_cons] at h
      rw [fieldAhead_2_cons]
      by_cases hd : isDigit c = true
      · rw [if_pos hd] at h
        rw [if_pos (reDigit_reDigitComma c hd)]
        exact i2 h
      · rw [if_neg hd, Bool.and_eq_true] at h
        rw [if_neg (by rw [reSpace_not_reDigitComma c h.1]; decide), h.1, Bool.true_and]
        rw [fieldAhead_three 0]
        have h3 := h.2
        rw [numberAhead_three 0] at h3
        cases r with
        | nil => exact absurd h3 (by decide)
        | cons e r =>
          by_cases he : reSpace e = true
          · simp only [beginsWith, reDigitSpaceComma, he, Bool.or_true, Bool.true_or]
          · rw [List.dropWhile_cons, if_neg he] at h3
            exact reDigitComma_reDigitSpaceComma e h3
    · rw [fieldAhead_3_cons 0]
      rw [numberAhead_3_cons 0] at h
      by_cases hc : reSpace c = true
      · simp only [reDigitSpaceComma, hc, Bool.or_true, Bool.true_or]
      · rw [if_neg hc] at h
        exact reDigitComma_reDigitSpaceComma c h

/-- Where the string does not go on like a count and a price column, the pieces
`\s+([\d,]+)\s+([\d\s,]+)` that follow the name group of the fallback pattern
fail. -/
theorem match_none_no_field (ps : List Piece) (s : Str) (h : fieldAhead 0 s = false) :
    matchPieces (⟨reSpace, 1, true, false⟩ :: ⟨reDigitComma, 1, true, true⟩ ::
      ⟨reSpace, 1, true, false⟩ :: ⟨reDigitSpaceComma, 1, true, true⟩ :: ps) s = none := by
  refine match_none_after_run _ _ _ s (Nat.le_refl 1) (Nat.le_refl 1)
    (fun c hc => reSpace_not_reDigitComma c hc) (fun h0 => ?_)
  rw [fieldAhead_zero, h0, Bool.true_and, fieldAhead_one] at h
  refine match_none_after_run _ _ _ _ (Nat.le_refl 1) (Nat.le_refl 1)
    (fun c hc => reDigitComma_not_reSpace c hc) (fun h1 => ?_)
  have h1' : beginsWith reDigitComma (s.dropWhile reSpace) = true := h1
  rw [h1', Bool.true_and, fieldAhead_two] at h
  generalize (s.dropWhile reSpace).dropWhile reDigitComma = t at h ⊢
  cases t with
  | nil => exact match_none_of_head _ _ _ (Nat.le_refl 1) (head_nil_not _)
  | cons c r =>
    by_cases hc : reSpace c = true
    · simp only [beginsWith, hc, Bool.true_and, List.drop_succ_cons, List.drop_zero] at h
      rw [fieldAhead_three 0] at h
      have hr : ∀ e, e ∈ r.head? → reDigitSpaceComma e = false := beginsWith_false_head _ _ h
      apply match_none_of_all
      intro k hk1 hk2
      have hlen : (([c] ++ r).takeWhile reSpace).length = 1 :=
        length_takeWhile_append_stop reSpace [c] r
          (fun e he => by rw [List.mem_singleton.1 he]; exact hc)
          (fun e he => not_reSpace_of_not_class e (hr e he))
      have hk : k = 1 := by
        rw [List.singleton_append] at hlen
        rw [hlen] at hk2
        simp only at hk1
        omega
      subst hk
      exact match_none_of_head _ _ _ (Nat.le_refl 1) hr
    · exact match_none_of_head _ _ _ (Nat.le_refl 1)
        (head_cons_not _ c r (by simpa using hc))

theorem fieldAhead_at_column (d : Char) (r : Str) (hd : reDigitComma d = true) :
    fieldAhead 2 (' ' :: d :: r) = true := by
  have h1 : ¬ reDigitComma ' ' = true := by decide
  have h2 : reSpace ' ' = true := by decide
  rw [fieldAhead_2_cons, if_neg h1, h2, Bool.true_and, fieldAhead_3_cons 0]
  exact reDigitComma_reDigitSpaceComma d hd

/-- Inside the name the reading does not depend on the columns that follow,
beyond their beginning with a space and a digit or comma. -/
theorem fieldAhead_in_name (d : Char) (r : Str) (hd : reDigitComma d = true) (y : Str) :
    y ≠ [] → (∀ c, c ∈ y.getLast? → reSpace c = false) →
    fieldAhead 0 (y ++ ' ' :: d :: r) = fieldAhead 0 (y ++ [' ', '0']) ∧
      fieldAhead 1 (y ++ ' ' :: d :: r) = fieldAhead 1 (y ++ [' ', '0']) ∧
      fieldAhead 2 (y ++ ' ' :: d :: r) = fieldAhead 2 (y ++ [' ', '0']) ∧
      fieldAhead 3 (y ++ ' ' :: d :: r) = fieldAhead 3 (y ++ [' ', '0']) := by
  induction y with
  | nil => intro h; exact absurd rfl h
  | cons c y ih =>
    intro _ hlast
    have hE1 := fieldAhead_at_column d r hd
    have hE2 : fieldAhead 2 [' ', '0'] = true := by decide
    by_cases hy : y = []
    · subst hy
      have hc : reSpace c = false := hlast c rfl
      have hc' : ¬ reSpace c = true := by rw [hc]; decide
      simp only [List.cons_append, List.nil_append]
      refine ⟨?_, ?_, ?_, rfl⟩
      · rw [fieldAhead_0_cons c (' ' :: d :: r), fieldAhead_0_cons c [' ', '0'], hc,
          Bool.false_and, Bool.false_and]
      · rw [fieldAhead_1_cons c (' ' :: d :: r), fieldAhead_1_cons c [' ', '0'], if_neg hc',
          if_neg hc', hE1, hE2]
      · rw [fieldAhead_2_cons c (' ' :: d :: r), fieldAhead_2_cons c [' ', '0']]
        by_cases hcd : reDigitComma c = true
        · rw [if_pos hcd, if_pos hcd, hE1, hE2]
        · rw [if_neg hcd, if_neg hcd, hc, Bool.false_and, Bool.false_and]
    · have hl : ∀ c1, c1 ∈ y.getLast? → reSpace c1 = false := by
        intro c1 h1
        apply hlast c1
        cases y with
        | nil => exact absurd rfl hy
        | cons b y => rw [List.getLast?_cons_cons]; exact h1
      obtain ⟨-, i1, i2, i3⟩ := ih hy hl
      simp only [List.cons_append]
      refine ⟨?_, ?_, ?_, rfl⟩
      · rw [fieldAhead_0_cons c (y ++ ' ' :: d :: r), fieldAhead_0_cons c (y ++ [' ', '0']), i1]
      · rw [fieldAhead_1_cons c (y ++ ' ' :: d :: r), fieldAhead_1_cons c (y ++ [' ', '0']),
          i1, i2]
      · rw [fieldAhead_2_cons c (y ++ ' ' :: d :: r), fieldAhead_2_cons c (y ++ [' ', '0']),
          i2, i3]

/-- Cut short inside a name that is `nameFieldSafe`, neither pattern can go on:
the string after the cut does not read as numeric columns. -/
theorem name_cut_fails (name : Str) (hsafe : nameFieldSafe name = true)
    (hnl : ∀ c, c ∈ name.getLast? → reSpace c = false) (d : Char) (r : Str)
    (hd : reDigitComma d = true) (k : Nat) (hk1 : 1 ≤ k) (hk2 : k < name.length) :
    fieldAhead 0 ((name ++ ' ' :: d :: r).drop k) = false ∧
      numberAhead 0 ((name ++ ' ' :: d :: r).drop k) = false := by
  rw [List.drop_append_of_le_length (Nat.le_of_lt hk2)]
  have hne : name.drop k ≠ [] := by
    intro he
    have := congrArg List.length he
    rw [List.length_drop, List.length_nil] at this
    omega
  have hl : ∀ c, c ∈ (name.drop k).getLast? → reSpace c = false := by
    rw [getLast_drop name k hk2]; exact hnl
  have hf : fieldAhead 0 (name.drop k ++ ' ' :: d :: r) = false := by
    rw [(fieldAhead_in_name d r hd (name.drop k) hne hl).1]
    have h := List.all_eq_true.1 hsafe k (List.mem_range.2 hk2)
    have hk0 : (k == 0) = false := by
      cases k with
      | zero => omega
      | succ k => rfl
    rw [hk0, Bool.false_or] at h
    simpa using h
  refine ⟨hf, ?_⟩
  cases hn : numberAhead 0 (name.drop k ++ ' ' :: d :: r) with
  | false => rfl
  | true =>
    rw [(fieldAhead_of_numberAhead _).1 hn] at hf
    exact absurd hf (by decide)

/-- What a piece takes from the front of a string it matches. -/
theorem match_take (p : Piece) (ps : List Piece) (s : Str) (caps : List Str)
    (h : matchPieces (p :: ps) s = some caps) :
    ∃ x t caps1, s = x ++ t ∧ (∀ c, c ∈ x → p.cls c = true) ∧ p.min ≤ x.length ∧
      matchPieces ps t = some caps1 := by
  obtain ⟨n, caps1, hmin, hn, hrest, -⟩ := matchPieces_cons_some p ps s caps h
  have hlen : (s.takeWhile p.cls).length ≤ s.length := (List.takeWhile_sublist _).length_le
  refine ⟨s.take n, s.drop n, caps1, (List.take_append_drop n s).symm,
    mem_take_of_le_takeWhile p.cls s n hn, ?_, hrest⟩
  rw [List.length_take]
  omega

theorem countP_of_all (x : Str) (h : ∀ c, c ∈ x → reSpace c = true) :
    x.countP reSpace = x.length :=
  List.countP_eq_length.2 h

/-- The numeric columns the full pattern needs after the name: a run of digits,
commas and `\s` that holds five `\s` and goes on after them. -/
theorem fullTail_needs (s : Str) (caps : List Str) (h : matchPieces fullTail s = some caps) :
    ∃ u c v, s = u ++ c :: v ∧ (∀ x, x ∈ u → reDigitSpaceComma x = true) ∧
      reDigitSpaceComma c = true ∧ 5 ≤ u.countP reSpace := by
  unfold fullTail at h
  obtain ⟨x1, t1, c1, e1, h1, m1, r1⟩ := match_take _ _ _ _ h
  obtain ⟨x2, t2, c2, e2, h2, m2, r2⟩ := match_take _ _ _ _ r1
  obtain ⟨x3, t3, c3, e3, h3, m3, r3⟩ := match_take _ _ _ _ r2
  obtain ⟨x4, t4, c4, e4, h4, m4, r4⟩ := match_take _ _ _ _ r3
  obtain ⟨x5, t5, c5, e5, h5, m5, r5⟩ := match_take _ _ _ _ r4
  obtain ⟨x6, t6, c6, e6, h6, m6, r6⟩ := match_take _ _ _ _ r5
  obtain ⟨x7, t7, c7, e7, h7, m7, r7⟩ := match_take _ _ _ _ r6
  obtain ⟨x8, t8, c8, e8, h8, m8, r8⟩ := match_take _ _ _ _ r7
  obtain ⟨x9, t9, c9, e9, h9, m9, r9⟩ := match_take _ _ _ _ r8
  obtain ⟨x10, t10, c10, e10, h10, m10, -⟩ := match_take _ _ _ _ r9
  simp only at h1 h2 h3 h4 h5 h6 h7 h8 h9 h10 m1 m3 m5 m7 m9 m10
  cases x10 with
  | nil => simp at m10
  | cons c x10 =>
    have hws : ∀ x, reSpace x = true → reDigitSpaceComma x = true := by
      intro x hx
      simp only [reDigitSpaceComma, hx, Bool.or_true, Bool.true_or]
    have hdg : ∀ x, reDigit x = true → reDigitSpaceComma x = true := by
      intro x hx
      simp only [reDigitSpaceComma, hx, Bool.true_or]
    refine ⟨x1 ++ (x2 ++ (x3 ++ (x4 ++ (x5 ++ (x6 ++ (x7 ++ (x8 ++ x9))))))), c, x10 ++ t10,
      ?_, ?_, h10 c (List.mem_cons_self _ _), ?_⟩
    · rw [e1, e2, e3, e4, e5, e6, e7, e8, e9, e10]
      simp only [List.append_assoc, List.cons_append]
    · intro x hx
      simp only [List.mem_append] at hx
      rcases hx with hx | hx | hx | hx | hx | hx | hx | hx | hx
      · exact hws x (h1 x hx)
      · exact hdg x (h2 x hx)
      · exact hws x (h3 x hx)
      · exact reDigitComma_reDigitSpaceComma x (h4 x hx)
      · exact hws x (h5 x hx)
      · exact reDigitComma_reDigitSpaceComma x (h6 x hx)
      · exact hws x (h7 x hx)
      · exact h8 x hx
      · exact hws x (h9 x hx)
    · simp only [List.countP_append]
      rw [countP_of_all x1 h1, countP_of_all x3 h3, countP_of_all x5 h5, countP_of_all x7 h7,
        countP_of_all x9 h9]
      omega

/-- A run of digits, commas and `\s` cut out of the columns `core`, their
separator from the manufacturer and the manufacturer, and going on inside them,
holds no more `\s` than `core` does. -/
theorem columns_bound (core sep mT u v : Str) (c : Char) (j : Nat) (hsep : sep.length ≤ 1)
    (hm : ∀ x, x ∈ mT.head? → reDigitSpaceComma x = false) (hj : j ≤ (core ++ sep).length)
    (hs : ((core ++ sep) ++ mT).drop j = u ++ c :: v)
    (hu : ∀ x, x ∈ u → reDigitSpaceComma x = true) (hc : reDigitSpaceComma c = true) :
    u.countP reSpace ≤ core.countP reSpace := by
  rw [List.drop_append_of_le_length hj] at hs
  have hhead : ∀ (a r : Str), mT = a ++ c :: r → (∀ x, x ∈ a → reDigitSpaceComma x = true) →
      False := by
    intro a r he ha
    cases a with
    | nil =>
      rw [he] at hm
      have := hm c rfl
      rw [hc] at this
      exact absurd this (by decide)
    | cons a0 a =>
      rw [he] at hm
      have := hm a0 rfl
      rw [ha a0 (List.mem_cons_self _ _)] at this
      exact absurd this (by decide)
  rcases List.append_eq_append_iff.1 hs with ⟨a, h1, h2⟩ | ⟨b, h1, h2⟩
  · exact absurd (hhead a v h2 (fun x hx => hu x (h1 ▸ List.mem_append_right _ hx))) id
  · cases b with
    | nil =>
      rw [List.nil_append] at h2
      exact absurd (hhead [] v h2.symm (fun x hx => absurd hx (List.not_mem_nil x))) id
    | cons b0 b =>
      have hjc : j ≤ core.length := by
        by_contra hlt
        have hl := congrArg List.length h1
        rw [List.length_drop, List.length_append, List.length_append, List.length_cons] at hl
        omega
      rw [List.drop_append_of_le_length hjc] at h1
      have hsub : u.Sublist core := by
        rcases List.append_eq_append_iff.1 h1 with ⟨a, g1, g2⟩ | ⟨e, g1, g2⟩
        · have hl := congrArg List.length g2
          rw [List.length_append, List.length_cons] at hl
          have ha : a = [] := List.length_eq_zero.1 (by omega)
          rw [ha, List.append_nil] at g1
          rw [g1]
          exact List.drop_sublist _ _
        · exact ((List.sublist_append_left u e).trans (g1 ▸ List.Sublist.refl _)).trans
            (List.drop_sublist j core)
      exact hsub.countP_le _

/-- The full pattern does not match a trimmed row of the fallback shape whose
price holds at most one `\s` and whose total holds none: wherever the name group
ends, fewer than five `\s` stand in the numeric columns that follow. -/
theorem full_pattern_fails (N name count price total mT : Str)
    (hNd : ∀ c, c ∈ N → isDigit c = true)
    (hname : name ≠ []) (hnh : ∀ c, c ∈ name.head? → reSpace c = false)
    (hnl : ∀ c, c ∈ name.getLast? → reSpace c = false)
    (hsafe : nameFieldSafe name = true)
    (hc : count ≠ []) (hcd : ∀ c, c ∈ count → reDigitComma c = true)
    (hp1 : price.countP reSpace ≤ 1)
    (htd : ∀ c, c ∈ total → reDigitComma c = true)
    (hm1 : ∀ c, c ∈ mT.head? → reDigitSpaceComma c = false)
    (hts : tailSafe mT = true) :
    matchPieces pattern1
        (N ++ ' ' :: (name ++ ' ' :: (count ++ ' ' ::
          (price ++ ((' ' :: (total ++ if mT = [] then [] else [' '])) ++ mT))))) = none := by
  have hp : pattern1 = ⟨reDigit, 1, true, true⟩ :: ⟨reSpace, 1, true, false⟩ ::
      ⟨reAny, 1, false, true⟩ :: fullTail := rfl
  rw [hp]
  refine match_none_after_run _ _ _ _ (Nat.le_refl 1) (Nat.le_refl 1)
    (fun c hc => isDigit_not_reSpace c hc) (fun _ => ?_)
  have hdw : ∀ (z : Str), (N ++ ' ' :: z).dropWhile reDigit = ' ' :: z := by
    intro z
    rw [List.dropWhile_append_of_pos (p := reDigit) hNd, List.dropWhile_cons]
    rfl
  show matchPieces _ ((N ++ ' ' :: _).dropWhile reDigit) = none
  rw [hdw]
  apply match_none_of_all
  intro k0 hk01 hk02
  have hlen : (([' '] ++ (name ++ ' ' :: (count ++ ' ' ::
      (price ++ ((' ' :: (total ++ if mT = [] then [] else [' '])) ++ mT))))).takeWhile
        reSpace).length = 1 :=
    length_takeWhile_append_stop reSpace [' '] _
      (fun e he => by rw [List.mem_singleton.1 he]; decide)
      (head_append_not _ _ _ hname hnh)
  have hk0 : k0 = 1 := by
    rw [List.singleton_append] at hlen
    simp only at hk01 hk02
    rw [hlen] at hk02
    omega
  subst hk0
  rw [List.drop_succ_cons, List.drop_zero]
  apply match_none_of_all
  intro k hk1 _
  simp only at hk1
  by_cases hk : k < name.length
  · cases count with
    | nil => exact absurd rfl hc
    | cons d c1 =>
      rw [List.cons_append]
      unfold fullTail
      exact match_none_no_number _ _
        (name_cut_fails name hsafe hnl d _ (hcd d (List.mem_cons_self _ _)) k hk1 hk).2
  · have hz : name ++ ' ' :: (count ++ ' ' ::
        (price ++ ((' ' :: (total ++ if mT = [] then [] else [' '])) ++ mT))) =
        name ++ (((' ' :: (count ++ ' ' :: (price ++ ' ' :: total))) ++
          (if mT = [] then [] else [' '])) ++ mT) := by
      simp only [List.append_assoc, List.cons_append]
    rw [hz, List.drop_append_eq_append_drop, List.drop_eq_nil_of_le (by omega), List.nil_append]
    generalize hj : k - name.length = j
    by_cases hjl : j ≤ ((' ' :: (count ++ ' ' :: (price ++ ' ' :: total))) ++
        (if mT = [] then [] else [' '])).length
    · cases hmt : matchPieces fullTail
          ((((' ' :: (count ++ ' ' :: (price ++ ' ' :: total))) ++
            (if mT = [] then [] else [' '])) ++ mT).drop j) with
      | none => rfl
      | some caps =>
        obtain ⟨u, c, v, hs, hu, hcc, h5⟩ := fullTail_needs _ caps hmt
        have hsep : (if mT = [] then [] else [' '] : Str).length ≤ 1 := by
          by_cases he : mT = []
          · rw [if_pos he]; exact Nat.zero_le 1
          · rw [if_neg he]; exact Nat.le_refl 1
        have hb := columns_bound _ _ mT u v c j hsep hm1 hjl hs hu hcc
        have hc0 : count.countP reSpace = 0 :=
          List.countP_eq_zero.2 (fun e he => by
            rw [reDigitComma_not_reSpace e (hcd e he)]; decide)
        have ht0 : total.countP reSpace = 0 :=
          List.countP_eq_zero.2 (fun e he => by
            rw [reDigitComma_not_reSpace e (htd e he)]; decide)
        have hsp : reSpace ' ' = true := by decide
        rw [List.countP_cons, List.countP_append, List.countP_cons, List.countP_append,
          List.countP_cons, hc0, ht0, hsp] at hb
        simp only [if_true] at hb
        omega
    · rw [List.drop_append_eq_append_drop, List.drop_eq_nil_of_le (by omega), List.nil_append]
      unfold fullTail
      apply match_none_no_number
      generalize j - ((' ' :: (count ++ ' ' :: (price ++ ' ' :: total))) ++
        (if mT = [] then [] else [' '])).length = i
      by_cases hi : i < mT.length
      · have h := List.all_eq_true.1 hts i (List.mem_range.2 hi)
        simpa using h
      · rw [List.drop_eq_nil_of_le (by omega)]
        rfl

/-- The fallback pattern on a row of the fallback shape, already trimmed: the
captures are the row number, the name, the count, the price and the
manufacturer. -/
theorem match_fallback_shape (N name count price total mT : Str)
    (hN : N ≠ []) (hNd : ∀ c, c ∈ N → isDigit c = true)
    (hname : name ≠ []) (hnh : ∀ c, c ∈ name.head? → reSpace c = false)
    (hnl : ∀ c, c ∈ name.getLast? → reSpace c = false)
    (hnn : ∀ c, c ∈ name → reAny c = true)
    (hsafe : nameFieldSafe name = true)
    (hc : count ≠ []) (hcd : ∀ c, c ∈ count → reDigitComma c = true)
    (hp : price ≠ []) (hpd : ∀ c, c ∈ price → reDigitSpaceComma c = true)
    (hph : ∀ c, c ∈ price.head? → reSpace c = false)
    (ht : total ≠ []) (htd : ∀ c, c ∈ total → reDigitComma c = true)
    (hm1 : ∀ c, c ∈ mT.head? → reDigitSpaceComma c = false)
    (hm2 : ∀ c, c ∈ mT → reAny c = true) :
    matchPieces pattern2
        (N ++ ' ' :: (name ++ ' ' :: (count ++ ' ' ::
          (price ++ ((' ' :: (total ++ if mT = [] then [] else [' '])) ++ mT))))) =
      some [N, name, count, price, mT] := by
  unfold pattern2
  refine match_greedy_run_cap _ _ N _ _ rfl rfl hNd (head_cons_not _ ' ' _ (by decide))
    (length_pos_of_ne_nil N hN) ?_
  refine match_one_space _ _ _ (head_append_not _ _ _ hname hnh) ?_
  refine match_lazy_cap _ _ name _ _ rfl rfl hnn (length_pos_of_ne_nil name hname) ?_ ?_
  · refine match_one_space _ _ _ (head_append_not _ _ _ hc
      (head_mem_not _ _ (fun c hc => reDigitComma_not_reSpace c (hcd c hc)))) ?_
    refine match_greedy_run_cap _ _ count _ _ rfl rfl hcd (head_cons_not _ ' ' _ (by decide))
      (length_pos_of_ne_nil count hc) ?_
    refine match_one_space _ _ _ (head_append_not _ _ _ hp hph) ?_
    refine match_greedy_backoff_cap _ _ price
      (' ' :: (total ++ if mT = [] then [] else [' '])) mT _ rfl rfl hpd ?_ hm1
      (length_pos_of_ne_nil price hp) (match_after_price total mT ht htd hm1 hm2)
      (match_none_after_price _ total mT htd hm1)
    intro c hc
    rcases List.mem_cons.1 hc with h | h
    · rw [h]; decide
    · rcases List.mem_append.1 h with h | h
      · exact reDigitComma_reDigitSpaceComma c (htd c h)
      · by_cases hm : mT = []
        · rw [if_pos hm] at h; exact absurd h (List.not_mem_nil c)
        · rw [if_neg hm] at h; rw [List.mem_singleton.1 h]; decide
  · intro k hk1 hk2
    cases count with
    | nil => exact absurd rfl hc
    | cons d c1 =>
      rw [List.cons_append]
      apply match_none_no_field
      exact (name_cut_fails name hsafe hnl d _ (hcd d (List.mem_cons_self _ _)) k hk1 hk2).1

/-- C3, as amended. For a row of the fallback shape `N name count price total
manufacturer`, its fields joined by single spaces, where `N` is a digit string of
value at most `2^63 - 1`; `name` is non-empty, is left as it is by `TrimSpace`,
has no line feed, and no proper suffix of it reads as a count and a price column
(`nameFieldSafe`); `count` and `total` are non-empty strings of digits and
commas; `price` is a non-empty string of digits, commas and `\s` code points that
does not begin with `\s` and holds at most one `\s`; and `manufacturer` does not
begin with white space, a digit or a comma, has no line feed in its trimmed form
and holds no numeric columns there (`tailSafe`): the full pattern does not match
the trimmed row, and `parseRowData` returns ok, with `num = N`, the name,
`count = parseNumber(count)`, `price = parseNumber(price)` and the trimmed
manufacturer. -/
theorem C3_fallback_shape_parsed (N name count price total mfr : Str)
    (hN : N ≠ []) (hNd : N.all isDigit = true) (hNv : decimalValue N ≤ 2 ^ 63 - 1)
    (hname : name ≠ []) (hnt : trimSpace name = name) (hnn : '\n' ∉ name)
    (hns : nameFieldSafe name = true)
    (hc : count ≠ []) (hcd : count.all reDigitComma = true)
    (hp : price ≠ []) (hpd : price.all reDigitSpaceComma = true)
    (hph : beginsWith reSpace price = false) (hp1 : price.countP reSpace ≤ 1)
    (ht : total ≠ []) (htd : total.all reDigitComma = true)
    (hm : beginsWith isSpace mfr = false) (hmd : beginsWith reDigitComma mfr = false)
    (hmn : '\n' ∉ trimSpace mfr) (hms : tailSafe (trimSpace mfr) = true) :
    matchPieces pattern1 (trimSpace (joinSpace [N, name, count, price, total, mfr])) = none ∧
      parseRowData (joinSpace [N, name, count, price, total, mfr]) =
        ⟨(decimalValue N : Int), name, parseNumber count, parseNumber price, trimSpace mfr,
          true⟩ := by
  obtain ⟨w, hw1, hw2, hhead, hlast, hnil⟩ := trimSpace_decomp mfr hm
  obtain ⟨hnh, hnl⟩ := head_last_of_trimSpace_eq name hnt
  have hNd' : ∀ c, c ∈ N → isDigit c = true := List.all_eq_true.1 hNd
  have hcd' : ∀ c, c ∈ count → reDigitComma c = true := List.all_eq_true.1 hcd
  have htd' : ∀ c, c ∈ total → reDigitComma c = true := List.all_eq_true.1 htd
  have hany : ∀ (s : Str), '\n' ∉ s → ∀ c, c ∈ s → reAny c = true := by
    intro s hs c hc
    simp only [reAny, bne_iff_ne, ne_eq]
    intro h
    exact hs (h ▸ hc)
  have hm1 : ∀ c, c ∈ (trimSpace mfr).head? → reDigitSpaceComma c = false := by
    intro c hc
    rw [hhead] at hc
    cases mfr with
    | nil => simp at hc
    | cons m0 r =>
      have : m0 = c := by simpa using hc
      subst this
      exact not_reDigitSpaceComma m0 hm hmd
  have hnh' : ∀ c, c ∈ name.head? → reSpace c = false :=
    fun c hc => not_reSpace_of_not_isSpace c (hnh c hc)
  have hnl' : ∀ c, c ∈ name.getLast? → reSpace c = false :=
    fun c hc => not_reSpace_of_not_isSpace c (hnl c hc)
  have hfail := full_pattern_fails N name count price total (trimSpace mfr) hNd' hname hnh' hnl'
    hns hc hcd' hp1 htd' hm1 hms
  have hmatch := match_fallback_shape N name count price total (trimSpace mfr) hN hNd' hname
    hnh' hnl' (hany name hnn) hns hc hcd' hp (List.all_eq_true.1 hpd)
    (fun c hc => by
      cases price with
      | nil => simp at hc
      | cons p0 r =>
        have : p0 = c := by simpa using hc
        subst this
        exact hph)
    ht htd' hm1 (hany _ hmn)
  have hrow : joinSpace [N, name, count, price, total, mfr] =
      (N ++ ' ' :: (name ++ ' ' :: (count ++ ' ' ::
          (price ++ ((' ' :: (total ++ if trimSpace mfr = [] then [] else [' '])) ++
            trimSpace mfr))))) ++
        (if trimSpace mfr = [] then ' ' :: w else w) := by
    by_cases he : trimSpace mfr = []
    · have hmfr := hnil he
      have hwnil : w = [] := by
        rw [he, hmfr, List.nil_append] at hw1
        exact hw1.symm
      subst hmfr
      have hte : trimSpace ([] : Str) = [] := rfl
      simp only [joinSpace, hte, hwnil, if_true, List.append_nil, List.append_assoc,
        List.cons_append, List.nil_append]
    · conv_lhs => rw [hw1]
      simp only [joinSpace, he, if_false, List.append_assoc, List.cons_append, List.nil_append]
  have hsp : ∀ c, c ∈ (if trimSpace mfr = [] then ' ' :: w else w) → isSpace c = true := by
    intro c hc
    by_cases he : trimSpace mfr = []
    · rw [if_pos he] at hc
      rcases List.mem_cons.1 hc with h | h
      · rw [h]; decide
      · exact hw2 c h
    · rw [if_neg he] at hc; exact hw2 c hc
  have hNne : ∀ r, N ++ r ≠ [] := by
    intro r h
    exact hN (List.append_eq_nil.1 h).1
  have htrim : trimSpace (joinSpace [N, name, count, price, total, mfr]) =
      N ++ ' ' :: (name ++ ' ' :: (count ++ ' ' ::
          (price ++ ((' ' :: (total ++ if trimSpace mfr = [] then [] else [' '])) ++
            trimSpace mfr)))) := by
    rw [hrow]
    refine trimSpace_append_spaces _ _ ?_ ?_ hsp
    · exact head_append_not _ _ _ hN
        (head_mem_not _ _ (fun c hc => isDigit_not_isSpace c (hNd' c hc)))
    · have hre : N ++ ' ' :: (name ++ ' ' :: (count ++ ' ' ::
          (price ++ ((' ' :: (total ++ if trimSpace mfr = [] then [] else [' '])) ++
            trimSpace mfr)))) =
          (N ++ ' ' :: (name ++ ' ' :: (count ++ ' ' ::
            (price ++ [' '])))) ++
            (total ++ ((if trimSpace mfr = [] then [] else [' ']) ++ trimSpace mfr)) := by
        simp only [List.append_assoc, List.cons_append, List.nil_append]
      rw [hre, List.getLast?_append_of_ne_nil _ (by
        intro h; exact ht (List.append_eq_nil.1 h).1)]
      by_cases he : trimSpace mfr = []
      · rw [he, if_pos rfl, List.append_nil, List.append_nil]
        intro c hc
        exact reDigitComma_not_isSpace c (htd' c (List.mem_of_mem_getLast? hc))
      · rw [if_neg he, ← List.append_assoc, List.getLast?_append_of_ne_nil _ he]
        exact hlast
  have hne : N ++ ' ' :: (name ++ ' ' :: (count ++ ' ' ::
          (price ++ ((' ' :: (total ++ if trimSpace mfr = [] then [] else [' '])) ++
            trimSpace mfr)))) ≠ [] := hNne _
  have htm : trimSpace (trimSpace mfr) = trimSpace mfr := by
    have := trimSpace_append_spaces (trimSpace mfr) []
      (fun c hc => by
        rw [hhead] at hc
        cases mfr with
        | nil => simp at hc
        | cons m0 r =>
          have : m0 = c := by simpa using hc
          subst this
          exact hm)
      hlast (fun c hc => absurd hc (List.not_mem_nil c))
    rwa [List.append_nil] at this
  refine ⟨by rw [htrim]; exact hfail, ?_⟩
  unfold parseRowData
  simp only [htrim, if_neg hne, hfail, hmatch, Parsed.ofMatch, hnt, htm]
  rw [atoi_digits N hN hNd, Nat.min_eq_left hNv]

/-- Witness for C3: the row `1 Парацетамол 500 мг 20 1 500 30000 Bayer AG`. -/
theorem C3_fallback_shape_parsed_witness :
    matchPieces pattern1 (trimSpace (joinSpace ["1".toList, "Парацетамол 500 мг".toList,
        "20".toList, "1 500".toList, "30000".toList, "Bayer AG".toList])) = none ∧
      parseRowData (joinSpace ["1".toList, "Парацетамол 500 мг".toList, "20".toList,
        "1 500".toList, "30000".toList, "Bayer AG".toList]) =
        ⟨(decimalValue "1".toList : Int), "Парацетамол 500 мг".toList, parseNumber "20".toList,
          parseNumber "1 500".toList, trimSpace "Bayer AG".toList, true⟩ :=
  C3_fallback_shape_parsed "1".toList "Парацетамол 500 мг".toList "20".toList
    "1 500".toList "30000".toList "Bayer AG".toList
    (by decide) (by decide) (by decide) (by decide) (by decide) (by decide) (by decide)
    (by decide) (by decide) (by decide) (by decide) (by decide) (by decide) (by decide)
    (by decide) (by decide) (by decide) (by decide) (by decide)

/-- C3 as stated fails. The row `1 Аспирин 20 1 500 30 000 Bayer` of the fallback
shape (count `20`, price `1 500`, total `30 000`) is matched by the full pattern,
tried first, and `parseRowData` returns count 500 and price 30, where
`parseNumber "20" = 20` and `parseNumber "1 500" = 1500`; with price `1 500 000`
and total `30000` the full pattern matches too, and the result is count 500 and
price 0; with price `1500` and total `30 000` the full pattern does not match and
the fallback pattern takes part of the total into the price, 150030; a name that
ends in a number, `Витамин 12`, is cut and gives count 12 and price 201500; and a
manufacturer that holds numeric columns lets the full pattern match with the name
group over the whole row before them, with count 3 and price 45. -/
theorem C3_fallback_shape_counterexample :
    matchPieces pattern1 "1 Аспирин 20 1 500 30 000 Bayer".toList =
        some ["1".toList, "Аспирин".toList, "500".toList, "30".toList, "Bayer".toList] ∧
      joinSpace ["1".toList, "Аспирин".toList, "20".toList, "1 500".toList, "30 000".toList,
        "Bayer".toList] = "1 Аспирин 20 1 500 30 000 Bayer".toList ∧
      parseRowData "1 Аспирин 20 1 500 30 000 Bayer".toList =
        ⟨1, "Аспирин".toList, 500, 30, "Bayer".toList, true⟩ ∧
      parseNumber "20".toList = 20 ∧ parseNumber "1 500".toList = 1500 ∧
      parseRowData (joinSpace ["1".toList, "Аспирин".toList, "20".toList, "1 500 000".toList,
        "30000".toList, "Bayer".toList]) = ⟨1, "Аспирин".toList, 500, 0, "Bayer".toList, true⟩ ∧
      parseNumber "1 500 000".toList = 1500000 ∧
      matchPieces pattern1 (joinSpace ["1".toList, "Аспирин".toList, "20".toList,
        "1500".toList, "30 000".toList, "Bayer".toList]) = none ∧
      parseRowData (joinSpace ["1".toList, "Аспирин".toList, "20".toList, "1500".toList,
        "30 000".toList, "Bayer".toList]) =
        ⟨1, "Аспирин".toList, 20, 150030, "Bayer".toList, true⟩ ∧
      parseNumber "1500".toList = 1500 ∧
      parseRowData (joinSpace ["1".toList, "Витамин 12".toList, "20".toList, "1500".toList,
        "30000".toList, "Bayer".toList]) =
        ⟨1, "Витамин".toList, 12, 201500, "Bayer".toList, true⟩ ∧
      parseRowData (joinSpace ["1".toList, "Аспирин".toList, "20".toList, "1500".toList,
        "30000".toList, "Bayer 1 2 3 4 5 6".toList]) =
        ⟨1, "Аспирин 20 1500 30000 Bayer".toList, 3, 45, [], true⟩ := by
  refine ⟨by decide, by decide, by rfl, by rfl, by rfl, by rfl, by rfl, by decide, by rfl,
    by rfl, by rfl, by rfl⟩

end Excel
